import Mathlib

/-!
# HSSP conversion: alignment statistics, hit ranking and the sequence buffer

A shallow embedding of `src/hssp-convert-3to1.cpp`:

* `seq_impl`, `insertion` and `seq.append` : the sequence buffer;
* `seq_impl.update` : the column scan that recomputes the alignment statistics
  of a hit against the query row;
* `Hit`, `compare_hit`, `ChainToHits`, `CreateHSSP` : ranking, truncation and
  numbering of the hits;
* `alignmentBlocks`, `relent`, `insertionLines` : the parts of `CreateHSSPOutput`
  that write the `## ALIGNMENTS` blocks, the RELENT column and the
  `## INSERTION LIST`;
* `updateAccesses` : the buffer positions that `update` reads or writes.

Characters are `Char`, buffers are `List Char`.  Counters of type `uint32` that
are bounded by a column index are natural numbers (a buffer holds fewer than
`2^32` characters, so they cannot wrap); `jpos`, which starts from an arbitrary
stored value, wraps explicitly, and so does the counter of the ALIGNMENTS loop,
which runs against the size of the hit list.  The two `float` counters are natural
numbers with the saturating increment `floatInc`.  The RELENT expression is
evaluated in binary floating point: every operation returns its exact result
rounded to the nearest number of its type, a tie going to the even one.
-/

namespace Hssp

/-! ## Tables declared outside the source file -/

/-- Gap symbols, as listed in the comment of `is_gap`. -/
def gapSymbols : List Char := ['-', '~', '.', '_', ' ']

/-- The twenty amino-acid letters, in the order of the profile header. -/
def residueLetters : List Char :=
  ['V', 'L', 'I', 'M', 'F', 'W', 'Y', 'G', 'A', 'P',
   'S', 'T', 'C', 'H', 'R', 'K', 'Q', 'E', 'N', 'D']

/-- Modelled from the spec: the table `kResidueIX` is declared in a header that
is not part of the source.  A gap symbol maps to `-2`, one of the twenty
amino-acid letters to its index, every other character to `-1`. -/
def kResidueIX_model (c : Char) : Int :=
  if c ∈ gapSymbols then -2
  else if c ∈ residueLetters then (residueLetters.indexOf c : Int)
  else -1

/-- `is_gap(aa)`: `kResidueIX[uint8(aa)] == -2`. -/
def is_gap (kResidueIX : Char → Int) (aa : Char) : Bool :=
  kResidueIX aa == -2

/-- Conversion of a table entry to `uint8`. -/
def toUInt8 (x : Int) : Nat := (x % 256).toNat

/-- `numeric_limits<uint32>::max()`. -/
def UINT32_MAX : Nat := 4294967295

/-- `++x` on a `float` holding a whole number: single precision represents the
integers up to `2^24` exactly, and `2^24 + 1` rounds back to `2^24`. -/
def floatInc (x : Nat) : Nat := if x < 16777216 then x + 1 else x

/-! ## The sequence record -/

/-- `struct insertion`. -/
structure insertion where
  m_ipos : Nat
  m_jpos : Nat
  m_seq : List Char
  deriving DecidableEq

/-- `struct seq::seq_impl`.  `m_seq` holds the `m_size` characters of the buffer,
`m_score` the two operands of the division `float(m_identical) / m_length`,
`m_id2` the key returned by `id2()`. -/
structure seq_impl where
  m_id2 : String
  m_ifir : Nat
  m_ilas : Nat
  m_jfir : Nat
  m_jlas : Nat
  m_length : Nat
  m_identical : Nat
  m_similar : Nat
  m_score : Nat × Nat
  m_begin : Nat
  m_end : Nat
  m_gaps : Nat
  m_gapn : Nat
  m_insertions : List insertion
  m_seq : List Char
  m_space : Nat
  deriving DecidableEq

/-- The field `m_size`: the number of characters in the buffer. -/
def seq_impl.m_size (s : seq_impl) : Nat := s.m_seq.length

/-- `const uint32 kBlockSize = 512`. -/
def kBlockSize : Nat := 512

/-- `seq_impl::seq_impl(acc)`: every statistic zero, no buffer. -/
def seq_impl.new (acc : String) : seq_impl :=
  { m_id2 := acc, m_ifir := 0, m_ilas := 0, m_jfir := 0, m_jlas := 0,
    m_length := 0, m_identical := 0, m_similar := 0, m_score := (0, 0),
    m_begin := 0, m_end := 0, m_gaps := 0, m_gapn := 0, m_insertions := [],
    m_seq := [], m_space := 0 }

/-- `seq::append`: when the new length exceeds the capacity the buffer is
reallocated with `n = max (2 * k) |seq|` bytes, `k` the old capacity or the block
size, `n` a `uint32`; then the characters are copied behind the old ones and
`m_end`, `m_size` are advanced.  The buffer is kept as the list of its `m_size`
characters, which is what the record holds as long as the copy stays within the
capacity. -/
def seq_impl.append (self : seq_impl) (seq : List Char) : seq_impl :=
  let space :=
    if self.m_size + seq.length > self.m_space then
      let k := if self.m_space = 0 then kBlockSize else self.m_space
      let n := (k * 2) % 2 ^ 32
      if n < seq.length then seq.length % 2 ^ 32 else n
    else self.m_space
  { self with
    m_space := space
    m_seq := self.m_seq ++ seq
    m_end := self.m_size + seq.length }

/-! ## `seq_impl::update` -/

/-- How `update` can end other than by returning: the `THROW` of the letter
check, or an access outside the buffer (undefined behaviour in the source). -/
inductive UpdateError where
  | invalidLetter (c : Char)
  | outOfBounds
  deriving DecidableEq

/-- The local variables of `seq_impl::update` and the record it works on. -/
structure UpdState where
  ipos : Nat
  jpos : Nat
  sgapf : Bool
  qgapf : Bool
  gapn : Nat
  gaps : Nat
  ins : insertion
  length : Nat
  self : seq_impl
  deriving DecidableEq

/-- The backward search `while (gsi != begin() and is_gap(*gsi)) --gsi`, started
at index `g`; the result is the index where it stops. -/
def findPrev (kResidueIX : Char → Int) (buf : List Char) : Nat → Nat
  | 0 => 0
  | g + 1 => if is_gap kResidueIX (buf.getD (g + 1) ' ') then findPrev kResidueIX buf g else g + 1

/-- First column of a run gapped in the query only (`if (not qgapf)`): the hit
character found by the backward search from `si - 1` is lower-cased in place and
opens the text of a new insertion.  In column 0 the pointer `si - 1` lies before
the buffer. -/
def openInsertion (kResidueIX : Char → Int) (i : Nat) (st : UpdState) :
    Except UpdateError UpdState :=
  if i = 0 then .error .outOfBounds
  else
    let gsi := findPrev kResidueIX st.self.m_seq (i - 1)
    let c := (st.self.m_seq.getD gsi ' ').toLower
    .ok { st with
          ins := { m_ipos := st.ipos, m_jpos := st.jpos, m_seq := [c] }
          self := { st.self with m_seq := st.self.m_seq.set gsi c } }

/-- The assignments of the statements after the three-way branch: identity,
similarity, `m_begin` and `m_end`.  `sc` is the character `*si` as the branch
left it; `rq`, `rs` are the two table entries as `uint8`. -/
def tailState (kResidueIX : Char → Int) (kD : Nat → Nat → Int) (i : Nat) (qc sc : Char)
    (st : UpdState) : UpdState :=
  let rq := toUInt8 (kResidueIX qc)
  let rs := toUInt8 (kResidueIX sc)
  { st with
    self := { st.self with
              m_identical := if qc = sc then floatInc st.self.m_identical else st.self.m_identical
              m_similar :=
                if (rq : Int) ≥ 0 ∧ (rs : Int) ≥ 0 ∧ kD rq rs ≥ 0 then floatInc st.self.m_similar
                else st.self.m_similar
              m_begin := if st.self.m_begin = UINT32_MAX then i else st.self.m_begin
              m_end := i + 1 } }

/-- The statements after the three-way branch, reached by every column in which
the hit is not gapped: the two letter checks `if (rq == -1) THROW`,
`if (rs == -1) THROW` on the `uint8` values, around the assignments of
`tailState`. -/
def updateTail (kResidueIX : Char → Int) (kD : Nat → Nat → Int) (i : Nat) (qc sc : Char)
    (st : UpdState) : Except UpdateError UpdState :=
  if ((toUInt8 (kResidueIX qc) : Nat) : Int) = -1 then .error (.invalidLetter qc)
  else if ((toUInt8 (kResidueIX sc) : Nat) : Int) = -1 then .error (.invalidLetter sc)
  else .ok (tailState kResidueIX kD i qc sc st)

/-- The branch `if (sgap)`: a column gapped in the hit only. -/
def stepHitGap (st : UpdState) : UpdState :=
  { st with
    gaps := if !(st.sgapf || st.qgapf) then st.gaps + 1 else st.gaps
    sgapf := true
    gapn := st.gapn + 1
    ipos := st.ipos + 1 }

/-- The branch `else if (qgap)` after the insertion has been opened: the hit
character is appended to the insertion text and the gap counters advance. -/
def stepQueryGap (sc : Char) (st : UpdState) : UpdState :=
  { st with
    ins := { st.ins with m_seq := st.ins.m_seq ++ [sc] }
    gaps := if !(st.sgapf || st.qgapf) then st.gaps + 1 else st.gaps
    qgapf := true
    gapn := st.gapn + 1
    jpos := (st.jpos + 1) % 2 ^ 32 }

/-- The first statement of the aligned branch, `if (qgapf)`: the hit character
is lower-cased in place, closes the insertion text, and the insertion is pushed. -/
def closeInsertion (i : Nat) (sc : Char) (st : UpdState) : UpdState :=
  let ins : insertion := { st.ins with m_seq := st.ins.m_seq ++ [sc.toLower] }
  { st with
    ins := ins
    self := { st.self with
              m_seq := st.self.m_seq.set i sc.toLower
              m_insertions := st.self.m_insertions ++ [ins] } }

/-- The rest of the aligned branch: flags, `m_ilas`, the start of the alignment
or the folding of the pending gap counters, and the position counters. -/
def stepAligned (st : UpdState) : UpdState :=
  { st with
    sgapf := false
    qgapf := false
    length := if st.self.m_ifir = 0 then 1 else st.length
    gaps := 0
    gapn := 0
    ipos := st.ipos + 1
    jpos := (st.jpos + 1) % 2 ^ 32
    self :=
      if st.self.m_ifir = 0 then
        { st.self with m_ilas := st.ipos, m_ifir := st.ipos }
      else
        { st.self with
          m_ilas := st.ipos
          m_gapn := st.self.m_gapn + st.gapn
          m_gaps := st.self.m_gaps + st.gaps
          m_length := st.length } }

/-- The loop body for column `i`, with `qc = *qi` and `sc = *si` as read at the
top of the body. -/
def updateColumn (kResidueIX : Char → Int) (kD : Nat → Nat → Int) (i : Nat) (qc sc : Char)
    (st : UpdState) : Except UpdateError UpdState :=
  if is_gap kResidueIX qc && is_gap kResidueIX sc then .ok st
  else
    let st := { st with length := if st.length > 0 then st.length + 1 else st.length }
    if is_gap kResidueIX sc then .ok (stepHitGap st)
    else if is_gap kResidueIX qc then
      match (if !st.qgapf then openInsertion kResidueIX i st else .ok st) with
      | .error e => .error e
      | .ok st => updateTail kResidueIX kD i qc sc (stepQueryGap sc st)
    else if st.qgapf then
      updateTail kResidueIX kD i qc sc.toLower (stepAligned (closeInsertion i sc st))
    else
      updateTail kResidueIX kD i qc sc (stepAligned st)

/-- One pass of the loop for column `i`: `*si` is read from the buffer (an access
past its end is an error), then the body runs. -/
def updateStep (kResidueIX : Char → Int) (kD : Nat → Nat → Int) (i : Nat) (qc : Char)
    (st : UpdState) : Except UpdateError UpdState :=
  match st.self.m_seq[i]? with
  | none => .error .outOfBounds
  | some sc => updateColumn kResidueIX kD i qc sc st

/-- The loop `for (; qi != qseq.end(); ++qi, ++si, ++i)` over the remaining query
characters, from column `i`. -/
def updateLoop (kResidueIX : Char → Int) (kD : Nat → Nat → Int) :
    List Char → Nat → UpdState → Except UpdateError UpdState
  | [], _, st => .ok st
  | qc :: qs, i, st =>
    match updateStep kResidueIX kD i qc st with
    | .error e => .error e
    | .ok st => updateLoop kResidueIX kD qs (i + 1) st

/-- The final loop over the buffer: blank outside `[m_begin, m_end)`, `'.'` for a
gap inside. -/
def trimBuffer (kResidueIX : Char → Int) (b e : Nat) : Nat → List Char → List Char
  | _, [] => []
  | i, c :: cs =>
    (if i < b ∨ i ≥ e then ' ' else if is_gap kResidueIX c then '.' else c)
      :: trimBuffer kResidueIX b e (i + 1) cs

/-- The state in which the loop starts: the counters, and the record with the
statistics that `update` resets. -/
def updateInit (self : seq_impl) : UpdState :=
  { ipos := 1
    jpos := if self.m_jfir = 0 then 1 else self.m_jfir
    sgapf := false
    qgapf := false
    gapn := 0
    gaps := 0
    ins := { m_ipos := 0, m_jpos := 0, m_seq := [] }
    length := 0
    self := { self with
              m_ifir := 0, m_similar := 0, m_identical := 0, m_gapn := 0, m_gaps := 0
              m_begin := UINT32_MAX, m_end := 0 } }

/-- The statements after the loop: the empty range or the trimming of the
buffer, then `m_score`. -/
def updateFinish (kResidueIX : Char → Int) (self : seq_impl) : seq_impl :=
  let self :=
    if self.m_begin = UINT32_MAX then { self with m_begin := 0, m_end := 0 }
    else { self with m_seq := trimBuffer kResidueIX self.m_begin self.m_end 0 self.m_seq }
  { self with m_score := (self.m_identical, self.m_length) }

/-- `seq::seq_impl::update(qseq)`. -/
def seq_impl.update (kResidueIX : Char → Int) (kD : Nat → Nat → Int) (self qseq : seq_impl) :
    Except UpdateError seq_impl :=
  match updateLoop kResidueIX kD qseq.m_seq 0 (updateInit self) with
  | .error e => .error e
  | .ok st => .ok (updateFinish kResidueIX st.self)

/-! ## Hits: ranking, truncation, numbering -/

/-- `struct Hit`.  `m_seq` and `m_qseq` are the rows the hit refers to; `m_ide`
is the identity score that `operator<` compares (a `float`, taken as a rational
number). -/
structure Hit where
  m_seq : seq_impl
  m_qseq : seq_impl
  m_chain : Char
  m_nr : Nat
  m_ifir : Nat
  m_ilas : Nat
  m_offset : Nat
  m_ide : ℚ
  deriving DecidableEq

/-- `Hit::operator<`, which `compare_hit` applies to the two pointers. -/
def compare_hit (a b : Hit) : Bool :=
  decide (a.m_ide > b.m_ide) ||
  (decide (a.m_ide = b.m_ide) && decide (a.m_seq.m_length > b.m_seq.m_length)) ||
  (decide (a.m_ide = b.m_ide) && decide (a.m_seq.m_length = b.m_seq.m_length) &&
    decide (a.m_seq.m_id2 > b.m_seq.m_id2))

/-- The order in which `sort` may leave two hits: the second does not compare
before the first. -/
def notAfter (a b : Hit) : Prop := compare_hit b a = false

instance : DecidableRel notAfter := fun a b => by unfold notAfter; infer_instance

/-- `sort(hits.begin(), hits.end(), compare_hit())`, as an insertion sort with
the comparator. -/
def sortHits (hits : List Hit) : List Hit := hits.insertionSort notAfter

/-- The statement `if (inMaxHits > 0 and hits.size() > inMaxHits) hits.erase(...)`. -/
def truncateHits (inMaxHits : Nat) (hits : List Hit) : List Hit :=
  if inMaxHits > 0 ∧ hits.length > inMaxHits then hits.take inMaxHits else hits

/-- The loop `foreach (hit_ptr h, hits) h->m_nr = nr++`. -/
def numberHits : Nat → List Hit → List Hit
  | _, [] => []
  | nr, h :: hs => { h with m_nr := nr } :: numberHits (nr + 1) hs

/-- `Hit::Hit(s, q, chain, offset)`; `ide` gives the identity score of the row. -/
def Hit.new (ide : seq_impl → ℚ) (s q : seq_impl) (chain : Char) (offset : Nat) : Hit :=
  { m_seq := s, m_qseq := q, m_chain := chain, m_nr := 0,
    m_ifir := s.m_ifir + offset, m_ilas := s.m_ilas + offset, m_offset := offset,
    m_ide := ide s }

/-- The loop of `ChainToHits` that creates the hits: every row after the first
whose key `id2()` the databank resolves (`resolve`, for `GetDocumentNr`) becomes a
hit against row 0; the new hits are appended to `hits`. -/
def ChainToHits (resolve : String → Bool) (ide : seq_impl → ℚ) (msa : List seq_impl)
    (chain : Char) (offset : Nat) (hits : List Hit) : List Hit :=
  match msa with
  | [] => hits
  | q :: rows =>
    hits ++ (rows.filter fun s => resolve s.m_id2).map fun s => Hit.new ide s q chain offset

/-- The errors raised by `CreateHSSP` in the part embedded here. -/
inductive CreateError where
  | noHits
  deriving DecidableEq

/-- `CreateHSSP(inDatabank, inAlignment, inMaxHits, inCutOff, outHSSP)` from the
call of `ChainToHits` on: hits are created, sorted, truncated; an empty list
raises "No hits found or remaining"; otherwise the hits are numbered and the
report is written.  `render` is the text that the conservation pass and
`CreateHSSPOutput` write for the numbered hits.  The result is what the call
raised, if anything, and the output stream as a list of written pieces. -/
def CreateHSSP (resolve : String → Bool) (ide : seq_impl → ℚ)
    (render : List Hit → List String) (msa : List seq_impl) (inMaxHits : Nat)
    (outHSSP : List String) : Except CreateError Unit × List String :=
  let hits := ChainToHits resolve ide msa 'A' 0 []
  let hits := sortHits hits
  let hits := truncateHits inMaxHits hits
  if hits.isEmpty then (.error .noHits, outHSSP)
  else
    let hits := numberHits 1 hits
    (.ok (), outHSSP ++ render hits)

/-! ## The loop replayed over the columns on entry -/

/-- The loop of `update` over the columns `(query character, hit character)` of
the two rows as they were on entry, from column `i`.  It is `updateLoop` with
`*si` supplied instead of read (`updateLoop_eq_updateCols`). -/
def updateCols (kResidueIX : Char → Int) (kD : Nat → Nat → Int) :
    List (Char × Char) → Nat → UpdState → Except UpdateError UpdState
  | [], _, st => .ok st
  | c :: cs, i, st =>
    match updateColumn kResidueIX kD i c.1 c.2 st with
    | .error e => .error e
    | .ok st => updateCols kResidueIX kD cs (i + 1) st

/-- A column is aligned: neither row holds a gap character in it. -/
def isAligned (kResidueIX : Char → Int) (c : Char × Char) : Bool :=
  !is_gap kResidueIX c.1 && !is_gap kResidueIX c.2

/-- The first column is gapped in the query alone: the case in which the
backward search of `update` starts before the buffer. -/
def startsInInsertion (kResidueIX : Char → Int) (q s : List Char) : Bool :=
  match q, s with
  | qc :: _, sc :: _ => is_gap kResidueIX qc && !is_gap kResidueIX sc
  | _, _ => false

/-- What the scan maintains about the active range and the query positions,
before column `i`. -/
def RangeInv (i : Nat) (st : UpdState) : Prop :=
  st.self.m_end ≤ i ∧ (st.self.m_begin = UINT32_MAX ∨ st.self.m_begin < st.self.m_end) ∧
    1 ≤ st.ipos ∧ (st.self.m_ifir ≠ 0 → st.self.m_ifir ≤ st.self.m_ilas ∧ st.self.m_ilas < st.ipos)

/-- A freshly built row: the constructor followed by one `append` of the text. -/
def rowOf (text : String) : seq_impl := (seq_impl.new "").append text.toList

/-- The score table used in the concrete instances: every pair of residues
scores 0.  The table `kD` of the program is declared outside the source; the
general theorems hold for every table. -/
def zeroScores : Nat → Nat → Int := fun _ _ => 0

/-- The number of aligned columns in which the two rows hold the same
character: the identity count as the specification describes it. -/
def identicalColumns (kResidueIX : Char → Int) (q s : List Char) : Nat :=
  ((q.zip s).filter fun c => isAligned kResidueIX c && c.1 == c.2).length

/-- Two states of the scan agree on everything except `jpos`, the `m_jpos` of the
open insertion, and the fields `m_ilas`, `m_jfir`, `m_jlas`, `m_length`,
`m_score`, `m_insertions`, `m_id2`, `m_space` of the record. -/
def CoreEq (a b : UpdState) : Prop :=
  a.ipos = b.ipos ∧ a.sgapf = b.sgapf ∧ a.qgapf = b.qgapf ∧ a.gapn = b.gapn ∧
    a.gaps = b.gaps ∧ a.length = b.length ∧ a.ins.m_ipos = b.ins.m_ipos ∧
    a.ins.m_seq = b.ins.m_seq ∧ a.self.m_ifir = b.self.m_ifir ∧
    a.self.m_identical = b.self.m_identical ∧ a.self.m_similar = b.self.m_similar ∧
    a.self.m_begin = b.self.m_begin ∧ a.self.m_end = b.self.m_end ∧
    a.self.m_gaps = b.self.m_gaps ∧ a.self.m_gapn = b.self.m_gapn ∧
    a.self.m_seq = b.self.m_seq

/-- Two outcomes of the scan agree: the same error, or states that agree in the
sense of `CoreEq`. -/
def CoreEqResult : Except UpdateError UpdState → Except UpdateError UpdState → Prop
  | .ok a, .ok b => CoreEq a b
  | .error e1, .error e2 => e1 = e2
  | _, _ => False

/-- Two records hold the same statistics of the scan proper: `m_ifir`, the
identity and similarity counts, the gap counts, the active range, and the
buffer. -/
def SameScan (a b : seq_impl) : Prop :=
  a.m_ifir = b.m_ifir ∧ a.m_identical = b.m_identical ∧ a.m_similar = b.m_similar ∧
    a.m_gaps = b.m_gaps ∧ a.m_gapn = b.m_gapn ∧ a.m_begin = b.m_begin ∧ a.m_end = b.m_end ∧
    a.m_seq = b.m_seq

/-- Two calls of `update` end alike: with the same error, or with records that
hold the same statistics of the scan. -/
def SameScanResult : Except UpdateError seq_impl → Except UpdateError seq_impl → Prop
  | .ok a, .ok b => SameScan a b
  | .error e1, .error e2 => e1 = e2
  | _, _ => False

/-- The state with the field `m_score` of its record replaced. -/
def setScore (z : Nat × Nat) (st : UpdState) : UpdState :=
  { st with self := { st.self with m_score := z } }

/-- The state with the fields `m_ilas`, `m_length`, `m_score` and the buffer of
its record replaced. -/
def override (x y : Nat) (z : Nat × Nat) (b : List Char) (st : UpdState) : UpdState :=
  { st with self := { st.self with m_ilas := x, m_length := y, m_score := z, m_seq := b } }

/-- Among the hit characters `done` of the columns scanned so far, those outside
the active range of the state are gap characters. -/
def OutsideGap (kResidueIX : Char → Int) (done : List Char) (st : UpdState) : Prop :=
  ∀ j c, done[j]? = some c →
    (st.self.m_begin = UINT32_MAX ∨ j < st.self.m_begin ∨ st.self.m_end ≤ j) →
    is_gap kResidueIX c = true

/-- Two characters are the same, or both are gap characters. -/
def gapEquiv (kResidueIX : Char → Int) (c d : Char) : Prop :=
  c = d ∨ (is_gap kResidueIX c = true ∧ is_gap kResidueIX d = true)

/-- The outcome of `update` on rows of equal length: it returns a record with the
property `P`, or the first column is gapped in the query alone and the scan
stops in the access before the buffer, where the source has no defined
behaviour. -/
def UpdateGives (kResidueIX : Char → Int) (kD : Nat → Nat → Int) (r q : seq_impl)
    (P : seq_impl → Prop) : Prop :=
  (∃ r1, r.update kResidueIX kD q = .ok r1 ∧ P r1) ∨
    (r.update kResidueIX kD q = .error .outOfBounds ∧
      startsInInsertion kResidueIX q.m_seq r.m_seq = true)

/-- The statement `if (length > 0) ++length` on the local counter. -/
def bumpLength (n : Nat) : Nat := if n > 0 then n + 1 else n

/-- The number of non-gap characters among the first `i` characters of a row. -/
def nonGapBefore (kResidueIX : Char → Int) (row : List Char) (i : Nat) : Nat :=
  ((row.take i).filter fun c => !is_gap kResidueIX c).length

/-- The index of the first aligned column, if there is one. -/
def firstAligned (kResidueIX : Char → Int) : List (Char × Char) → Option Nat
  | [] => none
  | c :: cs =>
    if isAligned kResidueIX c then some 0 else (firstAligned kResidueIX cs).map (· + 1)

/-- The index of the last aligned column, if there is one. -/
def lastAligned (kResidueIX : Char → Int) : List (Char × Char) → Option Nat
  | [] => none
  | c :: cs =>
    match lastAligned kResidueIX cs with
    | some k => some (k + 1)
    | none => if isAligned kResidueIX c then some 0 else none

/-- The number of aligned columns of two rows. -/
def alignedColumns (kResidueIX : Char → Int) (q s : List Char) : Nat :=
  ((q.zip s).filter (isAligned kResidueIX)).length

/-- The number of aligned columns whose substitution score is not negative: the
similarity count as the specification describes it. -/
def similarColumns (kResidueIX : Char → Int) (kD : Nat → Nat → Int) (q s : List Char) : Nat :=
  ((q.zip s).filter fun c =>
    isAligned kResidueIX c &&
      decide (kD (toUInt8 (kResidueIX c.1)) (toUInt8 (kResidueIX c.2)) ≥ 0)).length

/-- What the scan maintains about the recorded insertions: their `m_ipos` grow
strictly, all lie below the query position counter, and while an insertion is
open its `m_ipos` lies above theirs and not above the counter. -/
def InsInv (st : UpdState) : Prop :=
  st.self.m_insertions.Pairwise (fun a b => a.m_ipos < b.m_ipos) ∧
    (∀ x ∈ st.self.m_insertions, x.m_ipos < st.ipos) ∧
    (st.qgapf = true →
      (∀ x ∈ st.self.m_insertions, x.m_ipos < st.ins.m_ipos) ∧ st.ins.m_ipos ≤ st.ipos)

/-- A column is gapped in exactly one of the two rows. -/
def oneSided (kResidueIX : Char → Int) (c : Char × Char) : Bool :=
  is_gap kResidueIX c.1 != is_gap kResidueIX c.2

/-- A column is gapped in both rows. -/
def bothGapped (kResidueIX : Char → Int) (c : Char × Char) : Bool :=
  is_gap kResidueIX c.1 && is_gap kResidueIX c.2

/-- The columns up to and with the last aligned column; none without an aligned
column. -/
def uptoLastAligned (kResidueIX : Char → Int) (cols : List (Char × Char)) :
    List (Char × Char) :=
  match lastAligned kResidueIX cols with
  | none => []
  | some k => cols.take (k + 1)

/-- The columns from the first aligned column to the last aligned column, both
included. -/
def alignedSpan (kResidueIX : Char → Int) (cols : List (Char × Char)) : List (Char × Char) :=
  match firstAligned kResidueIX cols with
  | none => []
  | some i0 => (uptoLastAligned kResidueIX cols).drop i0

/-- The number of maximal runs of elements with the property `p` in a list:
an element starts a run when it has the property and its predecessor has not;
`prev` says whether the element before the list has it. -/
def runStarts {α : Type} (p : α → Bool) : Bool → List α → Nat
  | _, [] => 0
  | prev, a :: l => (if p a && !prev then 1 else 0) + runStarts p (p a) l

/-- The number of columns gapped in exactly one row between the first and the
last aligned column. -/
def gapResidues (kResidueIX : Char → Int) (cols : List (Char × Char)) : Nat :=
  ((alignedSpan kResidueIX cols).filter (oneSided kResidueIX)).length

/-- The number of maximal runs of columns gapped in exactly one row between the
first and the last aligned column, the columns gapped in both rows left out. -/
def gapEvents (kResidueIX : Char → Int) (cols : List (Char × Char)) : Nat :=
  runStarts (oneSided kResidueIX) false
    ((alignedSpan kResidueIX cols).filter fun c => !bothGapped kResidueIX c)

/-- Every character of `buf` is the character of `orig` at its position, or that
character in lower case; the two lists have the same length. -/
def LowerRel (orig buf : List Char) : Prop :=
  buf.length = orig.length ∧
    ∀ (j : Nat) (c : Char), buf[j]? = some c →
      ∃ d : Char, orig[j]? = some d ∧ (c = d ∨ c = d.toLower)

/-! ## The ALIGNMENTS part of the report -/

/-- The members of a residue record that the ALIGNMENTS part of
`CreateHSSPOutput` reads through `res_ptr`: `letter` (0 in the record of a chain
break), `seqNr`, and `pos`, the column of the residue in the rows. -/
structure ResidueHInfo where
  letter : Nat
  seqNr : Nat
  pos : Nat
  deriving DecidableEq

/-- `seq::operator[]`: the buffer character at `offset`.  The access is asserted
to lie inside the buffer; outside it there is no result. -/
def seq_impl.get (self : seq_impl) (offset : Nat) : Option Char :=
  self.m_seq[offset]?

/-- One line below the two header lines of a block: the line of a chain break, or
the line of a residue with its alignment characters `aln`.  The other columns of
the residue line (`dssp`, `nocc`, `ivar`) are not kept. -/
inductive AlignLine where
  | placeholder (seqNr : Nat)
  | residue (seqNr : Nat) (aln : List Char)
  deriving DecidableEq

/-- One `## ALIGNMENTS` block: the two numbers of the header line, the seven
digits of the scale line, and the lines of the residues. -/
structure AlignBlock where
  first : Nat
  last : Nat
  scale : List Nat
  lines : List AlignLine
  deriving DecidableEq

/-- The loop `foreach (hit_ptr hit, range)` that builds `aln` for the residue
`ri`: the character of the hit at `ri->pos` when `ri->seqNr` lies in
`[m_ifir, m_ilas]`, a blank otherwise. -/
def alignmentRow (ri : ResidueHInfo) : List Hit → Option (List Char)
  | [] => some []
  | hit :: hs =>
    match (if ri.seqNr ≥ hit.m_ifir ∧ ri.seqNr ≤ hit.m_ilas then hit.m_seq.get ri.pos
           else some ' ') with
    | none => none
    | some c => (alignmentRow ri hs).map (c :: ·)

/-- The loop `foreach (res_ptr ri, res)` of one block, over the hits `hs` of the
block. -/
def blockLines (hs : List Hit) : List ResidueHInfo → Option (List AlignLine)
  | [] => some []
  | ri :: rs =>
    if ri.letter = 0 then (blockLines hs rs).map (.placeholder ri.seqNr :: ·)
    else
      match alignmentRow ri hs with
      | none => none
      | some aln => (blockLines hs rs).map (.residue ri.seqNr aln :: ·)

/-- The loop `for (uint32 i = 0; i < hits.size(); i += 70)` of
`CreateHSSPOutput`, from the value `i` of the counter on, as the list of the
blocks it writes.  The counter and `n` are `uint32` and wrap; the loop is run for
at most `fuel` rounds.  There is no result when the rounds are used up, when the
range `[hits.begin() + i, hits.begin() + n)` is not a range, or when a character
is read outside a buffer. -/
def alignmentBlocks (hits : List Hit) (res : List ResidueHInfo) :
    Nat → Nat → Option (List AlignBlock)
  | 0, _ => none
  | fuel + 1, i =>
    if i < hits.length then
      let n := if (i + 70) % 2 ^ 32 > hits.length then hits.length else (i + 70) % 2 ^ 32
      if n < i then none
      else
        match blockLines ((hits.drop i).take (n - i)) res with
        | none => none
        | some ls =>
          (alignmentBlocks hits res fuel ((i + 70) % 2 ^ 32)).map
            ({ first := (i + 1) % 2 ^ 32
               last := n
               scale := (List.range 7).map fun j => ((i + 10 * j) % 2 ^ 32 / 10 + 1) % 10
               lines := ls } :: ·)
    else some []

/-- The alignment character `c` of the residue `ri` for the hit `hit`. -/
def AlnCharOf (ri : ResidueHInfo) (hit : Hit) (c : Char) : Prop :=
  if ri.seqNr ≥ hit.m_ifir ∧ ri.seqNr ≤ hit.m_ilas then hit.m_seq.m_seq[ri.pos]? = some c
  else c = ' '

/-- The line `l` of the residue `ri` in a block with the hits `hs`: the line of a
chain break, or a residue line with one alignment character for each hit. -/
def LineOf (hs : List Hit) (ri : ResidueHInfo) (l : AlignLine) : Prop :=
  if ri.letter = 0 then l = .placeholder ri.seqNr
  else ∃ aln, l = .residue ri.seqNr aln ∧ List.Forall₂ (AlnCharOf ri) hs aln

/-- The reads of `CreateHSSPOutput` in the rows of the hits `hs` lie inside the
buffers: what `seq::operator[]` asserts. -/
def ReadsInside (hs : List Hit) (res : List ResidueHInfo) : Prop :=
  ∀ ri ∈ res, ri.letter ≠ 0 → ∀ hit ∈ hs, hit.m_ifir ≤ ri.seqNr → ri.seqNr ≤ hit.m_ilas →
    ri.pos < hit.m_seq.m_size

/-- A hit on a freshly built row with the given text and query positions, for
the concrete instances. -/
def hitRow (text : String) (ifir ilas : Nat) : Hit :=
  Hit.new (fun _ => 1) { rowOf text with m_ifir := ifir, m_ilas := ilas } (rowOf text) 'A' 0

/-- The calls `append(s1)`, ..., `append(sn)` on a record, in turn, as
`ReadHSSP2File` makes them for the lines of a row. -/
def appendAll (self : seq_impl) : List (List Char) → seq_impl
  | [] => self
  | s :: ss => appendAll (self.append s) ss

/-- No call of the series copies past the capacity: after each of them
`m_size ≤ m_space`. -/
def AppendsFit (self : seq_impl) : List (List Char) → Prop
  | [] => True
  | s :: ss => (self.append s).m_size ≤ (self.append s).m_space ∧ AppendsFit (self.append s) ss

/-! ## The INSERTION LIST of the report -/

/-- One line of the INSERTION LIST: the line with the four numbers of an
insertion, or a continuation line `+`; `text` is the sequence field of the
line. -/
inductive InsertionLine where
  | numbered (nr ipos jpos len : Nat) (text : List Char)
  | continued (text : List Char)
  deriving DecidableEq

/-- The sequence field of a line. -/
def InsertionLine.text : InsertionLine → List Char
  | .numbered _ _ _ _ t => t
  | .continued t => t

/-- The loop `while (not s.empty())` that writes the continuation lines: `n` is
the `uint32` value of `s.length()`, at most 100; the line holds `s.substr(0, n)`
and `s.erase(0, n)` follows.  The loop is run for at most `fuel` rounds; there is
no result when they are used up. -/
def continuationLines : Nat → List Char → Option (List InsertionLine)
  | 0, _ => none
  | fuel + 1, s =>
    if s.isEmpty then some []
    else
      let n := if s.length % 2 ^ 32 > 100 then 100 else s.length % 2 ^ 32
      (continuationLines fuel (s.drop n)).map (.continued (s.take n) :: ·)

/-- The lines that `CreateHSSPOutput` writes for the insertion `ins` of the hit
`h`: one line when the text has at most 100 characters, else the line with the
first 100 characters and the continuation lines.  The Len column is
`ins.m_seq.length() - 2` in the unsigned arithmetic of `size_t` (64 bits), the
IPOS column the `uint32` sum `ins.m_ipos + h->m_offset`. -/
def insertionLines (fuel : Nat) (h : Hit) (ins : insertion) : Option (List InsertionLine) :=
  let len := (ins.m_seq.length + 2 ^ 64 - 2) % 2 ^ 64
  let ipos := (ins.m_ipos + h.m_offset) % 2 ^ 32
  if ins.m_seq.length ≤ 100 then some [.numbered h.m_nr ipos ins.m_jpos len ins.m_seq]
  else
    (continuationLines fuel (ins.m_seq.drop 100)).map
      (.numbered h.m_nr ipos ins.m_jpos len (ins.m_seq.take 100) :: ·)

/-- The loop `foreach (const insertion& ins, h->m_seq.insertions())` of one hit. -/
def hitInsertionLines (fuel : Nat) (h : Hit) : List insertion → Option (List InsertionLine)
  | [] => some []
  | ins :: rest =>
    match insertionLines fuel h ins with
    | none => none
    | some ls => (hitInsertionLines fuel h rest).map (ls ++ ·)

/-- The loop `foreach (hit_ptr h, hits)` of the INSERTION LIST. -/
def insertionList (fuel : Nat) : List Hit → Option (List InsertionLine)
  | [] => some []
  | h :: hs =>
    match hitInsertionLines fuel h h.m_seq.m_insertions with
    | none => none
    | some ls => (insertionList fuel hs).map (ls ++ ·)

/-! ## The profile table of the report -/

/-- Conversion of a floating-point value to `uint32`: the fraction is discarded.
Outside the range of `uint32` the conversion has no defined result. -/
def toUInt32 (x : ℚ) : Option Nat :=
  let t : Int := if 0 ≤ x then ⌊x⌋ else ⌈x⌉
  if 0 ≤ t ∧ t < 2 ^ 32 then some t.toNat else none

/-- A binary floating-point type: the number of bits of the significand, and the
least and the greatest exponent of a normal number. -/
structure FloatFormat where
  prec : Nat
  emin : Int
  emax : Int

/-- The type `float`. -/
def binary32 : FloatFormat := ⟨24, -126, 127⟩

/-- The type `double`. -/
def binary64 : FloatFormat := ⟨53, -1022, 1023⟩

/-- Rounding to the nearest integer, a tie going to the even one. -/
def roundHalfEven (x : ℚ) : Int :=
  if x - ⌊x⌋ < 1 / 2 then ⌊x⌋
  else if 1 / 2 < x - ⌊x⌋ then ⌊x⌋ + 1
  else if ⌊x⌋ % 2 = 0 then ⌊x⌋ else ⌊x⌋ + 1

/-- The spacing of the numbers of the type around `x`: with `2^k ≤ |x| < 2^(k+1)`
it is `2^(k - (prec - 1))`, and below the normal range that of the least normal
exponent. -/
def FloatFormat.quantum (fmt : FloatFormat) (x : ℚ) : ℚ :=
  2 ^ (max (Int.log 2 |x|) fmt.emin - (fmt.prec - 1))

/-- The value that an arithmetic operation of the type returns when its exact
result is `x`: the nearest number of the type, a tie going to the even
significand.  Beyond the greatest finite number the operation returns an
infinity (`none`). -/
def FloatFormat.round (fmt : FloatFormat) (x : ℚ) : Option ℚ :=
  let y : ℚ := roundHalfEven (x / fmt.quantum x) * fmt.quantum x
  if |y| < 2 ^ (fmt.emax + 1) then some y else none

/-- The value of `100 * r->entropy / log(20.0)`.  The field `entropy` is not
declared in the source file; `fmt` is its type, `float` or `double`.  The product
`100 * r->entropy` is computed in that type, and the quotient by the `double`
that `log(20.0)` returns, for which `log20` stands, in `double`; each
operation is rounded once, to its own type. -/
def relentQuotient (fmt : FloatFormat) (log20 entropy : ℚ) : Option ℚ :=
  match fmt.round (100 * entropy) with
  | none => none
  | some a => binary64.round (a / log20)

/-- `uint32 relent = uint32(100 * r->entropy / log(20.0))`. -/
def relent (fmt : FloatFormat) (log20 entropy : ℚ) : Option Nat :=
  match relentQuotient fmt log20 entropy with
  | none => none
  | some y => toUInt32 y

/-- A bound on the distance between the quotient that the code computes and the
exact quotient `x`: one unit in the last place of the type of the entropy, taken
on `x + 1`. -/
def relentMargin (fmt : FloatFormat) (x : ℚ) : ℚ := (x + 1) / 2 ^ (fmt.prec - 1)

/-- Modelled from the spec: the value of `log(20.0)`, which the C library
computes, here the `double` nearest the natural logarithm of 20,
`0x1.7f7427b73e391p+1`. -/
def log20_model : ℚ := 6745789375439761 / 2251799813685248

/-- Rounding to the nearest integer, as the specification words the RELENT
column. -/
def nearestInteger (x : ℚ) : Int := ⌊x + 1 / 2⌋

/-! ## The buffer positions that `update` touches -/

/-- The buffer positions that the backward search
`while (gsi != begin() and is_gap(*gsi)) --gsi` reads when it starts at `g`: the
test `gsi != begin()` comes first, so position 0 is not read by the search. -/
def searchReads (kResidueIX : Char → Int) (buf : List Char) : Nat → List Nat
  | 0 => []
  | g + 1 =>
    (g + 1) :: (if is_gap kResidueIX (buf.getD (g + 1) ' ') then searchReads kResidueIX buf g
                else [])

/-- The buffer positions, relative to `begin()`, that the loop body for column
`i` reads or writes: position `i` through `*si` in every column, and in the first
column of a run gapped in the query alone the positions of the backward search
from `si - 1` and the position `gsi` where it stops.  In column 0 the search
starts at position -1. -/
def columnAccesses (kResidueIX : Char → Int) (i : Nat) (qc sc : Char) (st : UpdState) :
    List Int :=
  (i : Int) ::
    (if !is_gap kResidueIX sc && is_gap kResidueIX qc && !st.qgapf then
      if i = 0 then [-1]
      else
        (searchReads kResidueIX st.self.m_seq (i - 1)).map Int.ofNat ++
          [Int.ofNat (findPrev kResidueIX st.self.m_seq (i - 1))]
    else [])

/-- The buffer positions that the loop of `update` touches from column `i` on,
along `updateLoop`. -/
def loopAccesses (kResidueIX : Char → Int) (kD : Nat → Nat → Int) :
    List Char → Nat → UpdState → List Int
  | [], _, _ => []
  | qc :: qs, i, st =>
    match st.self.m_seq[i]? with
    | none => [(i : Int)]
    | some sc =>
      columnAccesses kResidueIX i qc sc st ++
        match updateColumn kResidueIX kD i qc sc st with
        | .error _ => []
        | .ok st1 => loopAccesses kResidueIX kD qs (i + 1) st1

/-- The buffer positions that `update` touches: those of the loop, and those of
the final loop `for (i = 0; i < m_size; ++i)` when it runs. -/
def updateAccesses (kResidueIX : Char → Int) (kD : Nat → Nat → Int) (self qseq : seq_impl) :
    List Int :=
  loopAccesses kResidueIX kD qseq.m_seq 0 (updateInit self) ++
    match updateLoop kResidueIX kD qseq.m_seq 0 (updateInit self) with
    | .error _ => []
    | .ok st =>
      if st.self.m_begin = UINT32_MAX then []
      else (List.range st.self.m_size).map Int.ofNat

/-- A column is gapped in the query alone. -/
def queryGapOnly (kResidueIX : Char → Int) (c : Char × Char) : Bool :=
  is_gap kResidueIX c.1 && !is_gap kResidueIX c.2

/-- The hit characters of the columns gapped in the query alone among the
columns `a`, ..., `b - 1`. -/
def runText (kResidueIX : Char → Int) (all : List (Char × Char)) (a b : Nat) : List Char :=
  (((all.take b).drop a).filter (queryGapOnly kResidueIX)).map Prod.snd

/-- The hit character `d` at position `g` is the one that the backward search
from column `a` finds: every column between them holds a gap character in the
hit, and `d` is a residue unless `g` is 0.  Stated for tables in which
lower-casing does not change whether a character is a gap character. -/
def FlankAt (kResidueIX : Char → Int) (all : List (Char × Char)) (g a : Nat) (d : Char) :
    Prop :=
  (∀ c, is_gap kResidueIX c.toLower = is_gap kResidueIX c) →
    (g = 0 ∨ is_gap kResidueIX d = false) ∧
      ∀ (j : Nat) (c : Char × Char), g < j → j < a → all[j]? = some c →
        is_gap kResidueIX c.2 = true

/-- An insertion run that is open before column `i`, with the text `text` so
far: it was opened in the column `a`, gapped in the query alone, with the
lower-cased hit character `d` of position `g`; no column from `a` on was aligned;
the text is that character and the hit characters of the columns gapped in the
query alone since. -/
def OpenRun (kResidueIX : Char → Int) (all : List (Char × Char)) (i : Nat)
    (text : List Char) : Prop :=
  ∃ (g a : Nat) (d : Char), g < a ∧ a < i ∧ (all.map Prod.snd)[g]? = some d ∧
    FlankAt kResidueIX all g a d ∧
    (∃ ca, all[a]? = some ca ∧ queryGapOnly kResidueIX ca = true) ∧
    (∀ (j : Nat) (c : Char × Char), a ≤ j → j < i → all[j]? = some c →
      isAligned kResidueIX c = false) ∧
    text = d.toLower :: runText kResidueIX all a i

/-- An insertion as the scan of the columns `all` records it: opened in the
column `a`, gapped in the query alone, with the lower-cased hit character `d` of
the position `g` before it, closed in the aligned column `b`, the first aligned
column behind `a`; its text is `d` in lower case, the hit characters of the
columns from `a` to `b` that are gapped in the query alone, as they stand, and
the hit character of column `b` in lower case. -/
def RecordedInsertion (kResidueIX : Char → Int) (all : List (Char × Char)) (x : insertion) :
    Prop :=
  ∃ (g a b : Nat) (d : Char) (cb : Char × Char), g < a ∧ a < b ∧
    (all.map Prod.snd)[g]? = some d ∧ FlankAt kResidueIX all g a d ∧
    (∃ ca, all[a]? = some ca ∧ queryGapOnly kResidueIX ca = true) ∧
    all[b]? = some cb ∧ isAligned kResidueIX cb = true ∧
    (∀ (j : Nat) (c : Char × Char), a ≤ j → j < b → all[j]? = some c →
      isAligned kResidueIX c = false) ∧
    x.m_seq = d.toLower :: runText kResidueIX all a b ++ [cb.2.toLower]

/-- What the scan maintains about the insertions, before column `i` of the
columns `all`, for a record that entered with the insertions `old`. -/
def InsTextInv (kResidueIX : Char → Int) (all : List (Char × Char)) (old : List insertion)
    (i : Nat) (st : UpdState) : Prop :=
  LowerRel (all.map Prod.snd) st.self.m_seq ∧
    (∃ new, st.self.m_insertions = old ++ new ∧
      ∀ x ∈ new, RecordedInsertion kResidueIX all x) ∧
    (st.qgapf = true → OpenRun kResidueIX all i st.ins.m_seq)

/-- The list with `x` inserted at index `p`. -/
def insertAt {α : Type} (p : Nat) (x : α) (l : List α) : List α :=
  l.take p ++ x :: l.drop p

/-- The index of column `j` after a column has been inserted at index `p`. -/
def shiftIdx (p j : Nat) : Nat := if j < p then j else j + 1

/-- Two states of the scan, the second over the rows with a column inserted at
index `p` whose hit character is `gc`: the local variables agree, the statistics
and the insertion list of the records agree, and the buffer of the second is the
buffer of the first with `gc` inserted at `p`. -/
def ShiftRel (p : Nat) (gc : Char) (a b : UpdState) : Prop :=
  a.ipos = b.ipos ∧ a.jpos = b.jpos ∧ a.sgapf = b.sgapf ∧ a.qgapf = b.qgapf ∧
    a.gapn = b.gapn ∧ a.gaps = b.gaps ∧ a.ins = b.ins ∧ a.length = b.length ∧
    a.self.m_ifir = b.self.m_ifir ∧ a.self.m_ilas = b.self.m_ilas ∧
    a.self.m_length = b.self.m_length ∧ a.self.m_identical = b.self.m_identical ∧
    a.self.m_similar = b.self.m_similar ∧ a.self.m_gaps = b.self.m_gaps ∧
    a.self.m_gapn = b.self.m_gapn ∧ a.self.m_insertions = b.self.m_insertions ∧
    b.self.m_seq = insertAt p gc a.self.m_seq

/-- The kinds of value of a `float`. -/
inductive FloatKind where
  | finite
  | infinite
  | nan
  deriving DecidableEq

/-- The kind of the quotient `float(m_identical) / m_length` from its two
operands, as `m_score` keeps them, in the IEEE 754 arithmetic of the platform: a
division by zero raises no error; it gives NaN when the dividend is zero too and
an infinity otherwise. -/
def scoreKind (z : Nat × Nat) : FloatKind :=
  if z.2 = 0 then (if z.1 = 0 then .nan else .infinite) else .finite

/-! ## Lemmas on the loop body -/

section Lemmas

variable {T : Char → Int} {K : Nat → Nat → Int}

theorem toUInt8_cast_ne (x : Int) : ((toUInt8 x : Nat) : Int) ≠ -1 := by
  have h : (0 : Int) ≤ ((toUInt8 x : Nat) : Int) := Int.ofNat_nonneg _
  omega

theorem updateTail_eq (i : Nat) (qc sc : Char) (st : UpdState) :
    updateTail T K i qc sc st = .ok (tailState T K i qc sc st) := by
  simp [updateTail, toUInt8_cast_ne]

theorem findPrev_le (buf : List Char) (g : Nat) : findPrev T buf g ≤ g := by
  induction g with
  | zero => simp [findPrev]
  | succ g ih =>
    unfold findPrev
    split
    · omega
    · exact Nat.le_refl _

theorem openInsertion_ok {i : Nat} (hi : i ≠ 0) (st : UpdState) :
    ∃ g c, g < i ∧ openInsertion T i st = .ok
      { st with
        ins := { m_ipos := st.ipos, m_jpos := st.jpos, m_seq := [c] }
        self := { st.self with m_seq := st.self.m_seq.set g c } } := by
  refine ⟨findPrev T st.self.m_seq (i - 1),
    (st.self.m_seq.getD (findPrev T st.self.m_seq (i - 1)) ' ').toLower, ?_, ?_⟩
  · have := findPrev_le (T := T) st.self.m_seq (i - 1)
    omega
  · simp [openInsertion, hi]

/-- The loop body fails only in the out-of-bounds case: column 0 gapped in the
query alone. -/
theorem updateColumn_error {i : Nat} {qc sc : Char} {st : UpdState} {e : UpdateError}
    (h : updateColumn T K i qc sc st = .error e) :
    e = .outOfBounds ∧ i = 0 ∧ is_gap T qc = true ∧ is_gap T sc = false ∧
      st.qgapf = false := by
  unfold updateColumn at h
  simp only [updateTail_eq] at h
  split at h
  · simp at h
  · split at h
    · simp at h
    · rename_i hs
      split at h
      · rename_i hq
        by_cases hf : st.qgapf = true
        · simp [hf] at h
        · simp only [Bool.not_eq_true] at hf
          by_cases hi : i = 0
          · subst hi
            simp [hf, openInsertion] at h
            simp_all
          · simp [hf, openInsertion, hi] at h
      · split at h <;> simp at h

theorem updateColumn_ok {i : Nat} {qc sc : Char} {st : UpdState}
    (h : i ≠ 0 ∨ is_gap T qc = false ∨ is_gap T sc = true ∨ st.qgapf = true) :
    ∃ st', updateColumn T K i qc sc st = .ok st' := by
  cases hr : updateColumn T K i qc sc st with
  | ok st' => exact ⟨st', rfl⟩
  | error e =>
    obtain ⟨_, h1, h2, h3, h4⟩ := updateColumn_error hr
    simp_all

/-- The loop body for column `i` changes the buffer at most at positions up to
`i`, and never its length. -/
theorem updateColumn_buffer {i : Nat} {qc sc : Char} {st st' : UpdState}
    (h : updateColumn T K i qc sc st = .ok st') :
    st'.self.m_seq.length = st.self.m_seq.length ∧
      st'.self.m_seq.drop (i + 1) = st.self.m_seq.drop (i + 1) := by
  unfold updateColumn at h
  simp only [updateTail_eq] at h
  split at h
  · simp only [Except.ok.injEq] at h
    subst h
    exact ⟨rfl, rfl⟩
  · split at h
    · simp only [Except.ok.injEq] at h
      subst h
      exact ⟨rfl, rfl⟩
    · split at h
      · by_cases hf : st.qgapf = true
        · simp only [hf, Bool.not_true, Bool.false_eq_true, ↓reduceIte, Except.ok.injEq] at h
          subst h
          exact ⟨rfl, rfl⟩
        · by_cases hi : i = 0
          · simp [hf, openInsertion, hi] at h
          · simp only [hf, openInsertion, hi, Bool.not_eq_true, Bool.not_false, ↓reduceIte,
              Except.ok.injEq] at h
            subst h
            have hg := findPrev_le (T := T) st.self.m_seq (i - 1)
            constructor
            · simp [tailState, stepQueryGap]
            · simp only [tailState, stepQueryGap]
              exact List.drop_set_of_lt _ _ (by omega)
      · split at h
        · simp only [Except.ok.injEq] at h
          subst h
          constructor
          · simp [tailState, stepAligned, closeInsertion]
            split <;> simp
          · simp only [tailState, stepAligned, closeInsertion]
            split <;> exact List.drop_set_of_lt _ _ (by omega)
        · simp only [Except.ok.injEq] at h
          subst h
          constructor
          · simp only [tailState, stepAligned]
            split <;> rfl
          · simp only [tailState, stepAligned]
            split <;> rfl

/-- The loop reads in column `i` the character the hit held there on entry: it
is the replay over the columns of the two rows. -/
theorem updateLoop_eq_updateCols :
    ∀ (cols : List (Char × Char)) (i : Nat) (st : UpdState),
      st.self.m_seq.drop i = cols.map Prod.snd →
      updateLoop T K (cols.map Prod.fst) i st = updateCols T K cols i st := by
  intro cols
  induction cols with
  | nil => intro i st _; rfl
  | cons c cs ih =>
    intro i st hd
    have hi : st.self.m_seq[i]? = some c.2 := by
      have := congrArg (fun l => l[0]?) hd
      simpa [List.getElem?_drop] using this
    simp only [List.map_cons, updateLoop, updateStep, hi, updateCols]
    cases hr : updateColumn T K i c.1 c.2 st with
    | error e => rfl
    | ok st' =>
      simp only
      apply ih
      rw [(updateColumn_buffer hr).2]
      have := congrArg List.tail hd
      simpa [List.tail_drop] using this

theorem updateColumn_rangeInv {i : Nat} {qc sc : Char} {st st' : UpdState}
    (hI : RangeInv i st) (h : updateColumn T K i qc sc st = .ok st') :
    RangeInv (i + 1) st' ∧ (st.self.m_ifir ≠ 0 → st'.self.m_ifir ≠ 0) ∧
      (isAligned T (qc, sc) = true → st'.self.m_ifir ≠ 0) := by
  obtain ⟨h1, h2, h3, h4⟩ := hI
  unfold updateColumn at h
  simp only [updateTail_eq] at h
  unfold RangeInv isAligned
  split at h
  · simp only [Except.ok.injEq] at h
    subst h
    simp_all
    omega
  · split at h
    · simp only [Except.ok.injEq] at h
      subst h
      simp_all [stepHitGap]
      omega
    · split at h
      · by_cases hf : st.qgapf = true
        · simp only [hf, Bool.not_true, Bool.false_eq_true, ↓reduceIte, Except.ok.injEq] at h
          subst h
          simp_all [tailState, stepQueryGap]
          split <;> omega
        · by_cases hi : i = 0
          · simp [hf, openInsertion, hi] at h
          · simp only [hf, openInsertion, hi, Bool.not_eq_true, Bool.not_false, ↓reduceIte,
              Except.ok.injEq] at h
            subst h
            simp_all [tailState, stepQueryGap]
            split <;> omega
      · split at h
        · simp only [Except.ok.injEq] at h
          subst h
          simp only [tailState, stepAligned, closeInsertion]
          split <;> simp_all <;> (try split) <;> omega
        · simp only [Except.ok.injEq] at h
          subst h
          simp only [tailState, stepAligned]
          split <;> simp_all <;> (try split) <;> omega

theorem updateCols_rangeInv :
    ∀ (cols : List (Char × Char)) (i : Nat) (st st' : UpdState),
      RangeInv i st → updateCols T K cols i st = .ok st' →
      RangeInv (i + cols.length) st' ∧
        ((st.self.m_ifir ≠ 0 ∨ ∃ c ∈ cols, isAligned T c = true) → st'.self.m_ifir ≠ 0) := by
  intro cols
  induction cols with
  | nil =>
    intro i st st' hI h
    simp only [updateCols, Except.ok.injEq] at h
    subst h
    simpa using hI
  | cons c cs ih =>
    intro i st st' hI h
    simp only [updateCols] at h
    cases hr : updateColumn T K i c.1 c.2 st with
    | error e => simp [hr] at h
    | ok st1 =>
      simp only [hr] at h
      obtain ⟨hI1, hk, ha⟩ := updateColumn_rangeInv hI hr
      obtain ⟨hI2, hk2⟩ := ih (i + 1) st1 st' hI1 h
      refine ⟨?_, ?_⟩
      · have : i + (c :: cs).length = i + 1 + cs.length := by simp; omega
        rw [this]; exact hI2
      · rintro (h0 | ⟨d, hd, hal⟩)
        · exact hk2 (Or.inl (hk h0))
        · rcases List.mem_cons.1 hd with rfl | hd
          · exact hk2 (Or.inl (ha hal))
          · exact hk2 (Or.inr ⟨d, hd, hal⟩)

theorem updateCols_length :
    ∀ (cols : List (Char × Char)) (i : Nat) (st st' : UpdState),
      updateCols T K cols i st = .ok st' →
      st'.self.m_seq.length = st.self.m_seq.length := by
  intro cols
  induction cols with
  | nil =>
    intro i st st' h
    simp only [updateCols, Except.ok.injEq] at h
    subst h; rfl
  | cons c cs ih =>
    intro i st st' h
    simp only [updateCols] at h
    cases hr : updateColumn T K i c.1 c.2 st with
    | error e => simp [hr] at h
    | ok st1 =>
      simp only [hr] at h
      rw [ih (i + 1) st1 st' h, (updateColumn_buffer hr).1]

/-- After column 0 the loop cannot fail. -/
theorem updateCols_ok_of_pos :
    ∀ (cols : List (Char × Char)) (i : Nat) (st : UpdState), i ≠ 0 →
      ∃ st', updateCols T K cols i st = .ok st' := by
  intro cols
  induction cols with
  | nil => intro i st _; exact ⟨st, rfl⟩
  | cons c cs ih =>
    intro i st hi
    obtain ⟨st1, h1⟩ := @updateColumn_ok T K i c.1 c.2 st (Or.inl hi)
    obtain ⟨st2, h2⟩ := ih (i + 1) st1 (by omega)
    exact ⟨st2, by simp [updateCols, h1, h2]⟩

/-- From column 0, with no insertion open, the loop fails exactly when the first
column is gapped in the query alone, and then by the access before the buffer. -/
theorem updateCols_zero (cols : List (Char × Char)) (st : UpdState) (hf : st.qgapf = false) :
    (∃ st', updateCols T K cols 0 st = .ok st' ∧
        startsInInsertion T (cols.map Prod.fst) (cols.map Prod.snd) = false) ∨
      (updateCols T K cols 0 st = .error .outOfBounds ∧
        startsInInsertion T (cols.map Prod.fst) (cols.map Prod.snd) = true) := by
  cases cols with
  | nil => exact Or.inl ⟨st, rfl, rfl⟩
  | cons c cs =>
    cases hr : updateColumn T K 0 c.1 c.2 st with
    | error e =>
      obtain ⟨he, _, h2, h3, _⟩ := updateColumn_error hr
      subst he
      exact Or.inr ⟨by simp [updateCols, hr], by simp [startsInInsertion, h2, h3]⟩
    | ok st1 =>
      obtain ⟨st2, h2⟩ := updateCols_ok_of_pos (T := T) (K := K) cs 1 st1 (by omega)
      refine Or.inl ⟨st2, by simp [updateCols, hr, h2], ?_⟩
      by_contra hs
      simp only [startsInInsertion, List.map_cons, Bool.not_eq_false, Bool.and_eq_true,
        Bool.not_eq_eq_eq_not, Bool.not_true] at hs
      unfold updateColumn at hr
      simp [hs.1, hs.2, hf, openInsertion] at hr

theorem trimBuffer_length (b e : Nat) :
    ∀ (buf : List Char) (i : Nat), (trimBuffer T b e i buf).length = buf.length := by
  intro buf
  induction buf with
  | nil => intro i; rfl
  | cons c cs ih => intro i; simp [trimBuffer, ih]

/-- For rows of equal length `update` is the replay over the zipped columns,
followed by the statements after the loop. -/
theorem update_eq_updateCols (r q : seq_impl) (hlen : r.m_size = q.m_size) :
    r.update T K q =
      match updateCols T K (q.m_seq.zip r.m_seq) 0 (updateInit r) with
      | .error e => .error e
      | .ok st => .ok (updateFinish T st.self) := by
  have hl : r.m_seq.length = q.m_seq.length := hlen
  have h := updateLoop_eq_updateCols (T := T) (K := K) (q.m_seq.zip r.m_seq) 0
    (updateInit r) (by simp [updateInit, List.map_snd_zip _ _ (Nat.le_of_eq hl)])
  rw [List.map_fst_zip _ _ (Nat.le_of_eq hl.symm)] at h
  simp only [seq_impl.update, h]

theorem rangeInv_init (r : seq_impl) : RangeInv 0 (updateInit r) := by
  simp [RangeInv, updateInit]

theorem updateStep_error {i : Nat} {qc : Char} {st : UpdState} {e : UpdateError}
    (h : updateStep T K i qc st = .error e) : e = .outOfBounds := by
  unfold updateStep at h
  split at h
  · simpa using h.symm
  · exact (updateColumn_error h).1

theorem updateLoop_error :
    ∀ (qs : List Char) (i : Nat) (st : UpdState) (e : UpdateError),
      updateLoop T K qs i st = .error e → e = .outOfBounds := by
  intro qs
  induction qs with
  | nil => intro i st e h; simp [updateLoop] at h
  | cons qc qs ih =>
    intro i st e h
    simp only [updateLoop] at h
    cases hr : updateStep T K i qc st with
    | error e1 =>
      simp only [hr, Except.error.injEq] at h
      subst h
      exact updateStep_error hr
    | ok st1 =>
      simp only [hr] at h
      exact ih _ _ _ h

/-- The letter check of `update` never fires: whatever the two rows hold, the
only way not to return is the access outside the buffer. -/
theorem update_error (r q : seq_impl) (e : UpdateError)
    (h : r.update T K q = .error e) : e = .outOfBounds := by
  unfold seq_impl.update at h
  split at h
  · rename_i e1 hr
    simp only [Except.error.injEq] at h
    subst h
    exact updateLoop_error _ _ _ _ hr
  · simp at h

theorem append_size (self : seq_impl) (seq : List Char) :
    (self.append seq).m_size = self.m_size + seq.length := by
  simp [seq_impl.append, seq_impl.m_size]

theorem append_space (self : seq_impl) (seq : List Char) :
    (self.append seq).m_space =
      if self.m_size + seq.length > self.m_space then
        if ((if self.m_space = 0 then kBlockSize else self.m_space) * 2) % 2 ^ 32 < seq.length
        then seq.length % 2 ^ 32
        else ((if self.m_space = 0 then kBlockSize else self.m_space) * 2) % 2 ^ 32
      else self.m_space := rfl

/-! ### Ranking -/

theorem numberHits_length : ∀ (hits : List Hit) (nr : Nat), (numberHits nr hits).length = hits.length := by
  intro hits
  induction hits with
  | nil => intro nr; rfl
  | cons h hs ih => intro nr; simp [numberHits, ih]

theorem numberHits_getElem? :
    ∀ (hits : List Hit) (nr k : Nat),
      (numberHits nr hits)[k]? = hits[k]?.map fun h => { h with m_nr := nr + k } := by
  intro hits
  induction hits with
  | nil => intro nr k; simp [numberHits]
  | cons h hs ih =>
    intro nr k
    cases k with
    | zero => simp [numberHits]
    | succ k =>
      simp only [numberHits, List.getElem?_cons_succ, ih]
      have : nr + 1 + k = nr + (k + 1) := by omega
      rw [this]

theorem truncateHits_eq_nil (inMaxHits : Nat) (hits : List Hit) :
    truncateHits inMaxHits hits = [] ↔ hits = [] := by
  unfold truncateHits
  split
  · rename_i h
    constructor
    · intro ht
      have := congrArg List.length ht
      simp only [List.length_take, List.length_nil] at this
      omega
    · intro hn
      simp [hn]
  · exact Iff.rfl

theorem sortHits_eq_nil (hits : List Hit) : sortHits hits = [] ↔ hits = [] := by
  unfold sortHits
  rw [← List.length_eq_zero, List.length_insertionSort, List.length_eq_zero]

/-! ### Independence of the entry values -/

theorem updateColumn_coreEq {i : Nat} {qc sc : Char} {a b : UpdState} (h : CoreEq a b) :
    CoreEqResult (updateColumn T K i qc sc a) (updateColumn T K i qc sc b) := by
  obtain ⟨h1, h2, h3, h4, h5, h6, h7, h8, h9, h10, h11, h12, h13, h14, h15, h16⟩ := h
  unfold updateColumn
  simp only [updateTail_eq]
  by_cases hb : (is_gap T qc && is_gap T sc) = true
  · simp only [hb, ↓reduceIte, CoreEqResult, CoreEq]
    exact ⟨h1, h2, h3, h4, h5, h6, h7, h8, h9, h10, h11, h12, h13, h14, h15, h16⟩
  · simp only [hb, Bool.false_eq_true, ↓reduceIte]
    by_cases hs : is_gap T sc = true
    · simp only [hs, ↓reduceIte, CoreEqResult, CoreEq, stepHitGap]
      simp_all
    · simp only [hs, Bool.false_eq_true, ↓reduceIte]
      by_cases hq : is_gap T qc = true
      · simp only [hq, ↓reduceIte]
        by_cases hf : b.qgapf = true
        · have hfa : a.qgapf = true := h3.trans hf
          simp only [hf, hfa, Bool.not_true, Bool.false_eq_true, ↓reduceIte, CoreEqResult,
            CoreEq, tailState, stepQueryGap]
          simp_all
        · have hfa : ¬ a.qgapf = true := fun h => hf (h3.symm.trans h)
          by_cases hi : i = 0
          · simp [hf, hfa, openInsertion, hi, CoreEqResult]
          · simp only [hf, hfa, openInsertion, hi, Bool.not_eq_true, Bool.not_false, ↓reduceIte,
              CoreEqResult, CoreEq, tailState, stepQueryGap]
            simp_all
      · simp only [hq, Bool.false_eq_true, ↓reduceIte]
        by_cases hf : b.qgapf = true
        · have hfa : a.qgapf = true := h3.trans hf
          simp only [hf, hfa, ↓reduceIte, CoreEqResult, CoreEq, tailState, stepAligned,
            closeInsertion]
          by_cases h0 : b.self.m_ifir = 0
          · have h0a : a.self.m_ifir = 0 := h9.trans h0
            simp_all
          · have h0a : ¬ a.self.m_ifir = 0 := fun h => h0 (h9.symm.trans h)
            simp_all
        · have hfa : ¬ a.qgapf = true := fun h => hf (h3.symm.trans h)
          simp only [hf, hfa, Bool.false_eq_true, ↓reduceIte, CoreEqResult, CoreEq, tailState,
            stepAligned]
          by_cases h0 : b.self.m_ifir = 0
          · have h0a : a.self.m_ifir = 0 := h9.trans h0
            simp_all
          · have h0a : ¬ a.self.m_ifir = 0 := fun h => h0 (h9.symm.trans h)
            simp_all

theorem updateLoop_coreEq :
    ∀ (qs : List Char) (i : Nat) (a b : UpdState), CoreEq a b →
      CoreEqResult (updateLoop T K qs i a) (updateLoop T K qs i b) := by
  intro qs
  induction qs with
  | nil => intro i a b h; exact h
  | cons qc qs ih =>
    intro i a b h
    have hbuf : a.self.m_seq = b.self.m_seq := h.2.2.2.2.2.2.2.2.2.2.2.2.2.2.2
    simp only [updateLoop, updateStep, hbuf]
    cases hsc : b.self.m_seq[i]? with
    | none => simp [CoreEqResult]
    | some sc =>
      simp only
      have hc := @updateColumn_coreEq T K i qc sc a b h
      cases ha : updateColumn T K i qc sc a with
      | error e1 =>
        cases hb : updateColumn T K i qc sc b with
        | error e2 => simpa [ha, hb, CoreEqResult] using hc
        | ok b1 => simp [ha, hb, CoreEqResult] at hc
      | ok a1 =>
        cases hb : updateColumn T K i qc sc b with
        | error e2 => simp [ha, hb, CoreEqResult] at hc
        | ok b1 =>
          simp only [ha, hb, CoreEqResult] at hc
          exact ih _ _ _ hc

theorem updateColumn_setScore (z : Nat × Nat) (i : Nat) (qc sc : Char) (st : UpdState) :
    updateColumn T K i qc sc (setScore z st) = (updateColumn T K i qc sc st).map (setScore z) := by
  unfold updateColumn
  simp only [updateTail_eq]
  by_cases hb : (is_gap T qc && is_gap T sc) = true
  · simp [hb, Except.map]
  · simp only [hb, Bool.false_eq_true, ↓reduceIte]
    by_cases hs : is_gap T sc = true
    · simp [hs, Except.map, stepHitGap, setScore]
    · simp only [hs, Bool.false_eq_true, ↓reduceIte]
      by_cases hq : is_gap T qc = true
      · simp only [hq, ↓reduceIte]
        by_cases hf : st.qgapf = true
        · simp [hf, Except.map, setScore, tailState, stepQueryGap]
        · by_cases hi : i = 0
          · simp [hf, openInsertion, hi, Except.map, setScore]
          · simp [hf, openInsertion, hi, Except.map, setScore, tailState, stepQueryGap]
      · simp only [hq, Bool.false_eq_true, ↓reduceIte]
        by_cases hf : st.qgapf = true
        · by_cases h0 : st.self.m_ifir = 0
          · simp [hf, h0, Except.map, setScore, tailState, stepAligned, closeInsertion]
          · simp [hf, h0, Except.map, setScore, tailState, stepAligned, closeInsertion]
        · by_cases h0 : st.self.m_ifir = 0
          · simp [hf, h0, Except.map, setScore, tailState, stepAligned]
          · simp [hf, h0, Except.map, setScore, tailState, stepAligned]

theorem updateLoop_setScore (z : Nat × Nat) :
    ∀ (qs : List Char) (i : Nat) (st : UpdState),
      updateLoop T K qs i (setScore z st) = (updateLoop T K qs i st).map (setScore z) := by
  intro qs
  induction qs with
  | nil => intro i st; rfl
  | cons qc qs ih =>
    intro i st
    have hbuf : (setScore z st).self.m_seq = st.self.m_seq := rfl
    simp only [updateLoop, updateStep, hbuf]
    cases hsc : st.self.m_seq[i]? with
    | none => rfl
    | some sc =>
      simp only [updateColumn_setScore]
      cases hr : updateColumn T K i qc sc st with
      | error e => rfl
      | ok st1 => simp only [Except.map, ih]

theorem updateFinish_setScore (z : Nat × Nat) (st : UpdState) :
    updateFinish T (setScore z st).self = updateFinish T st.self := by
  unfold updateFinish setScore
  simp only
  split <;> rfl

/-! ### The scan by runs of columns -/

theorem updateCols_append :
    ∀ (c1 c2 : List (Char × Char)) (i : Nat) (st : UpdState),
      updateCols T K (c1 ++ c2) i st =
        match updateCols T K c1 i st with
        | .error e => .error e
        | .ok st1 => updateCols T K c2 (i + c1.length) st1 := by
  intro c1
  induction c1 with
  | nil => intro c2 i st; rfl
  | cons c cs ih =>
    intro c2 i st
    show updateCols T K (c :: (cs ++ c2)) i st = _
    simp only [updateCols]
    cases hr : updateColumn T K i c.1 c.2 st with
    | error e => rfl
    | ok st1 =>
      have : i + 1 + cs.length = i + (cs.length + 1) := by omega
      simp only [ih, List.length_cons, this]

/-- An aligned column with no insertion open: the buffer, the insertion list and
the flag stay as they are. -/
theorem updateColumn_aligned {i : Nat} {qc sc : Char} {st : UpdState}
    (hq : is_gap T qc = false) (hs : is_gap T sc = false) (hf : st.qgapf = false) :
    ∃ st', updateColumn T K i qc sc st = .ok st' ∧ st'.qgapf = false ∧
      st'.self.m_seq = st.self.m_seq ∧ st'.self.m_insertions = st.self.m_insertions := by
  unfold updateColumn
  simp only [updateTail_eq, hq, hs, hf, Bool.false_and, Bool.false_eq_true, ↓reduceIte]
  refine ⟨_, rfl, ?_, ?_, ?_⟩
  · simp [tailState, stepAligned]
  · simp only [tailState, stepAligned]
    split <;> rfl
  · simp only [tailState, stepAligned]
    split <;> rfl

theorem updateCols_aligned :
    ∀ (cols : List (Char × Char)) (i : Nat) (st : UpdState),
      (∀ c ∈ cols, is_gap T c.1 = false ∧ is_gap T c.2 = false) → st.qgapf = false →
      ∃ st', updateCols T K cols i st = .ok st' ∧ st'.qgapf = false ∧
        st'.self.m_seq = st.self.m_seq ∧ st'.self.m_insertions = st.self.m_insertions := by
  intro cols
  induction cols with
  | nil => intro i st _ hf; exact ⟨st, rfl, hf, rfl, rfl⟩
  | cons c cs ih =>
    intro i st hc hf
    obtain ⟨hq, hs⟩ := hc c (List.mem_cons_self _ _)
    obtain ⟨st1, h1, hf1, hb1, hi1⟩ := @updateColumn_aligned T K i c.1 c.2 st hq hs hf
    obtain ⟨st2, h2, hf2, hb2, hi2⟩ :=
      ih (i + 1) st1 (fun d hd => hc d (List.mem_cons_of_mem _ hd)) hf1
    exact ⟨st2, by simp [updateCols, h1, h2], hf2, hb2.trans hb1, hi2.trans hi1⟩

theorem findPrev_of_residue {buf : List Char} {g : Nat} {a : Char}
    (ha : buf[g]? = some a) (hg : is_gap T a = false) : findPrev T buf g = g := by
  cases g with
  | zero => rfl
  | succ g => simp [findPrev, ha, hg]

/-- The first column of an insertion run, behind a residue of the hit: that
residue is lower-cased in the buffer and opens the text. -/
theorem updateColumn_open {i : Nat} {qc sc a : Char} {st : UpdState}
    (hq : is_gap T qc = true) (hs : is_gap T sc = false) (hf : st.qgapf = false)
    (ha : st.self.m_seq[i]? = some a) (hg : is_gap T a = false) :
    ∃ st', updateColumn T K (i + 1) qc sc st = .ok st' ∧ st'.qgapf = true ∧
      st'.self.m_seq = st.self.m_seq.set i a.toLower ∧
      st'.self.m_insertions = st.self.m_insertions ∧ st'.ins.m_seq = [a.toLower, sc] := by
  unfold updateColumn
  have hfp : findPrev T st.self.m_seq i = i := findPrev_of_residue ha hg
  simp only [updateTail_eq, hq, hs, hf, Bool.true_and, Bool.false_eq_true, ↓reduceIte,
    Bool.not_false, openInsertion, Nat.add_one_ne_zero, Nat.add_sub_cancel, hfp,
    List.getD_eq_getElem?_getD, ha, Option.getD_some]
  exact ⟨_, rfl, rfl, rfl, rfl, rfl⟩

/-- A further column of an insertion run: the hit character joins the text. -/
theorem updateColumn_extend {i : Nat} {qc sc : Char} {st : UpdState}
    (hq : is_gap T qc = true) (hs : is_gap T sc = false) (hf : st.qgapf = true) :
    ∃ st', updateColumn T K i qc sc st = .ok st' ∧ st'.qgapf = true ∧
      st'.self.m_seq = st.self.m_seq ∧
      st'.self.m_insertions = st.self.m_insertions ∧ st'.ins.m_seq = st.ins.m_seq ++ [sc] := by
  unfold updateColumn
  simp only [updateTail_eq, hq, hs, hf, Bool.true_and, Bool.false_eq_true, ↓reduceIte,
    Bool.not_true]
  exact ⟨_, rfl, rfl, rfl, rfl, rfl⟩

theorem updateCols_extend :
    ∀ (cols : List (Char × Char)) (i : Nat) (st : UpdState),
      (∀ c ∈ cols, is_gap T c.1 = true ∧ is_gap T c.2 = false) → st.qgapf = true →
      ∃ st', updateCols T K cols i st = .ok st' ∧ st'.qgapf = true ∧
        st'.self.m_seq = st.self.m_seq ∧ st'.self.m_insertions = st.self.m_insertions ∧
        st'.ins.m_seq = st.ins.m_seq ++ cols.map Prod.snd := by
  intro cols
  induction cols with
  | nil => intro i st _ hf; exact ⟨st, rfl, hf, rfl, rfl, by simp⟩
  | cons c cs ih =>
    intro i st hc hf
    obtain ⟨hq, hs⟩ := hc c (List.mem_cons_self _ _)
    obtain ⟨st1, h1, hf1, hb1, hi1, ht1⟩ := @updateColumn_extend T K i c.1 c.2 st hq hs hf
    obtain ⟨st2, h2, hf2, hb2, hi2, ht2⟩ :=
      ih (i + 1) st1 (fun d hd => hc d (List.mem_cons_of_mem _ hd)) hf1
    refine ⟨st2, by simp [updateCols, h1, h2], hf2, hb2.trans hb1, hi2.trans hi1, ?_⟩
    rw [ht2, ht1]
    simp

/-- The aligned column behind an insertion run: the hit character is lower-cased
in the buffer, closes the text, and the insertion is recorded. -/
theorem updateColumn_close {i : Nat} {qc sc : Char} {st : UpdState}
    (hq : is_gap T qc = false) (hs : is_gap T sc = false) (hf : st.qgapf = true) :
    ∃ st' ins, updateColumn T K i qc sc st = .ok st' ∧ st'.qgapf = false ∧
      st'.self.m_seq = st.self.m_seq.set i sc.toLower ∧
      st'.self.m_insertions = st.self.m_insertions ++ [ins] ∧
      ins.m_seq = st.ins.m_seq ++ [sc.toLower] := by
  unfold updateColumn
  simp only [updateTail_eq, hq, hs, hf, Bool.false_and, Bool.false_eq_true, ↓reduceIte]
  refine ⟨_, { st.ins with m_seq := st.ins.m_seq ++ [sc.toLower] }, rfl, ?_, ?_, ?_, rfl⟩
  · simp [tailState, stepAligned]
  · simp only [tailState, stepAligned, closeInsertion]
    split <;> rfl
  · simp only [tailState, stepAligned, closeInsertion]
    split <;> rfl

/-- A column in which the hit is not gapped, when every column so far was like
that: the active range starts at 0 and ends behind the column. -/
theorem updateColumn_hitFull {i : Nat} {qc sc : Char} {st st' : UpdState}
    (hs : is_gap T sc = false)
    (hI : (i = 0 ∧ st.self.m_begin = UINT32_MAX) ∨ (st.self.m_begin = 0 ∧ st.self.m_end = i))
    (h : updateColumn T K i qc sc st = .ok st') :
    st'.self.m_begin = 0 ∧ st'.self.m_end = i + 1 := by
  have hM : UINT32_MAX ≠ 0 := by decide
  unfold updateColumn at h
  simp only [updateTail_eq, hs, Bool.and_false, Bool.false_eq_true, ↓reduceIte] at h
  split at h
  · by_cases hf : st.qgapf = true
    · simp only [hf, Bool.not_true, Bool.false_eq_true, ↓reduceIte, Except.ok.injEq] at h
      subst h
      simp only [tailState, stepQueryGap]
      rcases hI with ⟨h0, hb⟩ | ⟨hb, _⟩
      · simp [hb, h0]
      · simp [hb, hM.symm]
    · by_cases hi : i = 0
      · simp [hf, openInsertion, hi] at h
      · simp only [hf, openInsertion, hi, Bool.not_eq_true, Bool.not_false, ↓reduceIte,
          Except.ok.injEq] at h
        subst h
        simp only [tailState, stepQueryGap]
        rcases hI with ⟨h0, hb⟩ | ⟨hb, _⟩
        · exact absurd h0 hi
        · simp [hb, hM.symm]
  · split at h
    · simp only [Except.ok.injEq] at h
      subst h
      simp only [tailState, stepAligned, closeInsertion]
      rcases hI with ⟨h0, hb⟩ | ⟨hb, _⟩
      · split <;> simp [hb, h0]
      · split <;> simp [hb, hM.symm]
    · simp only [Except.ok.injEq] at h
      subst h
      simp only [tailState, stepAligned]
      rcases hI with ⟨h0, hb⟩ | ⟨hb, _⟩
      · split <;> simp [hb, h0]
      · split <;> simp [hb, hM.symm]

theorem updateCols_hitFull :
    ∀ (cols : List (Char × Char)) (i : Nat) (st st' : UpdState),
      (∀ c ∈ cols, is_gap T c.2 = false) → cols ≠ [] →
      ((i = 0 ∧ st.self.m_begin = UINT32_MAX) ∨ (st.self.m_begin = 0 ∧ st.self.m_end = i)) →
      updateCols T K cols i st = .ok st' →
      st'.self.m_begin = 0 ∧ st'.self.m_end = i + cols.length := by
  intro cols
  induction cols with
  | nil => intro i st st' _ hne; exact absurd rfl hne
  | cons c cs ih =>
    intro i st st' hc _ hI h
    simp only [updateCols] at h
    cases hr : updateColumn T K i c.1 c.2 st with
    | error e => simp [hr] at h
    | ok st1 =>
      simp only [hr] at h
      have h1 := updateColumn_hitFull (hc c (List.mem_cons_self _ _)) hI hr
      cases cs with
      | nil =>
        simp only [updateCols, Except.ok.injEq] at h
        subst h
        simpa using h1
      | cons d ds =>
        have h2 := ih (i + 1) st1 st' (fun x hx => hc x (List.mem_cons_of_mem _ hx))
          (by simp) (Or.inr h1) h
        refine ⟨h2.1, ?_⟩
        rw [h2.2]
        simp only [List.length_cons]
        omega

theorem trimBuffer_id (b e : Nat) :
    ∀ (buf : List Char) (i : Nat), (∀ c ∈ buf, is_gap T c = false) → b ≤ i →
      i + buf.length ≤ e → trimBuffer T b e i buf = buf := by
  intro buf
  induction buf with
  | nil => intro i _ _ _; rfl
  | cons c cs ih =>
    intro i hc hb he
    simp only [List.length_cons] at he
    have h1 : ¬ (i < b ∨ i ≥ e) := by omega
    simp only [trimBuffer, h1, ↓reduceIte, hc c (List.mem_cons_self _ _), Bool.false_eq_true]
    rw [ih (i + 1) (fun x hx => hc x (List.mem_cons_of_mem _ hx)) (by omega) (by omega)]

theorem set_at_length {α : Type} (l1 : List α) (x y : α) (l2 : List α) :
    (l1 ++ x :: l2).set l1.length y = l1 ++ y :: l2 := by
  induction l1 with
  | nil => rfl
  | cons a l ih => simp [ih]

theorem getElem?_at_length {α : Type} (l1 : List α) (x : α) (l2 : List α) :
    (l1 ++ x :: l2)[l1.length]? = some x := by
  induction l1 with
  | nil => simp
  | cons a l ih => simpa using ih

/-! ### A second scan over rows without insertion -/

/-- A column that is not gapped in the query alone, with no insertion open: the
buffer and the insertion list are neither read nor changed, and a state that
differs in `m_ilas`, `m_length`, `m_score` and the buffer takes the same step;
`m_ilas` and `m_length` are either written by the step or left as they were. -/
theorem updateColumn_override {i : Nat} {qc sc : Char} {st : UpdState} (x y : Nat)
    (z : Nat × Nat) (b : List Char)
    (hni : is_gap T qc = true → is_gap T sc = true) (hf : st.qgapf = false) :
    ∃ st' x' y', updateColumn T K i qc sc st = .ok st' ∧
      updateColumn T K i qc sc (override x y z b st) = .ok (override x' y' z b st') ∧
      st'.qgapf = false ∧ st'.self.m_seq = st.self.m_seq ∧
      st'.self.m_insertions = st.self.m_insertions ∧
      (x' = st'.self.m_ilas ∨ (x' = x ∧ st'.self.m_ilas = st.self.m_ilas)) ∧
      (y' = st'.self.m_length ∨ (y' = y ∧ st'.self.m_length = st.self.m_length)) := by
  unfold updateColumn
  simp only [updateTail_eq]
  by_cases hs : is_gap T sc = true
  · by_cases hq : is_gap T qc = true
    · simp only [hq, hs, Bool.and_self, ↓reduceIte]
      exact ⟨st, x, y, rfl, rfl, hf, rfl, rfl, Or.inr ⟨rfl, rfl⟩, Or.inr ⟨rfl, rfl⟩⟩
    · simp only [hq, hs, Bool.false_and, Bool.false_eq_true, ↓reduceIte]
      exact ⟨_, x, y, rfl, rfl, hf, rfl, rfl, Or.inr ⟨rfl, rfl⟩, Or.inr ⟨rfl, rfl⟩⟩
  · have hq : ¬ is_gap T qc = true := fun h => hs (hni h)
    have hf1 : (override x y z b st).qgapf = false := hf
    simp only [hq, hs, Bool.false_and, Bool.false_eq_true, ↓reduceIte, hf, hf1]
    by_cases h0 : st.self.m_ifir = 0
    · refine ⟨_, st.ipos, y, rfl, ?_, ?_, ?_, ?_, ?_, ?_⟩
      · simp [override, tailState, stepAligned, h0]
      · simp [tailState, stepAligned]
      · simp [tailState, stepAligned, h0]
      · simp [tailState, stepAligned, h0]
      · left; simp [tailState, stepAligned, h0]
      · right; simp [tailState, stepAligned, h0]
    · refine ⟨_, st.ipos, if st.length > 0 then st.length + 1 else st.length, rfl,
        ?_, ?_, ?_, ?_, ?_, ?_⟩
      · simp [override, tailState, stepAligned, h0]
      · simp [tailState, stepAligned]
      · simp [tailState, stepAligned, h0]
      · simp [tailState, stepAligned, h0]
      · left; simp [tailState, stepAligned, h0]
      · left; simp [tailState, stepAligned, h0]

theorem updateCols_override (z : Nat × Nat) (b : List Char) :
    ∀ (cols : List (Char × Char)) (i : Nat) (st : UpdState) (x y : Nat),
      (∀ c ∈ cols, is_gap T c.1 = true → is_gap T c.2 = true) → st.qgapf = false →
      ∃ st' x' y', updateCols T K cols i st = .ok st' ∧
        updateCols T K cols i (override x y z b st) = .ok (override x' y' z b st') ∧
        st'.qgapf = false ∧ st'.self.m_seq = st.self.m_seq ∧
        st'.self.m_insertions = st.self.m_insertions ∧
        (x' = st'.self.m_ilas ∨ (x' = x ∧ st'.self.m_ilas = st.self.m_ilas)) ∧
        (y' = st'.self.m_length ∨ (y' = y ∧ st'.self.m_length = st.self.m_length)) := by
  intro cols
  induction cols with
  | nil =>
    intro i st x y _ hf
    exact ⟨st, x, y, rfl, rfl, hf, rfl, rfl, Or.inr ⟨rfl, rfl⟩, Or.inr ⟨rfl, rfl⟩⟩
  | cons c cs ih =>
    intro i st x y hc hf
    obtain ⟨st1, x1, y1, h1, h1o, hf1, hb1, hi1, hx1, hy1⟩ :=
      @updateColumn_override T K i c.1 c.2 st x y z b (hc c (List.mem_cons_self _ _)) hf
    obtain ⟨st2, x2, y2, h2, h2o, hf2, hb2, hi2, hx2, hy2⟩ :=
      ih (i + 1) st1 x1 y1 (fun d hd => hc d (List.mem_cons_of_mem _ hd)) hf1
    refine ⟨st2, x2, y2, by simp [updateCols, h1, h2], by simp [updateCols, h1o, h2o], hf2,
      hb2.trans hb1, hi2.trans hi1, ?_, ?_⟩
    · rcases hx2 with h | ⟨h, h'⟩
      · exact Or.inl h
      · rcases hx1 with g | ⟨g, g'⟩
        · exact Or.inl (by rw [h, h', g])
        · exact Or.inr ⟨h.trans g, h'.trans g'⟩
    · rcases hy2 with h | ⟨h, h'⟩
      · exact Or.inl h
      · rcases hy1 with g | ⟨g, g'⟩
        · exact Or.inl (by rw [h, h', g])
        · exact Or.inr ⟨h.trans g, h'.trans g'⟩

/-- In a column where the hit is gapped the loop body does not look at which
gap character it holds. -/
theorem updateColumn_gap_congr {i : Nat} {qc sc sc' : Char} {st : UpdState}
    (hs : is_gap T sc = true) (hs' : is_gap T sc' = true) :
    updateColumn T K i qc sc st = updateColumn T K i qc sc' st := by
  unfold updateColumn
  simp only [hs, hs', Bool.and_true, ↓reduceIte]

theorem updateCols_gap_congr :
    ∀ (cols cols' : List (Char × Char)) (i : Nat) (st : UpdState),
      List.Forall₂ (fun c d : Char × Char => c.1 = d.1 ∧
        (c.2 = d.2 ∨ (is_gap T c.2 = true ∧ is_gap T d.2 = true))) cols cols' →
      updateCols T K cols i st = updateCols T K cols' i st := by
  intro cols cols' i st h
  induction h generalizing i st with
  | nil => rfl
  | @cons c d cs ds hcd _ ih =>
    obtain ⟨h1, h2⟩ := hcd
    have hstep : updateColumn T K i c.1 c.2 st = updateColumn T K i d.1 d.2 st := by
      rw [h1]
      rcases h2 with h2 | ⟨h2, h3⟩
      · rw [h2]
      · exact updateColumn_gap_congr h2 h3
    simp only [updateCols, hstep]
    cases updateColumn T K i d.1 d.2 st with
    | error e => rfl
    | ok st1 => exact ih _ _

/-- The loop body leaves `m_jfir`, `m_jlas`, `m_id2` and `m_space` alone, and
writes the active range only in a column where the hit is not gapped. -/
theorem updateColumn_frame {i : Nat} {qc sc : Char} {st st' : UpdState}
    (h : updateColumn T K i qc sc st = .ok st') :
    st'.self.m_jfir = st.self.m_jfir ∧ st'.self.m_jlas = st.self.m_jlas ∧
      st'.self.m_id2 = st.self.m_id2 ∧ st'.self.m_space = st.self.m_space ∧
      (is_gap T sc = true →
        st'.self.m_begin = st.self.m_begin ∧ st'.self.m_end = st.self.m_end) ∧
      (is_gap T sc = false →
        st'.self.m_begin = (if st.self.m_begin = UINT32_MAX then i else st.self.m_begin) ∧
        st'.self.m_end = i + 1) := by
  unfold updateColumn at h
  simp only [updateTail_eq] at h
  split at h
  · rename_i hb
    simp only [Except.ok.injEq] at h
    subst h
    simp only [Bool.and_eq_true] at hb
    simp [hb.2]
  · split at h
    · rename_i hs
      simp only [Except.ok.injEq] at h
      subst h
      simp [stepHitGap, hs]
    · rename_i hs
      split at h
      · by_cases hf : st.qgapf = true
        · simp only [hf, Bool.not_true, Bool.false_eq_true, ↓reduceIte, Except.ok.injEq] at h
          subst h
          simp [tailState, stepQueryGap, hs]
        · by_cases hi : i = 0
          · simp [hf, openInsertion, hi] at h
          · simp only [hf, openInsertion, hi, Bool.not_eq_true, Bool.not_false, ↓reduceIte,
              Except.ok.injEq] at h
            subst h
            simp [tailState, stepQueryGap, hs]
      · split at h
        · simp only [Except.ok.injEq] at h
          subst h
          simp only [tailState, stepAligned, closeInsertion]
          split <;> simp [hs]
        · simp only [Except.ok.injEq] at h
          subst h
          simp only [tailState, stepAligned]
          split <;> simp [hs]

theorem updateCols_frame :
    ∀ (cols : List (Char × Char)) (i : Nat) (st st' : UpdState),
      updateCols T K cols i st = .ok st' →
      st'.self.m_jfir = st.self.m_jfir ∧ st'.self.m_jlas = st.self.m_jlas ∧
        st'.self.m_id2 = st.self.m_id2 ∧ st'.self.m_space = st.self.m_space := by
  intro cols
  induction cols with
  | nil =>
    intro i st st' h
    simp only [updateCols, Except.ok.injEq] at h
    subst h
    exact ⟨rfl, rfl, rfl, rfl⟩
  | cons c cs ih =>
    intro i st st' h
    simp only [updateCols] at h
    cases hr : updateColumn T K i c.1 c.2 st with
    | error e => simp [hr] at h
    | ok st1 =>
      simp only [hr] at h
      obtain ⟨a1, a2, a3, a4, -, -⟩ := updateColumn_frame hr
      obtain ⟨b1, b2, b3, b4⟩ := ih _ _ _ h
      exact ⟨b1.trans a1, b2.trans a2, b3.trans a3, b4.trans a4⟩

theorem updateColumn_outside {done : List Char} {qc sc : Char} {st st' : UpdState}
    (hsz : done.length < UINT32_MAX) (hR : RangeInv done.length st)
    (hO : OutsideGap T done st) (h : updateColumn T K done.length qc sc st = .ok st') :
    OutsideGap T (done ++ [sc]) st' := by
  obtain ⟨-, -, -, -, hg, hn⟩ := updateColumn_frame h
  obtain ⟨hR1, hR2, -, -⟩ := hR
  intro j c hj hout
  by_cases hs : is_gap T sc = true
  · obtain ⟨e1, e2⟩ := hg hs
    rw [e1, e2] at hout
    by_cases hlt : j < done.length
    · rw [List.getElem?_append_left hlt] at hj
      exact hO j c hj hout
    · have hjl : (done ++ [sc])[j]? = some c := hj
      have hlen : j < (done ++ [sc]).length := by
        rcases List.getElem?_eq_some_iff.1 hjl with ⟨hl, _⟩
        exact hl
      simp only [List.length_append, List.length_singleton] at hlen
      have hje : j = done.length := by omega
      subst hje
      simp only [List.getElem?_concat_length, Option.some.injEq] at hj
      rw [← hj]
      exact hs
  · simp only [Bool.not_eq_true] at hs
    obtain ⟨e1, e2⟩ := hn hs
    rw [e1, e2] at hout
    have hlen : j < (done ++ [sc]).length := by
      rcases List.getElem?_eq_some_iff.1 hj with ⟨hl, _⟩
      exact hl
    simp only [List.length_append, List.length_singleton] at hlen
    by_cases hM : st.self.m_begin = UINT32_MAX
    · simp only [hM, ↓reduceIte] at hout
      have hlt : j < done.length := by omega
      rw [List.getElem?_append_left hlt] at hj
      exact hO j c hj (Or.inl hM)
    · simp only [hM, ↓reduceIte, false_or] at hout
      have hlt : j < st.self.m_begin := by omega
      have hlt2 : j < done.length := by
        rcases hR2 with h2 | h2
        · exact absurd h2 hM
        · omega
      rw [List.getElem?_append_left hlt2] at hj
      exact hO j c hj (Or.inr (Or.inl hlt))

theorem updateCols_outside :
    ∀ (cols : List (Char × Char)) (done : List Char) (st st' : UpdState),
      done.length + cols.length ≤ UINT32_MAX → RangeInv done.length st →
      OutsideGap T done st → updateCols T K cols done.length st = .ok st' →
      OutsideGap T (done ++ cols.map Prod.snd) st' := by
  intro cols
  induction cols with
  | nil =>
    intro done st st' _ _ hO h
    simp only [updateCols, Except.ok.injEq] at h
    subst h
    simpa using hO
  | cons c cs ih =>
    intro done st st' hsz hR hO h
    simp only [updateCols] at h
    simp only [List.length_cons] at hsz
    cases hr : updateColumn T K done.length c.1 c.2 st with
    | error e => simp [hr] at h
    | ok st1 =>
      simp only [hr] at h
      have hO1 := updateColumn_outside (by omega) hR hO hr
      have hR1 := (updateColumn_rangeInv hR hr).1
      have hl : (done ++ [c.2]).length = done.length + 1 := by simp
      rw [← hl] at h hR1
      have := ih (done ++ [c.2]) st1 st' (by rw [hl]; omega) hR1 hO1 h
      simpa using this

theorem trimBuffer_gapEquiv (b e : Nat) (hblank : is_gap T ' ' = true)
    (hdot : is_gap T '.' = true) :
    ∀ (buf : List Char) (i : Nat),
      (∀ j c, buf[j]? = some c → (i + j < b ∨ e ≤ i + j) → is_gap T c = true) →
      List.Forall₂ (gapEquiv T) (trimBuffer T b e i buf) buf := by
  intro buf
  induction buf with
  | nil => intro i _; exact List.Forall₂.nil
  | cons c cs ih =>
    intro i h
    refine List.Forall₂.cons ?_ (ih (i + 1) fun j d hj ho => h (j + 1) d (by simpa using hj)
      (by omega))
    by_cases hout : i < b ∨ i ≥ e
    · simp only [hout, ↓reduceIte]
      exact Or.inr ⟨hblank, h 0 c (by simp) (by omega)⟩
    · simp only [hout, ↓reduceIte]
      by_cases hc : is_gap T c = true
      · simp only [hc, ↓reduceIte]
        exact Or.inr ⟨hdot, hc⟩
      · simp only [hc, Bool.false_eq_true, ↓reduceIte]
        exact Or.inl rfl

theorem trimBuffer_idem (b e : Nat) (hdot : is_gap T '.' = true) :
    ∀ (buf : List Char) (i : Nat),
      trimBuffer T b e i (trimBuffer T b e i buf) = trimBuffer T b e i buf := by
  intro buf
  induction buf with
  | nil => intro i; rfl
  | cons c cs ih =>
    intro i
    simp only [trimBuffer, ih]
    by_cases hout : i < b ∨ i ≥ e
    · simp [hout]
    · by_cases hc : is_gap T c = true
      · simp [hout, hc, hdot]
      · simp [hout, hc]

theorem zip_gapEquiv :
    ∀ (s' s q : List Char), List.Forall₂ (gapEquiv T) s' s →
      List.Forall₂ (fun c d : Char × Char => c.1 = d.1 ∧
        (c.2 = d.2 ∨ (is_gap T c.2 = true ∧ is_gap T d.2 = true))) (q.zip s') (q.zip s) := by
  intro s' s q h
  induction h generalizing q with
  | nil => simp
  | @cons c d cs ds hcd _ ih =>
    cases q with
    | nil => simp
    | cons x xs =>
      simp only [List.zip_cons_cons]
      exact List.Forall₂.cons ⟨rfl, hcd⟩ (ih xs)

theorem gapEquiv_refl_list : ∀ s : List Char, List.Forall₂ (gapEquiv T) s s := by
  intro s
  induction s with
  | nil => exact List.Forall₂.nil
  | cons c cs ih => exact List.Forall₂.cons (Or.inl rfl) ih

/-! ### What one column does to the counters -/

theorem toNat_ofNat_small (n : Nat) (h : n < 55296) : (Char.ofNat n).toNat = n := by
  have hv : n.isValidChar := Or.inl h
  simp only [Char.ofNat, hv, Char.ofNatAux, Char.toNat, dite_true]
  show (BitVec.ofNatLt n _).toNat = n
  simp

theorem toLower_idem (c : Char) : c.toLower.toLower = c.toLower := by
  unfold Char.toLower
  simp only
  split
  · rename_i h
    have h2 : (Char.ofNat (c.toNat + 32)).toNat = c.toNat + 32 := toNat_ofNat_small _ (by omega)
    simp only [h2]
    split
    · omega
    · rfl
  · rename_i h
    simp [h]

/-- A column gapped in both rows leaves the state as it is. -/
theorem updateColumn_bothGap {i : Nat} {qc sc : Char} (st : UpdState)
    (hq : is_gap T qc = true) (hs : is_gap T sc = true) :
    updateColumn T K i qc sc st = .ok st := by
  simp [updateColumn, hq, hs]

/-- A column gapped in exactly one row: the pending gap counters advance, the
event counter only when no gap run is open; the query position advances when the
hit is the gapped row; nothing is folded into the record. -/
theorem updateColumn_oneSided {i : Nat} {qc sc : Char} {st st' : UpdState}
    (hx : is_gap T qc ≠ is_gap T sc) (h : updateColumn T K i qc sc st = .ok st') :
    st'.gapn = st.gapn + 1 ∧
      st'.gaps = st.gaps + (if (st.sgapf || st.qgapf) = true then 0 else 1) ∧
      (st'.sgapf || st'.qgapf) = true ∧
      st'.ipos = st.ipos + (if is_gap T sc = true then 1 else 0) ∧
      st'.length = bumpLength st.length ∧
      st'.self.m_gapn = st.self.m_gapn ∧ st'.self.m_gaps = st.self.m_gaps ∧
      st'.self.m_ifir = st.self.m_ifir ∧ st'.self.m_ilas = st.self.m_ilas ∧
      st'.self.m_length = st.self.m_length := by
  unfold updateColumn at h
  simp only [updateTail_eq] at h
  by_cases hs : is_gap T sc = true
  · have hq : is_gap T qc = false := by
      cases hqv : is_gap T qc
      · rfl
      · exact absurd (hqv.trans hs.symm) hx
    simp only [hq, hs, Bool.false_and, Bool.false_eq_true, ↓reduceIte, Except.ok.injEq] at h
    subst h
    simp only [stepHitGap, bumpLength, hs, ↓reduceIte, Bool.true_or, and_self, and_true,
      true_and]
    cases st.sgapf <;> cases st.qgapf <;> simp
  · have hs0 : is_gap T sc = false := by simpa using hs
    have hq : is_gap T qc = true := by
      cases hqv : is_gap T qc
      · exact absurd (hqv.trans hs0.symm) hx
      · rfl
    simp only [hq, hs0, Bool.and_false, Bool.false_eq_true, ↓reduceIte] at h
    by_cases hf : st.qgapf = true
    · simp only [hf, Bool.not_true, Bool.false_eq_true, ↓reduceIte, Except.ok.injEq] at h
      subst h
      simp [tailState, stepQueryGap, bumpLength, hf, hs0]
    · by_cases hi : i = 0
      · simp [hf, openInsertion, hi] at h
      · simp only [hf, openInsertion, hi, Bool.not_eq_true, Bool.not_false, ↓reduceIte,
          Except.ok.injEq] at h
        subst h
        simp only [Bool.not_eq_true] at hf
        simp only [tailState, stepQueryGap, bumpLength, hf, Bool.or_false, Bool.or_true,
          and_self, and_true, Bool.false_eq_true, ↓reduceIte, Nat.add_zero, true_and, hs0]
        cases st.sgapf <;> simp

/-- An aligned column: the flags and the pending counters are cleared, both
positions advance, `m_ilas` is written; the first aligned column writes
`m_ifir` and starts the length at 1, a later one folds the pending counters and
the length into the record. -/
theorem updateColumn_alignedEffect {i : Nat} {qc sc : Char} {st st' : UpdState}
    (hq : is_gap T qc = false) (hs : is_gap T sc = false)
    (h : updateColumn T K i qc sc st = .ok st') :
    st'.sgapf = false ∧ st'.qgapf = false ∧ st'.gapn = 0 ∧ st'.gaps = 0 ∧
      st'.ipos = st.ipos + 1 ∧ st'.self.m_ilas = st.ipos ∧
      (st.self.m_ifir = 0 →
        st'.self.m_ifir = st.ipos ∧ st'.self.m_gapn = st.self.m_gapn ∧
        st'.self.m_gaps = st.self.m_gaps ∧ st'.self.m_length = st.self.m_length ∧
        st'.length = 1) ∧
      (st.self.m_ifir ≠ 0 →
        st'.self.m_ifir = st.self.m_ifir ∧ st'.self.m_gapn = st.self.m_gapn + st.gapn ∧
        st'.self.m_gaps = st.self.m_gaps + st.gaps ∧
        st'.self.m_length = bumpLength st.length ∧ st'.length = bumpLength st.length) := by
  unfold updateColumn at h
  simp only [updateTail_eq, hq, hs, Bool.false_and, Bool.false_eq_true, ↓reduceIte] at h
  by_cases hf : st.qgapf = true
  · simp only [hf, ↓reduceIte, Except.ok.injEq] at h
    subst h
    by_cases h0 : st.self.m_ifir = 0
    · simp [tailState, stepAligned, closeInsertion, bumpLength, h0]
    · simp [tailState, stepAligned, closeInsertion, bumpLength, h0]
  · simp only [hf, Bool.false_eq_true, ↓reduceIte, Except.ok.injEq] at h
    subst h
    by_cases h0 : st.self.m_ifir = 0
    · simp [tailState, stepAligned, bumpLength, h0]
    · simp [tailState, stepAligned, bumpLength, h0]

/-- For rows of equal length: either the scan over the zipped columns ends in a
state and `update` returns the record made from it, or the scan stops in column
0. -/
theorem update_cases (r q : seq_impl) (hlen : r.m_size = q.m_size) :
    (∃ st, updateCols T K (q.m_seq.zip r.m_seq) 0 (updateInit r) = .ok st ∧
        r.update T K q = .ok (updateFinish T st.self)) ∨
      (r.update T K q = .error .outOfBounds ∧
        startsInInsertion T q.m_seq r.m_seq = true) := by
  have hl : r.m_seq.length = q.m_seq.length := hlen
  rw [update_eq_updateCols r q hlen]
  rcases updateCols_zero (T := T) (K := K) (q.m_seq.zip r.m_seq) (updateInit r) rfl with
    ⟨st, hst, _⟩ | ⟨herr, hs⟩
  · exact Or.inl ⟨st, hst, by simp [hst]⟩
  · right
    rw [List.map_fst_zip _ _ (Nat.le_of_eq hl.symm), List.map_snd_zip _ _ (Nat.le_of_eq hl)] at hs
    exact ⟨by simp [herr], hs⟩

theorem updateGives_of (r q : seq_impl) (hlen : r.m_size = q.m_size) (P : seq_impl → Prop)
    (h : ∀ st, updateCols T K (q.m_seq.zip r.m_seq) 0 (updateInit r) = .ok st →
      P (updateFinish T st.self)) : UpdateGives T K r q P := by
  rcases update_cases (T := T) (K := K) r q hlen with ⟨st, hst, hu⟩ | herr
  · exact Or.inl ⟨_, hu, h st hst⟩
  · exact Or.inr herr

/-- For rows of equal length whose first column is not gapped in the query
alone, `update` returns the record made from the state in which the scan over
the zipped columns ends. -/
theorem update_returns_of (r q : seq_impl) (hlen : r.m_size = q.m_size)
    (hstart : startsInInsertion T q.m_seq r.m_seq = false) (P : seq_impl → Prop)
    (h : ∀ st, updateCols T K (q.m_seq.zip r.m_seq) 0 (updateInit r) = .ok st →
      P (updateFinish T st.self)) : ∃ r1, r.update T K q = .ok r1 ∧ P r1 := by
  rcases update_cases (T := T) (K := K) r q hlen with ⟨st, hst, hu⟩ | ⟨_, hs⟩
  · exact ⟨_, hu, h st hst⟩
  · rw [hstart] at hs
    exact absurd hs (by decide)

/-! ### The query positions -/

theorem nonGapBefore_zero (row : List Char) : nonGapBefore T row 0 = 0 := by
  simp [nonGapBefore]

theorem nonGapBefore_cons (c : Char) (row : List Char) (k : Nat) :
    nonGapBefore T (c :: row) (k + 1) =
      (if is_gap T c = true then 0 else 1) + nonGapBefore T row k := by
  unfold nonGapBefore
  by_cases h : is_gap T c = true
  · simp [List.filter_cons, h]
  · simp [List.filter_cons, h]
    omega

theorem column_kinds (c : Char × Char) :
    (is_gap T c.1 = true ∧ is_gap T c.2 = true) ∨ is_gap T c.1 ≠ is_gap T c.2 ∨
      (is_gap T c.1 = false ∧ is_gap T c.2 = false) := by
  cases h1 : is_gap T c.1 <;> cases h2 : is_gap T c.2 <;> simp

/-- The query position counter, `m_ifir` and `m_ilas` at the end of a scan of
`cols`, from the state in which it starts. -/
theorem updateCols_positions :
    ∀ (cols : List (Char × Char)) (i : Nat) (st st' : UpdState), 1 ≤ st.ipos →
      updateCols T K cols i st = .ok st' →
      st'.ipos = st.ipos + nonGapBefore T (cols.map Prod.fst) cols.length ∧
        st'.self.m_ifir =
          (if st.self.m_ifir ≠ 0 then st.self.m_ifir
           else match firstAligned T cols with
             | none => 0
             | some k => st.ipos + nonGapBefore T (cols.map Prod.fst) k) ∧
        st'.self.m_ilas =
          (match lastAligned T cols with
           | none => st.self.m_ilas
           | some k => st.ipos + nonGapBefore T (cols.map Prod.fst) k) := by
  intro cols
  induction cols with
  | nil =>
    intro i st st' _ h
    simp only [updateCols, Except.ok.injEq] at h
    subst h
    refine ⟨by simp [nonGapBefore_zero], ?_, by simp [lastAligned]⟩
    by_cases hz : st.self.m_ifir = 0 <;> simp [hz, firstAligned]
  | cons c cs ih =>
    intro i st st' hpos h
    simp only [updateCols] at h
    cases hr : updateColumn T K i c.1 c.2 st with
    | error e => simp [hr] at h
    | ok st1 =>
      simp only [hr] at h
      simp only [List.map_cons, List.length_cons, nonGapBefore_cons]
      rcases column_kinds (T := T) c with ⟨hq, hs⟩ | hx | ⟨hq, hs⟩
      · -- gapped in both rows
        rw [updateColumn_bothGap st hq hs] at hr
        simp only [Except.ok.injEq] at hr
        subst hr
        obtain ⟨e1, e2, e3⟩ := ih (i + 1) st st' hpos h
        have hal : isAligned T c = false := by simp [isAligned, hq]
        refine ⟨by simp [e1, hq], ?_, ?_⟩
        · rw [e2]
          simp only [firstAligned, hal, Bool.false_eq_true, ↓reduceIte]
          cases firstAligned T cs with
          | none => simp
          | some k => simp [nonGapBefore_cons, hq]
        · rw [e3]
          simp only [lastAligned, hal, Bool.false_eq_true, ↓reduceIte]
          cases lastAligned T cs with
          | none => simp
          | some k => simp [nonGapBefore_cons, hq]
      · -- gapped in one row
        obtain ⟨-, -, -, hip, -, -, -, hif, hil, -⟩ := updateColumn_oneSided hx hr
        have hal : isAligned T c = false := by
          cases h1 : is_gap T c.1 <;> cases h2 : is_gap T c.2 <;> simp_all [isAligned]
        have hcnt : (if is_gap T c.2 = true then 1 else 0) =
            (if is_gap T c.1 = true then 0 else 1) := by
          cases h1 : is_gap T c.1 <;> cases h2 : is_gap T c.2 <;> simp_all
        rw [hcnt] at hip
        obtain ⟨d, hd⟩ : ∃ d : Nat, (if is_gap T c.1 = true then 0 else 1) = d := ⟨_, rfl⟩
        rw [hd] at hip ⊢
        obtain ⟨e1, e2, e3⟩ := ih (i + 1) st1 st' (by rw [hip]; omega) h
        refine ⟨by rw [e1, hip]; omega, ?_, ?_⟩
        · rw [e2, hif, hip]
          simp only [firstAligned, hal, Bool.false_eq_true, ↓reduceIte]
          cases firstAligned T cs with
          | none => simp
          | some k => simp only [Option.map_some', nonGapBefore_cons, Nat.add_assoc, hd]
        · rw [e3, hil, hip]
          simp only [lastAligned, hal, Bool.false_eq_true, ↓reduceIte]
          cases lastAligned T cs with
          | none => simp
          | some k => simp only [nonGapBefore_cons, Nat.add_assoc, hd]
      · -- aligned
        obtain ⟨-, -, -, -, hip, hil, h0, h1⟩ := updateColumn_alignedEffect hq hs hr
        obtain ⟨e1, e2, e3⟩ := ih (i + 1) st1 st' (by rw [hip]; omega) h
        have hal : isAligned T c = true := by simp [isAligned, hq, hs]
        simp only [hq, Bool.false_eq_true, ↓reduceIte]
        refine ⟨by rw [e1, hip]; omega, ?_, ?_⟩
        · rw [e2]
          by_cases hz : st.self.m_ifir = 0
          · have hv := (h0 hz).1
            have hne : st1.self.m_ifir ≠ 0 := by omega
            rw [if_pos hne, hv]
            simp [hz, firstAligned, hal, nonGapBefore_zero]
          · have hv := (h1 hz).1
            have hne : st1.self.m_ifir ≠ 0 := by omega
            rw [if_pos hne, hv, if_pos hz]
        · rw [e3]
          simp only [lastAligned, hal, ↓reduceIte]
          cases lastAligned T cs with
          | none => simp [hil, nonGapBefore_zero]
          | some k =>
            simp only [nonGapBefore_cons, hip, hq, Bool.false_eq_true, ↓reduceIte,
              Nat.add_assoc]

theorem firstAligned_spec :
    ∀ (cols : List (Char × Char)) (k : Nat), firstAligned T cols = some k →
      (∃ c, cols[k]? = some c ∧ isAligned T c = true) ∧
        ∀ j c, j < k → cols[j]? = some c → isAligned T c = false := by
  intro cols
  induction cols with
  | nil => intro k h; simp [firstAligned] at h
  | cons c cs ih =>
    intro k h
    by_cases hal : isAligned T c = true
    · simp only [firstAligned, hal, ↓reduceIte, Option.some.injEq] at h
      subst h
      exact ⟨⟨c, by simp, hal⟩, fun j d hj _ => absurd hj (Nat.not_lt_zero j)⟩
    · simp only [firstAligned, hal, Bool.false_eq_true, ↓reduceIte, Option.map_eq_some'] at h
      obtain ⟨k', hk', rfl⟩ := h
      obtain ⟨⟨d, hd, hda⟩, hbefore⟩ := ih k' hk'
      refine ⟨⟨d, by simpa using hd, hda⟩, fun j e hj he => ?_⟩
      cases j with
      | zero =>
        simp only [List.getElem?_cons_zero, Option.some.injEq] at he
        subst he
        simpa using hal
      | succ j =>
        simp only [List.getElem?_cons_succ] at he
        exact hbefore j e (by omega) he

theorem lastAligned_spec :
    ∀ (cols : List (Char × Char)) (k : Nat), lastAligned T cols = some k →
      (∃ c, cols[k]? = some c ∧ isAligned T c = true) ∧
        ∀ j c, k < j → cols[j]? = some c → isAligned T c = false := by
  intro cols
  induction cols with
  | nil => intro k h; simp [lastAligned] at h
  | cons c cs ih =>
    intro k h
    simp only [lastAligned] at h
    cases hl : lastAligned T cs with
    | some k' =>
      simp only [hl, Option.some.injEq] at h
      subst h
      obtain ⟨⟨d, hd, hda⟩, hafter⟩ := ih k' hl
      refine ⟨⟨d, by simpa using hd, hda⟩, fun j e hj he => ?_⟩
      cases j with
      | zero => omega
      | succ j =>
        simp only [List.getElem?_cons_succ] at he
        exact hafter j e (by omega) he
    | none =>
      simp only [hl] at h
      by_cases hal : isAligned T c = true
      · simp only [hal, ↓reduceIte, Option.some.injEq] at h
        subst h
        refine ⟨⟨c, by simp, hal⟩, fun j e hj he => ?_⟩
        cases j with
        | zero => omega
        | succ j =>
          simp only [List.getElem?_cons_succ] at he
          by_contra hne
          have hmem : ∃ x ∈ cs, isAligned T x = true :=
            ⟨e, List.getElem?_mem he, by simpa using hne⟩
          clear ih hj he
          induction cs with
          | nil => simp at hmem
          | cons x xs ihx =>
            simp only [lastAligned] at hl
            cases hx : lastAligned T xs with
            | some m => simp [hx] at hl
            | none =>
              simp only [hx] at hl
              by_cases hxa : isAligned T x = true
              · simp [hxa] at hl
              · obtain ⟨y, hy, hya⟩ := hmem
                rcases List.mem_cons.1 hy with rfl | hy
                · exact hxa hya
                · exact ihx hx ⟨y, hy, hya⟩
      · simp [hal] at h

theorem firstAligned_isSome :
    ∀ cols : List (Char × Char), (∃ c ∈ cols, isAligned T c = true) →
      ∃ k, firstAligned T cols = some k := by
  intro cols
  induction cols with
  | nil => rintro ⟨c, hc, _⟩; simp at hc
  | cons c cs ih =>
    rintro ⟨d, hd, hda⟩
    by_cases hal : isAligned T c = true
    · exact ⟨0, by simp [firstAligned, hal]⟩
    · rcases List.mem_cons.1 hd with rfl | hd
      · exact absurd hda hal
      · obtain ⟨k, hk⟩ := ih ⟨d, hd, hda⟩
        exact ⟨k + 1, by simp [firstAligned, hal, hk]⟩

theorem lastAligned_isSome :
    ∀ cols : List (Char × Char), (∃ c ∈ cols, isAligned T c = true) →
      ∃ k, lastAligned T cols = some k := by
  intro cols
  induction cols with
  | nil => rintro ⟨c, hc, _⟩; simp at hc
  | cons c cs ih =>
    rintro ⟨d, hd, hda⟩
    cases hl : lastAligned T cs with
    | some k => exact ⟨k + 1, by simp [lastAligned, hl]⟩
    | none =>
      rcases List.mem_cons.1 hd with rfl | hd
      · exact ⟨0, by simp [lastAligned, hl, hda]⟩
      · obtain ⟨k, hk⟩ := ih ⟨d, hd, hda⟩
        rw [hl] at hk
        exact absurd hk (by simp)

theorem updateFinish_fields (self : seq_impl) :
    (updateFinish T self).m_ifir = self.m_ifir ∧ (updateFinish T self).m_ilas = self.m_ilas ∧
      (updateFinish T self).m_jfir = self.m_jfir ∧ (updateFinish T self).m_jlas = self.m_jlas ∧
      (updateFinish T self).m_length = self.m_length ∧
      (updateFinish T self).m_identical = self.m_identical ∧
      (updateFinish T self).m_similar = self.m_similar ∧
      (updateFinish T self).m_gaps = self.m_gaps ∧ (updateFinish T self).m_gapn = self.m_gapn ∧
      (updateFinish T self).m_insertions = self.m_insertions ∧
      (updateFinish T self).m_score = (self.m_identical, self.m_length) := by
  unfold updateFinish
  split <;> simp

/-! ### Rows in which the hit is gapped throughout -/

theorem updateCols_hitGapped :
    ∀ (cols : List (Char × Char)) (i : Nat) (st : UpdState),
      (∀ c ∈ cols, is_gap T c.2 = true) →
      ∃ st', updateCols T K cols i st = .ok st' ∧ st'.self.m_begin = st.self.m_begin ∧
        st'.self.m_end = st.self.m_end := by
  intro cols
  induction cols with
  | nil => intro i st _; exact ⟨st, rfl, rfl, rfl⟩
  | cons c cs ih =>
    intro i st hc
    have hs := hc c (List.mem_cons_self _ _)
    obtain ⟨st1, h1⟩ := @updateColumn_ok T K i c.1 c.2 st (Or.inr (Or.inr (Or.inl hs)))
    obtain ⟨-, -, -, -, hg, -⟩ := updateColumn_frame h1
    obtain ⟨st2, h2, b2, e2⟩ := ih (i + 1) st1 fun d hd => hc d (List.mem_cons_of_mem _ hd)
    exact ⟨st2, by simp [updateCols, h1, h2], b2.trans (hg hs).1, e2.trans (hg hs).2⟩

/-! ### The order of the insertion list -/

theorem updateColumn_insInv {i : Nat} {qc sc : Char} {st st' : UpdState}
    (hI : InsInv st) (h : updateColumn T K i qc sc st = .ok st') : InsInv st' := by
  obtain ⟨h1, h2, h3⟩ := hI
  unfold updateColumn at h
  simp only [updateTail_eq] at h
  unfold InsInv
  split at h
  · simp only [Except.ok.injEq] at h
    subst h
    exact ⟨h1, h2, h3⟩
  · split at h
    · simp only [Except.ok.injEq] at h
      subst h
      simp only [stepHitGap]
      refine ⟨h1, fun x hx => Nat.lt_succ_of_lt (h2 x hx), fun hf => ?_⟩
      exact ⟨(h3 hf).1, Nat.le_succ_of_le (h3 hf).2⟩
    · split at h
      · by_cases hf : st.qgapf = true
        · simp only [hf, Bool.not_true, Bool.false_eq_true, ↓reduceIte, Except.ok.injEq] at h
          subst h
          simp only [tailState, stepQueryGap]
          exact ⟨h1, h2, fun _ => h3 hf⟩
        · by_cases hi : i = 0
          · simp [hf, openInsertion, hi] at h
          · simp only [hf, openInsertion, hi, Bool.not_eq_true, Bool.not_false, ↓reduceIte,
              Except.ok.injEq] at h
            subst h
            simp only [tailState, stepQueryGap]
            exact ⟨h1, h2, fun _ => ⟨h2, Nat.le_refl _⟩⟩
      · split at h
        · rename_i hf
          simp only [Except.ok.injEq] at h
          subst h
          have hp : List.Pairwise (fun a b : insertion => a.m_ipos < b.m_ipos)
              (st.self.m_insertions ++
                [{ st.ins with m_seq := st.ins.m_seq ++ [sc.toLower] }]) := by
            rw [List.pairwise_append]
            refine ⟨h1, List.pairwise_singleton _ _, fun a ha b hb => ?_⟩
            simp only [List.mem_singleton] at hb
            subst hb
            exact (h3 hf).1 a ha
          have hall : ∀ x ∈ st.self.m_insertions ++
              [{ st.ins with m_seq := st.ins.m_seq ++ [sc.toLower] }], x.m_ipos < st.ipos + 1 := by
            intro x hx
            rcases List.mem_append.1 hx with hx | hx
            · exact Nat.lt_succ_of_lt (h2 x hx)
            · simp only [List.mem_singleton] at hx
              subst hx
              exact Nat.lt_succ_of_le (h3 hf).2
          simp only [tailState, stepAligned, closeInsertion]
          split <;> exact ⟨hp, hall, fun hc => absurd hc (by simp)⟩
        · simp only [Except.ok.injEq] at h
          subst h
          simp only [tailState, stepAligned]
          split <;>
            exact ⟨h1, fun x hx => Nat.lt_succ_of_lt (h2 x hx), fun hc => absurd hc (by simp)⟩

theorem updateCols_insInv :
    ∀ (cols : List (Char × Char)) (i : Nat) (st st' : UpdState), InsInv st →
      updateCols T K cols i st = .ok st' → InsInv st' := by
  intro cols
  induction cols with
  | nil =>
    intro i st st' hI h
    simp only [updateCols, Except.ok.injEq] at h
    subst h
    exact hI
  | cons c cs ih =>
    intro i st st' hI h
    simp only [updateCols] at h
    cases hr : updateColumn T K i c.1 c.2 st with
    | error e => simp [hr] at h
    | ok st1 =>
      simp only [hr] at h
      exact ih _ _ _ (updateColumn_insInv hI hr) h

/-! ### The gap counters -/

theorem lastAligned_cons_other {c : Char × Char} (cs : List (Char × Char))
    (hal : isAligned T c = false) :
    lastAligned T (c :: cs) = (lastAligned T cs).map (· + 1) := by
  simp only [lastAligned, hal, Bool.false_eq_true, ↓reduceIte]
  cases lastAligned T cs <;> rfl

theorem uptoLastAligned_cons_other {c : Char × Char} (cs : List (Char × Char))
    (hal : isAligned T c = false) :
    uptoLastAligned T (c :: cs) =
      match lastAligned T cs with
      | none => []
      | some _ => c :: uptoLastAligned T cs := by
  simp only [uptoLastAligned, lastAligned_cons_other cs hal]
  cases lastAligned T cs <;> simp

theorem uptoLastAligned_cons_aligned {c : Char × Char} (cs : List (Char × Char))
    (hal : isAligned T c = true) :
    uptoLastAligned T (c :: cs) = c :: uptoLastAligned T cs ∧
      ∃ k, lastAligned T (c :: cs) = some k := by
  simp only [uptoLastAligned, lastAligned, hal, ↓reduceIte]
  cases lastAligned T cs <;> simp

theorem alignedSpan_cons_other {c : Char × Char} (cs : List (Char × Char))
    (hal : isAligned T c = false) : alignedSpan T (c :: cs) = alignedSpan T cs := by
  simp only [alignedSpan, firstAligned, hal, Bool.false_eq_true, ↓reduceIte,
    uptoLastAligned_cons_other cs hal]
  cases firstAligned T cs with
  | none => rfl
  | some i0 =>
    simp only [Option.map_some']
    cases hl : lastAligned T cs with
    | none => simp [uptoLastAligned, hl]
    | some k => simp

theorem alignedSpan_cons_aligned {c : Char × Char} (cs : List (Char × Char))
    (hal : isAligned T c = true) : alignedSpan T (c :: cs) = c :: uptoLastAligned T cs := by
  simp only [alignedSpan, firstAligned, hal, ↓reduceIte, List.drop_zero]
  exact (uptoLastAligned_cons_aligned cs hal).1

theorem column_kind_flags (c : Char × Char) :
    (bothGapped T c = true ∧ oneSided T c = false ∧ isAligned T c = false ∧
        is_gap T c.1 = true ∧ is_gap T c.2 = true) ∨
      (bothGapped T c = false ∧ oneSided T c = true ∧ isAligned T c = false ∧
        is_gap T c.1 ≠ is_gap T c.2) ∨
      (bothGapped T c = false ∧ oneSided T c = false ∧ isAligned T c = true ∧
        is_gap T c.1 = false ∧ is_gap T c.2 = false) := by
  unfold bothGapped oneSided isAligned
  cases h1 : is_gap T c.1 <;> cases h2 : is_gap T c.2 <;> simp

/-- The gap counters of the record at the end of a scan of `cols` that starts
behind an aligned column: the pending counters and the gap columns up to the last
aligned column of `cols` are folded in, if `cols` has an aligned column. -/
theorem updateCols_gaps_started :
    ∀ (cols : List (Char × Char)) (i : Nat) (st st' : UpdState), st.self.m_ifir ≠ 0 →
      updateCols T K cols i st = .ok st' →
      st'.self.m_gapn = st.self.m_gapn +
          (match lastAligned T cols with
           | none => 0
           | some _ => st.gapn + ((uptoLastAligned T cols).filter (oneSided T)).length) ∧
        st'.self.m_gaps = st.self.m_gaps +
          (match lastAligned T cols with
           | none => 0
           | some _ => st.gaps + runStarts (oneSided T) (st.sgapf || st.qgapf)
              ((uptoLastAligned T cols).filter fun c => !bothGapped T c)) := by
  intro cols
  induction cols with
  | nil =>
    intro i st st' _ h
    simp only [updateCols, Except.ok.injEq] at h
    subst h
    simp [lastAligned]
  | cons c cs ih =>
    intro i st st' h0 h
    simp only [updateCols] at h
    cases hr : updateColumn T K i c.1 c.2 st with
    | error e => simp [hr] at h
    | ok st1 =>
      simp only [hr] at h
      rcases column_kind_flags (T := T) c with ⟨hb, ho, hal, hq, hs⟩ | ⟨hb, ho, hal, hx⟩ |
        ⟨hb, ho, hal, hq, hs⟩
      · -- gapped in both rows
        rw [updateColumn_bothGap st hq hs] at hr
        simp only [Except.ok.injEq] at hr
        subst hr
        obtain ⟨e1, e2⟩ := ih (i + 1) st st' h0 h
        rw [e1, e2, lastAligned_cons_other cs hal, uptoLastAligned_cons_other cs hal]
        cases lastAligned T cs with
        | none => simp
        | some k => simp [List.filter_cons, ho, hb]
      · -- gapped in one row
        obtain ⟨g1, g2, g3, -, -, g6, g7, g8, -, -⟩ := updateColumn_oneSided hx hr
        obtain ⟨e1, e2⟩ := ih (i + 1) st1 st' (by rw [g8]; exact h0) h
        rw [e1, e2, lastAligned_cons_other cs hal, uptoLastAligned_cons_other cs hal, g6, g7,
          g1, g2, g3]
        cases lastAligned T cs with
        | none => simp
        | some k =>
          simp only [Option.map_some', List.filter_cons, ho, hb, ↓reduceIte, Bool.not_false,
            List.length_cons, runStarts, Bool.true_and]
          constructor
          · simp only [Nat.add_assoc, Nat.add_comm 1]
          · cases hfl : (st.sgapf || st.qgapf) <;> simp [Nat.add_assoc]
      · -- aligned
        obtain ⟨a1, a2, a3, a4, -, -, -, a8⟩ := updateColumn_alignedEffect hq hs hr
        obtain ⟨b1, b2, b3, -, -⟩ := a8 h0
        obtain ⟨e1, e2⟩ := ih (i + 1) st1 st' (by rw [b1]; exact h0) h
        obtain ⟨u1, k, u2⟩ := uptoLastAligned_cons_aligned (T := T) cs hal
        rw [e1, e2, u1, u2, b2, b3, a1, a2, a3, a4]
        simp only [List.filter_cons, ho, hb, Bool.false_eq_true, ↓reduceIte, Bool.not_false,
          runStarts, Bool.false_and, Bool.or_self, Nat.zero_add]
        cases hl : lastAligned T cs with
        | none => simp [uptoLastAligned, hl, runStarts]
        | some m => simp only [Nat.add_assoc]; exact ⟨trivial, trivial⟩

/-- The gap counters of the record at the end of a scan of `cols` that starts
before any aligned column. -/
theorem updateCols_gaps :
    ∀ (cols : List (Char × Char)) (i : Nat) (st st' : UpdState), st.self.m_ifir = 0 →
      1 ≤ st.ipos → updateCols T K cols i st = .ok st' →
      st'.self.m_gapn = st.self.m_gapn + gapResidues T cols ∧
        st'.self.m_gaps = st.self.m_gaps + gapEvents T cols := by
  intro cols
  induction cols with
  | nil =>
    intro i st st' _ _ h
    simp only [updateCols, Except.ok.injEq] at h
    subst h
    simp [gapResidues, gapEvents, alignedSpan, firstAligned, runStarts]
  | cons c cs ih =>
    intro i st st' h0 hpos h
    simp only [updateCols] at h
    cases hr : updateColumn T K i c.1 c.2 st with
    | error e => simp [hr] at h
    | ok st1 =>
      simp only [hr] at h
      rcases column_kind_flags (T := T) c with ⟨hb, ho, hal, hq, hs⟩ | ⟨hb, ho, hal, hx⟩ |
        ⟨hb, ho, hal, hq, hs⟩
      · rw [updateColumn_bothGap st hq hs] at hr
        simp only [Except.ok.injEq] at hr
        subst hr
        obtain ⟨e1, e2⟩ := ih (i + 1) st st' h0 hpos h
        simp only [gapResidues, gapEvents, alignedSpan_cons_other cs hal] at e1 e2 ⊢
        exact ⟨e1, e2⟩
      · obtain ⟨-, -, -, g4, -, g6, g7, g8, -, -⟩ := updateColumn_oneSided hx hr
        obtain ⟨e1, e2⟩ := ih (i + 1) st1 st' (by rw [g8]; exact h0) (by rw [g4]; omega) h
        simp only [gapResidues, gapEvents, alignedSpan_cons_other cs hal] at e1 e2 ⊢
        rw [e1, e2, g6, g7]
        exact ⟨rfl, rfl⟩
      · obtain ⟨a1, a2, a3, a4, -, -, a7, -⟩ := updateColumn_alignedEffect hq hs hr
        obtain ⟨b1, b2, b3, -, -⟩ := a7 h0
        obtain ⟨e1, e2⟩ := updateCols_gaps_started cs (i + 1) st1 st' (by rw [b1]; omega) h
        simp only [gapResidues, gapEvents, alignedSpan_cons_aligned cs hal]
        rw [e1, e2, b2, b3, a1, a2, a3, a4]
        simp only [List.filter_cons, ho, hb, Bool.false_eq_true, ↓reduceIte, Bool.not_false,
          runStarts, Bool.false_and, Bool.or_self, Nat.zero_add]
        cases hl : lastAligned T cs with
        | none => simp [uptoLastAligned, hl, runStarts]
        | some m => exact ⟨rfl, rfl⟩

/-! ### The buffer after the scan -/

theorem lowerRel_refl (orig : List Char) : LowerRel orig orig :=
  ⟨rfl, fun _ c h => ⟨c, h, Or.inl rfl⟩⟩

theorem lowerRel_set {orig buf : List Char} (g : Nat) (x : Char) (h : LowerRel orig buf)
    (hx : ∀ d, orig[g]? = some d → x = d ∨ x = d.toLower) :
    LowerRel orig (buf.set g x) := by
  obtain ⟨h1, h2⟩ := h
  refine ⟨by rw [List.length_set]; exact h1, fun j c hj => ?_⟩
  rw [List.getElem?_set] at hj
  by_cases hgj : g = j
  · subst hgj
    by_cases hlt : g < buf.length
    · simp only [↓reduceIte, hlt, Option.some.injEq] at hj
      subst hj
      have hlt2 : g < orig.length := h1 ▸ hlt
      exact ⟨orig[g], List.getElem?_eq_getElem hlt2, hx _ (List.getElem?_eq_getElem hlt2)⟩
    · simp [hlt] at hj
  · simp only [hgj, ↓reduceIte] at hj
    exact h2 j c hj

theorem lowerRel_set_lower {orig buf : List Char} (g : Nat) (h : LowerRel orig buf) :
    LowerRel orig (buf.set g (buf.getD g ' ').toLower) := by
  refine lowerRel_set g _ h fun d hd => ?_
  have hlt : g < orig.length := (List.getElem?_eq_some_iff.1 hd).1
  have hlt2 : g < buf.length := h.1 ▸ hlt
  have hb : buf[g]? = some buf[g] := List.getElem?_eq_getElem hlt2
  obtain ⟨d', hd', hc⟩ := h.2 g _ hb
  rw [hd] at hd'
  cases hd'
  simp only [List.getD_eq_getElem?_getD, hb, Option.getD_some]
  rcases hc with hc | hc
  · exact Or.inr (by rw [hc])
  · exact Or.inr (by rw [hc, toLower_idem])

/-- The buffer after the loop body: as before, or with one character lower-cased
where it stands, or with the character of the column lower-cased. -/
theorem updateColumn_seq {i : Nat} {qc sc : Char} {st st' : UpdState}
    (h : updateColumn T K i qc sc st = .ok st') :
    st'.self.m_seq = st.self.m_seq ∨
      (∃ g, st'.self.m_seq = st.self.m_seq.set g (st.self.m_seq.getD g ' ').toLower) ∨
      st'.self.m_seq = st.self.m_seq.set i sc.toLower := by
  unfold updateColumn at h
  simp only [updateTail_eq] at h
  split at h
  · simp only [Except.ok.injEq] at h
    subst h
    exact Or.inl rfl
  · split at h
    · simp only [Except.ok.injEq] at h
      subst h
      exact Or.inl rfl
    · split at h
      · by_cases hf : st.qgapf = true
        · simp only [hf, Bool.not_true, Bool.false_eq_true, ↓reduceIte, Except.ok.injEq] at h
          subst h
          exact Or.inl rfl
        · by_cases hi : i = 0
          · simp [hf, openInsertion, hi] at h
          · simp only [hf, openInsertion, hi, Bool.not_eq_true, Bool.not_false, ↓reduceIte,
              Except.ok.injEq] at h
            subst h
            exact Or.inr (Or.inl ⟨_, rfl⟩)
      · split at h
        · simp only [Except.ok.injEq] at h
          subst h
          right; right
          simp only [tailState, stepAligned, closeInsertion]
          split <;> rfl
        · simp only [Except.ok.injEq] at h
          subst h
          left
          simp only [tailState, stepAligned]
          split <;> rfl

theorem updateCols_lowerRel (orig : List Char) :
    ∀ (cols : List (Char × Char)) (i : Nat) (st st' : UpdState),
      LowerRel orig st.self.m_seq → orig.drop i = cols.map Prod.snd →
      updateCols T K cols i st = .ok st' → LowerRel orig st'.self.m_seq := by
  intro cols
  induction cols with
  | nil =>
    intro i st st' hrel _ h
    simp only [updateCols, Except.ok.injEq] at h
    subst h
    exact hrel
  | cons c cs ih =>
    intro i st st' hrel hd h
    simp only [updateCols] at h
    cases hr : updateColumn T K i c.1 c.2 st with
    | error e => simp [hr] at h
    | ok st1 =>
      simp only [hr] at h
      have hi : orig[i]? = some c.2 := by
        have := congrArg (fun l => l[0]?) hd
        simpa [List.getElem?_drop] using this
      have hd1 : orig.drop (i + 1) = cs.map Prod.snd := by
        have := congrArg List.tail hd
        simpa [List.tail_drop] using this
      refine ih (i + 1) st1 st' ?_ hd1 h
      rcases updateColumn_seq hr with e | ⟨g, e⟩ | e
      · rw [e]; exact hrel
      · rw [e]; exact lowerRel_set_lower g hrel
      · rw [e]
        refine lowerRel_set i _ hrel fun d hd' => ?_
        rw [hi] at hd'
        cases hd'
        exact Or.inr rfl

theorem trimBuffer_getElem? (b e : Nat) :
    ∀ (buf : List Char) (i j : Nat),
      (trimBuffer T b e i buf)[j]? = buf[j]?.map fun c =>
        if i + j < b ∨ i + j ≥ e then ' ' else if is_gap T c = true then '.' else c := by
  intro buf
  induction buf with
  | nil => intro i j; simp [trimBuffer]
  | cons c cs ih =>
    intro i j
    cases j with
    | zero => simp [trimBuffer]
    | succ j =>
      simp only [trimBuffer, List.getElem?_cons_succ, ih]
      have : i + 1 + j = i + (j + 1) := by omega
      rw [this]

theorem gapSymbol_toNat {c : Char} (h : c ∈ gapSymbols) :
    c.toNat = 45 ∨ c.toNat = 126 ∨ c.toNat = 46 ∨ c.toNat = 95 ∨ c.toNat = 32 := by
  simp only [gapSymbols, List.mem_cons, List.mem_singleton, List.not_mem_nil, or_false] at h
  rcases h with rfl | rfl | rfl | rfl | rfl <;> decide

theorem is_gap_model_iff (c : Char) : is_gap kResidueIX_model c = true ↔ c ∈ gapSymbols := by
  unfold is_gap kResidueIX_model
  by_cases h : c ∈ gapSymbols
  · simp [h]
  · simp only [h, ↓reduceIte, iff_false]
    split
    · simp only [beq_iff_eq]
      omega
    · simp

/-- In the modelled table lower-casing never turns a gap symbol into a residue or
a residue into a gap symbol. -/
theorem is_gap_model_toLower (c : Char) :
    is_gap kResidueIX_model c.toLower = is_gap kResidueIX_model c := by
  have key : c.toLower ∈ gapSymbols ↔ c ∈ gapSymbols := by
    unfold Char.toLower
    simp only
    split
    · rename_i hr
      have h2 : (Char.ofNat (c.toNat + 32)).toNat = c.toNat + 32 :=
        toNat_ofNat_small _ (by omega)
      constructor
      · intro hm
        have := gapSymbol_toNat hm
        omega
      · intro hm
        have := gapSymbol_toNat hm
        omega
    · exact Iff.rfl
  cases h1 : is_gap kResidueIX_model c
  · cases h2 : is_gap kResidueIX_model c.toLower
    · rfl
    · exact absurd (key.1 ((is_gap_model_iff _).1 h2))
        (fun hm => by rw [(is_gap_model_iff c).2 hm] at h1; exact absurd h1 (by simp))
  · exact (is_gap_model_iff _).2 (key.2 ((is_gap_model_iff c).1 h1))

/-! ### The ALIGNMENTS blocks -/

theorem alignmentRow_spec (ri : ResidueHInfo) :
    ∀ hs : List Hit,
      (∀ hit ∈ hs, hit.m_ifir ≤ ri.seqNr → ri.seqNr ≤ hit.m_ilas →
        ri.pos < hit.m_seq.m_size) →
      ∃ aln, alignmentRow ri hs = some aln ∧ List.Forall₂ (AlnCharOf ri) hs aln := by
  intro hs
  induction hs with
  | nil => intro _; exact ⟨[], rfl, List.Forall₂.nil⟩
  | cons hit hs ih =>
    intro hpos
    obtain ⟨aln, ha, hf⟩ := ih fun h hh => hpos h (List.mem_cons_of_mem _ hh)
    by_cases hr : ri.seqNr ≥ hit.m_ifir ∧ ri.seqNr ≤ hit.m_ilas
    · have hlt : ri.pos < hit.m_seq.m_seq.length := hpos hit (List.mem_cons_self _ _) hr.1 hr.2
      refine ⟨hit.m_seq.m_seq[ri.pos] :: aln, ?_, List.Forall₂.cons ?_ hf⟩
      · simp only [alignmentRow, if_pos hr, seq_impl.get, List.getElem?_eq_getElem hlt, ha,
          Option.map_some']
      · simp only [AlnCharOf, if_pos hr, List.getElem?_eq_getElem hlt]
    · refine ⟨' ' :: aln, ?_, List.Forall₂.cons ?_ hf⟩
      · simp only [alignmentRow, if_neg hr, ha, Option.map_some']
      · simp only [AlnCharOf, if_neg hr]

theorem blockLines_spec (hs : List Hit) :
    ∀ rs : List ResidueHInfo, ReadsInside hs rs →
      ∃ ls, blockLines hs rs = some ls ∧ List.Forall₂ (LineOf hs) rs ls := by
  intro rs
  induction rs with
  | nil => intro _; exact ⟨[], rfl, List.Forall₂.nil⟩
  | cons ri rs ih =>
    intro hpos
    obtain ⟨ls, hl, hf⟩ := ih fun r hr => hpos r (List.mem_cons_of_mem _ hr)
    by_cases h0 : ri.letter = 0
    · refine ⟨.placeholder ri.seqNr :: ls, ?_, List.Forall₂.cons ?_ hf⟩
      · simp only [blockLines, if_pos h0, hl, Option.map_some']
      · simp only [LineOf, if_pos h0]
    · obtain ⟨aln, ha, hfa⟩ := alignmentRow_spec ri hs (hpos ri (List.mem_cons_self _ _) h0)
      refine ⟨.residue ri.seqNr aln :: ls, ?_, List.Forall₂.cons ?_ hf⟩
      · simp only [blockLines, if_neg h0, ha, hl, Option.map_some']
      · simp only [LineOf, if_neg h0]
        exact ⟨aln, rfl, hfa⟩

theorem readsInside_block {hits : List Hit} {res : List ResidueHInfo} (i m : Nat)
    (h : ReadsInside hits res) : ReadsInside ((hits.drop i).take m) res :=
  fun ri hri h0 hit hh => h ri hri h0 hit (List.mem_of_mem_drop (List.mem_of_mem_take hh))

/-- The blocks from round `k` on: for every number of rounds above the number of
blocks left the loop ends with the same list, which holds the blocks `k`, `k + 1`,
and so on. -/
theorem alignmentBlocks_spec (hits : List Hit) (res : List ResidueHInfo)
    (hN : hits.length + 70 ≤ 2 ^ 32) (hpos : ReadsInside hits res) :
    ∀ (m k : Nat), (hits.length + 69) / 70 - k = m →
      ∃ blocks, (∀ fuel, m + 1 ≤ fuel →
          alignmentBlocks hits res fuel (70 * k) = some blocks) ∧
        blocks.length = m ∧
        ∀ j b, blocks[j]? = some b →
          b.first = 70 * (k + j) + 1 ∧ b.last = min (70 * (k + j) + 70) hits.length ∧
            List.Forall₂ (LineOf ((hits.drop (70 * (k + j))).take
              (min (70 * (k + j) + 70) hits.length - 70 * (k + j)))) res b.lines := by
  intro m
  induction m with
  | zero =>
    intro k hk
    refine ⟨[], fun fuel hf => ?_, rfl, fun j b hb => by simp at hb⟩
    obtain ⟨f, rfl⟩ : ∃ f, fuel = f + 1 := ⟨fuel - 1, by omega⟩
    have hge : ¬ 70 * k < hits.length := by omega
    simp only [alignmentBlocks, if_neg hge]
  | succ m ih =>
    intro k hk
    have hlt : 70 * k < hits.length := by omega
    have hmod : (70 * k + 70) % 2 ^ 32 = 70 * (k + 1) :=
      (Nat.mod_eq_of_lt (by omega)).trans (by omega)
    have hmod1 : (70 * k + 1) % 2 ^ 32 = 70 * k + 1 := Nat.mod_eq_of_lt (by omega)
    have hn : (if 70 * (k + 1) > hits.length then hits.length else 70 * (k + 1)) =
        min (70 * k + 70) hits.length := by
      rw [Nat.min_def]
      split <;> split <;> omega
    have hni : ¬ min (70 * k + 70) hits.length < 70 * k := by
      rw [Nat.min_def]
      split <;> omega
    obtain ⟨ls, hl, hfl⟩ := blockLines_spec
      ((hits.drop (70 * k)).take (min (70 * k + 70) hits.length - 70 * k)) res
      (readsInside_block _ _ hpos)
    obtain ⟨blocks, hb, hlen, hspec⟩ := ih (k + 1) (by omega)
    refine ⟨{ first := 70 * k + 1
              last := min (70 * k + 70) hits.length
              scale := (List.range 7).map fun j => ((70 * k + 10 * j) % 2 ^ 32 / 10 + 1) % 10
              lines := ls } :: blocks,
      fun fuel hf => ?_, by rw [List.length_cons, hlen], fun j b hjb => ?_⟩
    · obtain ⟨f, rfl⟩ : ∃ f, fuel = f + 1 := ⟨fuel - 1, by omega⟩
      simp only [alignmentBlocks, if_pos hlt, hmod, hmod1, hn, if_neg hni, hl,
        hb f (by omega), Option.map_some']
    · cases j with
      | zero =>
        simp only [List.getElem?_cons_zero, Option.some.injEq] at hjb
        subst hjb
        exact ⟨rfl, rfl, hfl⟩
      | succ j =>
        simp only [List.getElem?_cons_succ] at hjb
        have := hspec j b hjb
        have e : k + 1 + j = k + (j + 1) := by omega
        rw [e] at this
        exact this

theorem forall₂_mem_right {α β : Type} {R : α → β → Prop} {l1 : List α} {l2 : List β}
    (h : List.Forall₂ R l1 l2) : ∀ y ∈ l2, ∃ x ∈ l1, R x y := by
  induction h with
  | nil => intro y hy; simp at hy
  | @cons a b l1 l2 hab _ ih =>
    intro y hy
    rcases List.mem_cons.1 hy with rfl | hy
    · exact ⟨a, List.mem_cons_self _ _, hab⟩
    · obtain ⟨x, hx, hr⟩ := ih y hy
      exact ⟨x, List.mem_cons_of_mem _ hx, hr⟩

theorem appendAll_seq : ∀ (ss : List (List Char)) (self : seq_impl),
    (appendAll self ss).m_seq = self.m_seq ++ ss.flatten := by
  intro ss
  induction ss with
  | nil => intro self; simp [appendAll]
  | cons s ss ih =>
    intro self
    rw [appendAll, ih]
    simp [seq_impl.append, List.append_assoc]

/-! ### The INSERTION LIST -/

theorem toUInt32_of_nonneg {x : ℚ} (h0 : 0 ≤ x) (h1 : x < 2 ^ 32) :
    toUInt32 x = some ⌊x⌋.toNat := by
  have hf0 : 0 ≤ ⌊x⌋ := Int.floor_nonneg.2 h0
  have hf1 : ⌊x⌋ < 2 ^ 32 := by
    rw [Int.floor_lt]
    exact_mod_cast h1
  simp only [toUInt32, if_pos h0]
  rw [if_pos ⟨hf0, hf1⟩]

theorem roundHalfEven_sub_abs (x : ℚ) : |(roundHalfEven x : ℚ) - x| ≤ 1 / 2 := by
  have h1 := Int.floor_le x
  have h2 := Int.lt_floor_add_one x
  unfold roundHalfEven
  rw [abs_le]
  split_ifs with a b c
  · constructor <;> linarith
  · push_cast
    constructor <;> linarith
  · constructor <;> linarith
  · push_cast
    constructor <;> linarith

theorem roundHalfEven_nonneg {x : ℚ} (h : 0 ≤ x) : 0 ≤ roundHalfEven x := by
  have h0 : 0 ≤ ⌊x⌋ := Int.floor_nonneg.2 h
  unfold roundHalfEven
  split_ifs <;> omega

theorem roundHalfEven_intCast (n : Int) : roundHalfEven (n : ℚ) = n := by
  unfold roundHalfEven
  simp

theorem quantum_pos (fmt : FloatFormat) (x : ℚ) : 0 < fmt.quantum x := by
  unfold FloatFormat.quantum
  positivity

/-- The rounding error of one operation: half a unit in the last place, which is
at most `x / 2 ^ P` for a normal result and `2 ^ (-150)` below the normal range. -/
theorem quantum_half_le (fmt : FloatFormat) {x : ℚ} (P : Nat) (hx : 0 < x)
    (hP : P ≤ fmt.prec) (hmin : fmt.emin + 150 ≤ fmt.prec) :
    fmt.quantum x / 2 ≤ x / 2 ^ P + 1 / 2 ^ 150 := by
  have h2 : (0 : ℚ) < 2 := by norm_num
  have hq : fmt.quantum x / 2 = 2 ^ (max (Int.log 2 x) fmt.emin - (fmt.prec : Int)) := by
    unfold FloatFormat.quantum
    rw [abs_of_pos hx, show max (Int.log 2 x) fmt.emin - ((fmt.prec : Int) - 1)
      = max (Int.log 2 x) fmt.emin - (fmt.prec : Int) + 1 by ring, zpow_add_one₀ h2.ne']
    field_simp
  have hxP : 0 ≤ x / 2 ^ P := by positivity
  rw [hq]
  rcases le_total (Int.log 2 x) fmt.emin with h | h
  · rw [max_eq_right h]
    have h1 : (2 : ℚ) ^ (fmt.emin - (fmt.prec : Int)) ≤ 2 ^ (-150 : Int) :=
      zpow_le_zpow_right₀ (by norm_num) (by omega)
    have h3 : (2 : ℚ) ^ (-150 : Int) = 1 / 2 ^ 150 := by
      rw [zpow_neg, zpow_ofNat, one_div]
    rw [h3] at h1
    exact h1.trans (le_add_of_nonneg_left hxP)
  · rw [max_eq_left h, zpow_sub₀ h2.ne', zpow_natCast]
    have h1 : (2 : ℚ) ^ Int.log 2 x ≤ x := Int.zpow_log_le_self (by norm_num) hx
    have h3 : (2 : ℚ) ^ P ≤ 2 ^ fmt.prec := pow_le_pow_right₀ (by norm_num) hP
    have h4 : (2 : ℚ) ^ Int.log 2 x / 2 ^ fmt.prec ≤ x / 2 ^ P :=
      div_le_div₀ hx.le h1 (by positivity) h3
    have h5 : (0 : ℚ) ≤ 1 / 2 ^ 150 := by positivity
    linarith

/-- The value that an operation with exact result `x ≥ 0` returns, and its
distance from `x`. -/
theorem round_spec (fmt : FloatFormat) {x : ℚ} (P : Nat) (hx : 0 ≤ x)
    (hP : P ≤ fmt.prec) (hmin : fmt.emin + 150 ≤ fmt.prec) (hmax : 127 ≤ fmt.emax)
    (hb : x ≤ 2 ^ 100) :
    ∃ y, fmt.round x = some y ∧ 0 ≤ y ∧ |y - x| ≤ x / 2 ^ P + 1 / 2 ^ 150 ∧
      (x = 0 → y = 0) := by
  have hq := quantum_pos fmt x
  have hy0 : (0 : ℚ) ≤ roundHalfEven (x / fmt.quantum x) * fmt.quantum x :=
    mul_nonneg (by exact_mod_cast roundHalfEven_nonneg (div_nonneg hx hq.le)) hq.le
  have herr : |(roundHalfEven (x / fmt.quantum x) : ℚ) * fmt.quantum x - x|
      ≤ x / 2 ^ P + 1 / 2 ^ 150 := by
    rcases hx.eq_or_lt with h0 | h0
    · rw [← h0]
      simp [roundHalfEven]
    · have h1 := roundHalfEven_sub_abs (x / fmt.quantum x)
      have h2 : (roundHalfEven (x / fmt.quantum x) : ℚ) * fmt.quantum x - x
          = ((roundHalfEven (x / fmt.quantum x) : ℚ) - x / fmt.quantum x) * fmt.quantum x := by
        field_simp
      rw [h2, abs_mul, abs_of_pos hq]
      have h3 := mul_le_mul_of_nonneg_right h1 hq.le
      have h4 := quantum_half_le fmt P h0 hP hmin
      linarith
  have hlt : |(roundHalfEven (x / fmt.quantum x) : ℚ) * fmt.quantum x| < 2 ^ (fmt.emax + 1) := by
    rw [abs_of_nonneg hy0]
    have h1 := (abs_le.1 herr).2
    have h2 : x / 2 ^ P ≤ x := div_le_self hx (one_le_pow₀ (by norm_num))
    have h3 : (1 : ℚ) / 2 ^ 150 ≤ 1 := by norm_num
    have h4 : (2 : ℚ) ^ (128 : Int) ≤ 2 ^ (fmt.emax + 1) :=
      zpow_le_zpow_right₀ (by norm_num) (by omega)
    have h5 : (2 : ℚ) ^ (128 : Int) = 2 ^ 128 := zpow_ofNat 2 128
    have h6 : (2 : ℚ) * 2 ^ 100 + 1 < 2 ^ 128 := by norm_num
    linarith
  refine ⟨_, ?_, hy0, herr, fun h0 => ?_⟩
  · unfold FloatFormat.round
    exact if_pos hlt
  · rw [h0]
    simp [roundHalfEven]

/-- The quotient that the code computes, and its distance from the exact one. -/
theorem relent_quotient (fmt : FloatFormat) (log20 e : ℚ)
    (hp : 24 ≤ fmt.prec) (hp2 : fmt.prec ≤ 53) (hmin : fmt.emin ≤ -126)
    (hmax : 127 ≤ fmt.emax) (hlog : 2 ≤ log20) (hlog2 : log20 ≤ 4) (he : 0 ≤ e)
    (hr : 100 * e / log20 ≤ 2 ^ 31) :
    ∃ y : ℚ, relentQuotient fmt log20 e = some y ∧ relent fmt log20 e = some ⌊y⌋.toNat ∧
      0 ≤ y ∧ |y - 100 * e / log20| ≤ relentMargin fmt (100 * e / log20) ∧
      (e = 0 → y = 0) := by
  have hL : 0 < log20 := by linarith
  have hX : 100 * e = 100 * e / log20 * log20 := by field_simp
  have hx0 : 0 ≤ 100 * e / log20 := div_nonneg (mul_nonneg (by norm_num) he) hL.le
  generalize 100 * e / log20 = x at hX hx0 hr ⊢
  have hXb : 100 * e ≤ 2 ^ 100 := by
    rw [hX]
    have := mul_le_mul hr hlog2 hL.le (by norm_num)
    refine this.trans ?_
    norm_num
  obtain ⟨a, ha, ha0, haerr, haz⟩ := round_spec fmt fmt.prec (mul_nonneg (by norm_num) he)
    (Nat.le_refl _) (by omega) hmax hXb
  have hu0 : (0 : ℚ) < 1 / 2 ^ fmt.prec := by positivity
  have huv : (1 : ℚ) / 2 ^ 53 ≤ 1 / 2 ^ fmt.prec :=
    one_div_le_one_div_of_le (by positivity) (pow_le_pow_right₀ (by norm_num) hp2)
  have hu24 : (1 : ℚ) / 2 ^ fmt.prec ≤ 1 / 2 ^ 24 :=
    one_div_le_one_div_of_le (by positivity) (pow_le_pow_right₀ (by norm_num) hp)
  have hm : relentMargin fmt x = 2 * (x + 1) * (1 / 2 ^ fmt.prec) := by
    unfold relentMargin
    have h1 : (2 : ℚ) ^ fmt.prec = 2 ^ (fmt.prec - 1) * 2 := by
      rw [← pow_succ, Nat.sub_add_cancel (by omega)]
    rw [h1]
    field_simp
    ring
  rw [div_eq_mul_one_div (100 * e)] at haerr
  generalize (1 : ℚ) / 2 ^ fmt.prec = u at hu0 huv hu24 hm haerr
  rw [hX] at haerr
  have hxu0 : 0 ≤ x * u := mul_nonneg hx0 hu0.le
  have hxu : x * u ≤ 2 ^ 31 * u := mul_le_mul_of_nonneg_right hr hu0.le
  have hxv : x * (1 / 2 ^ 53) ≤ x * u := mul_le_mul_of_nonneg_left huv hx0
  have hb0 : 0 ≤ a / log20 := div_nonneg ha0 hL.le
  have hbx : |a / log20 - x| ≤ x * u + 1 / 2 ^ 151 := by
    have h1 : a / log20 - x = (a - x * log20) / log20 := by
      field_simp
      ring
    rw [h1, abs_div, abs_of_pos hL, div_le_iff₀ hL]
    refine haerr.trans ?_
    have h2 : (1 : ℚ) / 2 ^ 151 * 2 ≤ 1 / 2 ^ 151 * log20 :=
      mul_le_mul_of_nonneg_left hlog (by positivity)
    have h3 : (x * u + 1 / 2 ^ 151) * log20 = x * log20 * u + 1 / 2 ^ 151 * log20 := by ring
    rw [h3]
    have h4 : (1 : ℚ) / 2 ^ 150 = 1 / 2 ^ 151 * 2 := by norm_num
    rw [h4]
    linarith
  have hbx2 := abs_le.1 hbx
  have hbb : a / log20 ≤ 2 ^ 100 := by
    have h1 : (2 : ℚ) ^ 31 + 2 ^ 31 * (1 / 2 ^ 24) + 1 / 2 ^ 151 ≤ 2 ^ 100 := by norm_num
    linarith
  obtain ⟨y, hy, hy0, hyerr, hyz⟩ := round_spec binary64 53 hb0
    (show 53 ≤ binary64.prec from Nat.le_refl 53)
    (show binary64.emin + 150 ≤ (binary64.prec : Int) by decide)
    (show (127 : Int) ≤ binary64.emax by decide) hbb
  have hy2 := abs_le.1 hyerr
  have hfin : |y - x| ≤ relentMargin fmt x := by
    rw [hm, abs_le]
    constructor <;> linarith
  have hy32 : y < 2 ^ 32 := by
    have h1 := (abs_le.1 hfin).2
    rw [hm] at h1
    have h2 : (2 : ℚ) ^ 31 + 2 * (2 ^ 31 + 1) * (1 / 2 ^ 24) < 2 ^ 32 := by norm_num
    nlinarith
  have hq : relentQuotient fmt log20 e = some y := by
    unfold relentQuotient
    rw [ha]
    exact hy
  refine ⟨y, hq, ?_, hy0, hfin, fun h0 => ?_⟩
  · unfold relent
    rw [hq]
    exact toUInt32_of_nonneg hy0 hy32
  · apply hyz
    rw [haz (by rw [h0]; ring)]
    exact zero_div _

/-- Away from the integers the RELENT value is the integer part of the exact
quotient. -/
theorem relent_eq_of_between (fmt : FloatFormat) (log20 e : ℚ)
    (hp : 24 ≤ fmt.prec) (hp2 : fmt.prec ≤ 53) (hmin : fmt.emin ≤ -126)
    (hmax : 127 ≤ fmt.emax) (hlog : 2 ≤ log20) (hlog2 : log20 ≤ 4) (he : 0 ≤ e)
    (hr : 100 * e / log20 ≤ 2 ^ 31) (k : Nat)
    (h1 : (k : ℚ) + relentMargin fmt (100 * e / log20) ≤ 100 * e / log20)
    (h2 : 100 * e / log20 + relentMargin fmt (100 * e / log20) < k + 1) :
    relent fmt log20 e = some k := by
  obtain ⟨y, -, hy, -, herr, -⟩ := relent_quotient fmt log20 e hp hp2 hmin hmax hlog hlog2 he hr
  have h3 := abs_le.1 herr
  have h4 : ⌊y⌋ = (k : Int) := by
    rw [Int.floor_eq_iff]
    push_cast
    constructor <;> linarith
  rw [hy, h4]
  rfl

theorem roundHalfEven_eq_of {z : ℚ} {M : Int} (h : |z - M| < 1 / 2) : roundHalfEven z = M := by
  have h1 := abs_lt.1 h
  rcases le_or_lt (M : ℚ) z with hz | hz
  · have hf : ⌊z⌋ = M := by
      rw [Int.floor_eq_iff]
      constructor <;> linarith
    unfold roundHalfEven
    rw [hf, if_pos (by linarith)]
  · have hf : ⌊z⌋ = M - 1 := by
      rw [Int.floor_eq_iff]
      push_cast
      constructor <;> linarith
    unfold roundHalfEven
    rw [hf, if_neg (by push_cast; linarith), if_pos (by push_cast; linarith)]
    omega

theorem log_eq_of {x : ℚ} {k : Int} (hx : 0 < x) (h1 : (2 : ℚ) ^ k ≤ x)
    (h2 : x < (2 : ℚ) ^ (k + 1)) :
    Int.log 2 x = k := by
  have a1 : k ≤ Int.log 2 x := by
    rw [← Int.zpow_le_iff_le_log (by norm_num) hx]
    exact_mod_cast h1
  have a2 : Int.log 2 x < k + 1 := by
    rw [← Int.lt_zpow_iff_log_lt (by norm_num) hx]
    exact_mod_cast h2
  omega

/-- The value that an operation returns, from the binade of its exact result. -/
theorem round_eq_of (fmt : FloatFormat) {x : ℚ} (k M : Int) (hx : 0 < x)
    (h1 : (2 : ℚ) ^ k ≤ x) (h2 : x < (2 : ℚ) ^ (k + 1)) (hk : fmt.emin ≤ k)
    (hM : |x / (2 : ℚ) ^ (k - (fmt.prec - 1)) - M| < 1 / 2)
    (hov : |(M : ℚ) * (2 : ℚ) ^ (k - (fmt.prec - 1))| < 2 ^ (fmt.emax + 1)) :
    fmt.round x = some (M * (2 : ℚ) ^ (k - (fmt.prec - 1))) := by
  have hq : fmt.quantum x = 2 ^ (k - (fmt.prec - 1)) := by
    unfold FloatFormat.quantum
    rw [abs_of_pos hx, log_eq_of hx h1 h2, max_eq_left hk]
  unfold FloatFormat.round
  simp only [hq, roundHalfEven_eq_of hM]
  exact if_pos hov

/-- For the `double` entropy `log(20.0)` the RELENT value is 100. -/
theorem relent_log20 : relent binary64 log20_model log20_model = some 100 := by
  have ha : binary64.round (100 * log20_model) = some (5270147949562313 / 2 ^ 44) := by
    rw [round_eq_of binary64 8 5270147949562313 (by norm_num [log20_model])
      (by norm_num [log20_model]) (by norm_num [log20_model]) (by decide)
      (by norm_num [log20_model, binary64, abs_lt])
      (by norm_num [binary64, abs_lt])]
    norm_num [binary64]
  have hy : binary64.round (5270147949562313 / 2 ^ 44 / log20_model) = some 100 := by
    rw [round_eq_of binary64 6 7036874417766400 (by norm_num [log20_model])
      (by norm_num [log20_model]) (by norm_num [log20_model]) (by decide)
      (by norm_num [log20_model, binary64, abs_lt])
      (by norm_num [binary64, abs_lt])]
    norm_num [binary64]
  unfold relent relentQuotient
  rw [ha]
  show (match binary64.round (5270147949562313 / 2 ^ 44 / log20_model) with
    | none => none
    | some y => toUInt32 y) = _
  rw [hy]
  show toUInt32 100 = _
  rw [toUInt32_of_nonneg (by norm_num) (by norm_num)]
  have : ⌊(100 : ℚ)⌋ = 100 := Int.floor_natCast 100
  rw [this]
  rfl

/-- For the `double` entropy nearest `log(20.0) / 100` the product is rounded up
to `log(20.0)`: the RELENT value is 1, and the exact quotient is below 1. -/
theorem relent_rounded_up :
    ⌊100 * (4317305200281447 / 2 ^ 57) / log20_model⌋ = 0 ∧
      relent binary64 log20_model (4317305200281447 / 2 ^ 57) = some 1 := by
  constructor
  · rw [Int.floor_eq_iff]
    norm_num [log20_model]
  have ha : binary64.round (100 * (4317305200281447 / 2 ^ 57)) = some log20_model := by
    rw [round_eq_of binary64 1 6745789375439761 (by norm_num)
      (by norm_num) (by norm_num) (by decide)
      (by norm_num [binary64, abs_lt])
      (by norm_num [binary64, abs_lt])]
    norm_num [binary64, log20_model]
  have hy : binary64.round (log20_model / log20_model) = some 1 := by
    rw [round_eq_of binary64 0 4503599627370496 (by norm_num [log20_model])
      (by norm_num [log20_model]) (by norm_num [log20_model]) (by decide)
      (by norm_num [log20_model, binary64, abs_lt])
      (by norm_num [binary64, abs_lt])]
    norm_num [binary64]
  unfold relent relentQuotient
  rw [ha]
  show (match binary64.round (log20_model / log20_model) with
    | none => none
    | some y => toUInt32 y) = _
  rw [hy]
  show toUInt32 1 = _
  rw [toUInt32_of_nonneg (by norm_num) (by norm_num)]
  have : ⌊(1 : ℚ)⌋ = 1 := Int.floor_one
  rw [this]
  rfl

/-! ### The buffer positions touched -/

theorem searchReads_le (buf : List Char) :
    ∀ (g p : Nat), p ∈ searchReads T buf g → p ≤ g := by
  intro g
  induction g with
  | zero => intro p hp; simp [searchReads] at hp
  | succ g ih =>
    intro p hp
    unfold searchReads at hp
    rcases List.mem_cons.1 hp with rfl | hp
    · exact Nat.le_refl _
    · split at hp
      · exact Nat.le_succ_of_le (ih p hp)
      · simp at hp

theorem columnAccesses_inside {i : Nat} {qc sc : Char} {st : UpdState}
    (hi : i < st.self.m_seq.length)
    (h0 : i = 0 → ¬ (is_gap T qc = true ∧ is_gap T sc = false)) :
    ∀ p ∈ columnAccesses T i qc sc st, 0 ≤ p ∧ p < (st.self.m_seq.length : Int) := by
  intro p hp
  unfold columnAccesses at hp
  rcases List.mem_cons.1 hp with rfl | hp
  · exact ⟨Int.ofNat_nonneg _, by exact_mod_cast hi⟩
  · split at hp
    · rename_i hc
      simp only [Bool.and_eq_true, Bool.not_eq_eq_eq_not, Bool.not_true] at hc
      by_cases hz : i = 0
      · exact absurd ⟨hc.1.2, hc.1.1⟩ (h0 hz)
      · rw [if_neg hz] at hp
        rcases List.mem_append.1 hp with hp | hp
        · obtain ⟨n, hn, rfl⟩ := List.mem_map.1 hp
          have := searchReads_le (T := T) _ _ _ hn
          exact ⟨Int.ofNat_nonneg _, by
            show ((n : Nat) : Int) < _
            exact_mod_cast (by omega : n < st.self.m_seq.length)⟩
        · rw [List.mem_singleton] at hp
          subst hp
          have := findPrev_le (T := T) st.self.m_seq (i - 1)
          exact ⟨Int.ofNat_nonneg _, by
            show ((findPrev T st.self.m_seq (i - 1) : Nat) : Int) < _
            exact_mod_cast (by omega : findPrev T st.self.m_seq (i - 1) < st.self.m_seq.length)⟩
    · simp at hp

theorem loopAccesses_inside :
    ∀ (qs : List Char) (i : Nat) (st : UpdState),
      st.self.m_seq.length = i + qs.length →
      (i = 0 → startsInInsertion T qs st.self.m_seq = false) →
      ∀ p ∈ loopAccesses T K qs i st, 0 ≤ p ∧ p < (st.self.m_seq.length : Int) := by
  intro qs
  induction qs with
  | nil => intro i st _ _ p hp; simp [loopAccesses] at hp
  | cons qc qs ih =>
    intro i st hlen h0 p hp
    rw [List.length_cons] at hlen
    have hi : i < st.self.m_seq.length := by omega
    obtain ⟨sc, hsc⟩ : ∃ sc, st.self.m_seq[i]? = some sc := ⟨_, List.getElem?_eq_getElem hi⟩
    simp only [loopAccesses, hsc] at hp
    rcases List.mem_append.1 hp with hp | hp
    · refine columnAccesses_inside hi (fun hz => ?_) p hp
      have h1 := h0 hz
      subst hz
      cases hb : st.self.m_seq with
      | nil => rw [hb] at hi; simp at hi
      | cons a rest =>
        rw [hb] at hsc h1
        simp only [List.getElem?_cons_zero, Option.some.injEq] at hsc
        subst hsc
        simp only [startsInInsertion, Bool.and_eq_false_imp, Bool.not_eq_eq_eq_not,
          Bool.not_false] at h1
        intro hc
        have := h1 hc.1
        rw [hc.2] at this
        exact absurd this (by decide)
    · cases hr : updateColumn T K i qc sc st with
      | error e => simp [hr] at hp
      | ok st1 =>
        simp only [hr] at hp
        have hl := (updateColumn_buffer hr).1
        have := ih (i + 1) st1 (by rw [hl]; omega) (fun hz => absurd hz (by omega)) p hp
        rw [hl] at this
        exact this

/-! ### The alignment length -/

theorem bumpLength_pos {n : Nat} (h : 1 ≤ n) : bumpLength n = n + 1 := by
  unfold bumpLength
  rw [if_pos (by omega)]

theorem lastAligned_eq_none_iff :
    ∀ cols : List (Char × Char),
      lastAligned T cols = none ↔ cols.filter (isAligned T) = [] := by
  intro cols
  induction cols with
  | nil => simp [lastAligned]
  | cons c cs ih =>
    by_cases hal : isAligned T c = true
    · have := (uptoLastAligned_cons_aligned (T := T) cs hal).2
      obtain ⟨k, hk⟩ := this
      simp [hk, List.filter_cons, hal]
    · simp only [Bool.not_eq_true] at hal
      rw [lastAligned_cons_other cs hal, List.filter_cons]
      simp only [hal, Bool.false_eq_true, ↓reduceIte, Option.map_eq_none']
      exact ih

theorem filter_aligned_upto :
    ∀ cols : List (Char × Char),
      (uptoLastAligned T cols).filter (isAligned T) = cols.filter (isAligned T) := by
  intro cols
  induction cols with
  | nil => simp [uptoLastAligned, lastAligned]
  | cons c cs ih =>
    by_cases hal : isAligned T c = true
    · rw [(uptoLastAligned_cons_aligned cs hal).1]
      simp only [List.filter_cons, hal, ↓reduceIte, ih]
    · simp only [Bool.not_eq_true] at hal
      rw [uptoLastAligned_cons_other cs hal]
      cases hl : lastAligned T cs with
      | none =>
        have := (lastAligned_eq_none_iff (T := T) cs).1 hl
        simp [List.filter_cons, hal, this]
      | some k =>
        simp only [List.filter_cons, hal, Bool.false_eq_true, ↓reduceIte, ih]

theorem filter_aligned_span :
    ∀ cols : List (Char × Char),
      (alignedSpan T cols).filter (isAligned T) = cols.filter (isAligned T) := by
  intro cols
  induction cols with
  | nil => simp [alignedSpan, firstAligned]
  | cons c cs ih =>
    by_cases hal : isAligned T c = true
    · rw [alignedSpan_cons_aligned cs hal]
      simp only [List.filter_cons, hal, ↓reduceIte, filter_aligned_upto]
    · simp only [Bool.not_eq_true] at hal
      rw [alignedSpan_cons_other cs hal, ih]
      simp [List.filter_cons, hal]

theorem filter_kinds_length :
    ∀ l : List (Char × Char),
      (l.filter fun c => !bothGapped T c).length =
        (l.filter (isAligned T)).length + (l.filter (oneSided T)).length := by
  intro l
  induction l with
  | nil => rfl
  | cons c cs ih =>
    rcases column_kind_flags (T := T) c with ⟨hb, ho, hal, -, -⟩ | ⟨hb, ho, hal, -⟩ |
      ⟨hb, ho, hal, -, -⟩ <;>
    · simp only [List.filter_cons, hb, ho, hal, Bool.not_true, Bool.not_false,
        Bool.false_eq_true, ↓reduceIte, List.length_cons, ih]
      try omega

/-- The alignment length of the record at the end of a scan of `cols` that
starts behind an aligned column: it is assigned at every aligned column of
`cols`, the last time with the local counter advanced over the columns up to the
last aligned column that are not gapped in both rows. -/
theorem updateCols_length_started :
    ∀ (cols : List (Char × Char)) (i : Nat) (st st' : UpdState), st.self.m_ifir ≠ 0 →
      1 ≤ st.length → updateCols T K cols i st = .ok st' →
      st'.self.m_length =
        match lastAligned T cols with
        | none => st.self.m_length
        | some _ =>
          st.length + ((uptoLastAligned T cols).filter fun c => !bothGapped T c).length := by
  intro cols
  induction cols with
  | nil =>
    intro i st st' _ _ h
    simp only [updateCols, Except.ok.injEq] at h
    subst h
    simp [lastAligned]
  | cons c cs ih =>
    intro i st st' h0 hl h
    simp only [updateCols] at h
    cases hr : updateColumn T K i c.1 c.2 st with
    | error e => simp [hr] at h
    | ok st1 =>
      simp only [hr] at h
      rcases column_kind_flags (T := T) c with ⟨hb, ho, hal, hq, hs⟩ | ⟨hb, ho, hal, hx⟩ |
        ⟨hb, ho, hal, hq, hs⟩
      · rw [updateColumn_bothGap st hq hs] at hr
        simp only [Except.ok.injEq] at hr
        subst hr
        rw [ih (i + 1) st st' h0 hl h, lastAligned_cons_other cs hal,
          uptoLastAligned_cons_other cs hal]
        cases lastAligned T cs with
        | none => simp
        | some k => simp [List.filter_cons, hb]
      · obtain ⟨-, -, -, -, g5, -, -, g8, -, g10⟩ := updateColumn_oneSided hx hr
        rw [bumpLength_pos hl] at g5
        rw [ih (i + 1) st1 st' (by rw [g8]; exact h0) (by rw [g5]; omega) h,
          lastAligned_cons_other cs hal, uptoLastAligned_cons_other cs hal, g5, g10]
        cases lastAligned T cs with
        | none => simp
        | some k =>
          simp only [Option.map_some', List.filter_cons, hb, Bool.not_false, ↓reduceIte,
            List.length_cons]
          ac_rfl
      · obtain ⟨-, -, -, -, -, -, -, g2⟩ := updateColumn_alignedEffect hq hs hr
        obtain ⟨g3, -, -, g6, g7⟩ := g2 h0
        rw [bumpLength_pos hl] at g6 g7
        obtain ⟨e1, k, hk⟩ := uptoLastAligned_cons_aligned (T := T) cs hal
        rw [ih (i + 1) st1 st' (by rw [g3]; exact h0) (by rw [g7]; omega) h, hk, e1, g6, g7]
        cases hl2 : lastAligned T cs with
        | none =>
          have : uptoLastAligned T cs = [] := by simp [uptoLastAligned, hl2]
          simp [List.filter_cons, hb, this]
        | some k2 =>
          simp only [List.filter_cons, hb, Bool.not_false, ↓reduceIte, List.length_cons]
          ac_rfl

/-- The alignment length of the record at the end of a scan that starts before
any aligned column: with fewer than two aligned columns it is never assigned;
with two or more it is the number of columns from the first to the last aligned
column that are not gapped in both rows. -/
theorem updateCols_length_fresh :
    ∀ (cols : List (Char × Char)) (i : Nat) (st st' : UpdState), st.self.m_ifir = 0 →
      1 ≤ st.ipos → updateCols T K cols i st = .ok st' →
      st'.self.m_length =
        if 2 ≤ (cols.filter (isAligned T)).length then
          ((alignedSpan T cols).filter fun c => !bothGapped T c).length
        else st.self.m_length := by
  intro cols
  induction cols with
  | nil =>
    intro i st st' _ _ h
    simp only [updateCols, Except.ok.injEq] at h
    subst h
    simp
  | cons c cs ih =>
    intro i st st' h0 hpos h
    simp only [updateCols] at h
    cases hr : updateColumn T K i c.1 c.2 st with
    | error e => simp [hr] at h
    | ok st1 =>
      simp only [hr] at h
      rcases column_kind_flags (T := T) c with ⟨hb, ho, hal, hq, hs⟩ | ⟨hb, ho, hal, hx⟩ |
        ⟨hb, ho, hal, hq, hs⟩
      · rw [updateColumn_bothGap st hq hs] at hr
        simp only [Except.ok.injEq] at hr
        subst hr
        rw [ih (i + 1) st st' h0 hpos h, alignedSpan_cons_other cs hal]
        simp [List.filter_cons, hal]
      · obtain ⟨-, -, -, g4, -, -, -, g8, -, g10⟩ := updateColumn_oneSided hx hr
        rw [ih (i + 1) st1 st' (by rw [g8]; exact h0) (by rw [g4]; omega) h,
          alignedSpan_cons_other cs hal, g10]
        simp [List.filter_cons, hal]
      · obtain ⟨-, -, -, -, -, -, g1, -⟩ := updateColumn_alignedEffect hq hs hr
        obtain ⟨g3, -, -, g6, g7⟩ := g1 h0
        rw [updateCols_length_started cs (i + 1) st1 st' (by rw [g3]; omega)
          (by rw [g7]) h, alignedSpan_cons_aligned cs hal, g6, g7]
        cases hl2 : lastAligned T cs with
        | none =>
          have := (lastAligned_eq_none_iff (T := T) cs).1 hl2
          simp [List.filter_cons, hal, this]
        | some k2 =>
          have hne : cs.filter (isAligned T) ≠ [] := fun hc => by
            rw [(lastAligned_eq_none_iff (T := T) cs).2 hc] at hl2
            exact absurd hl2 (by simp)
          have hpos2 : 1 ≤ (cs.filter (isAligned T)).length :=
            List.length_pos.2 hne
          simp only [List.filter_cons, hal, hb, Bool.not_false, ↓reduceIte, List.length_cons]
          rw [if_pos (by omega)]
          ac_rfl

/-! ### The texts of the insertions -/

/-- What the loop body does to the open insertion, the insertion list and the
buffer, by the kind of the column. -/
theorem updateColumn_insertions {i : Nat} {qc sc : Char} {st st' : UpdState}
    (h : updateColumn T K i qc sc st = .ok st') :
    (is_gap T sc = true →
      st'.qgapf = st.qgapf ∧ st'.ins = st.ins ∧
        st'.self.m_insertions = st.self.m_insertions ∧ st'.self.m_seq = st.self.m_seq) ∧
    (is_gap T qc = true → is_gap T sc = false → st.qgapf = true →
      st'.qgapf = true ∧ st'.ins.m_seq = st.ins.m_seq ++ [sc] ∧
        st'.self.m_insertions = st.self.m_insertions ∧ st'.self.m_seq = st.self.m_seq) ∧
    (is_gap T qc = true → is_gap T sc = false → st.qgapf = false →
      i ≠ 0 ∧ st'.qgapf = true ∧
        st'.ins.m_seq =
          [(st.self.m_seq.getD (findPrev T st.self.m_seq (i - 1)) ' ').toLower, sc] ∧
        st'.self.m_insertions = st.self.m_insertions ∧
        st'.self.m_seq = st.self.m_seq.set (findPrev T st.self.m_seq (i - 1))
          (st.self.m_seq.getD (findPrev T st.self.m_seq (i - 1)) ' ').toLower) ∧
    (is_gap T qc = false → is_gap T sc = false → st.qgapf = true →
      st'.qgapf = false ∧
        (∃ ins, st'.self.m_insertions = st.self.m_insertions ++ [ins] ∧
          ins.m_seq = st.ins.m_seq ++ [sc.toLower]) ∧
        st'.self.m_seq = st.self.m_seq.set i sc.toLower) ∧
    (is_gap T qc = false → is_gap T sc = false → st.qgapf = false →
      st'.qgapf = false ∧ st'.self.m_insertions = st.self.m_insertions ∧
        st'.self.m_seq = st.self.m_seq) := by
  refine ⟨fun hs => ?_, fun hq hs hf => ?_, fun hq hs hf => ?_, fun hq hs hf => ?_,
    fun hq hs hf => ?_⟩
  · unfold updateColumn at h
    by_cases hq : is_gap T qc = true
    · simp only [hq, hs, Bool.and_self, ↓reduceIte, Except.ok.injEq] at h
      subst h
      exact ⟨rfl, rfl, rfl, rfl⟩
    · simp only [hq, hs, Bool.false_and, Bool.false_eq_true, ↓reduceIte,
        Except.ok.injEq] at h
      subst h
      exact ⟨rfl, rfl, rfl, rfl⟩
  · obtain ⟨st2, h2, a1, a2, a3, a4⟩ := @updateColumn_extend T K i qc sc st hq hs hf
    rw [h] at h2
    cases h2
    exact ⟨a1, a4, a3, a2⟩
  · unfold updateColumn at h
    simp only [updateTail_eq, hq, hs, hf, Bool.true_and, Bool.false_eq_true, ↓reduceIte,
      Bool.not_false, openInsertion] at h
    by_cases hi : i = 0
    · simp [hi] at h
    · simp only [hi, ↓reduceIte, Except.ok.injEq] at h
      subst h
      exact ⟨hi, rfl, rfl, rfl, rfl⟩
  · obtain ⟨st2, ins, h2, a1, a2, a3, a4⟩ := @updateColumn_close T K i qc sc st hq hs hf
    rw [h] at h2
    cases h2
    exact ⟨a1, ⟨ins, a3, a4⟩, a2⟩
  · obtain ⟨st2, h2, a1, a2, a3⟩ := @updateColumn_aligned T K i qc sc st hq hs hf
    rw [h] at h2
    cases h2
    exact ⟨a1, a3, a2⟩

theorem findPrev_spec (buf : List Char) :
    ∀ g : Nat,
      (findPrev T buf g = 0 ∨ is_gap T (buf.getD (findPrev T buf g) ' ') = false) ∧
        ∀ j, findPrev T buf g < j → j ≤ g → is_gap T (buf.getD j ' ') = true := by
  intro g
  induction g with
  | zero => exact ⟨Or.inl rfl, fun j h1 h2 => by simp [findPrev] at h1; omega⟩
  | succ g ih =>
    unfold findPrev
    by_cases hg : is_gap T (buf.getD (g + 1) ' ') = true
    · rw [if_pos hg]
      refine ⟨ih.1, fun j h1 h2 => ?_⟩
      by_cases hj : j = g + 1
      · rw [hj]; exact hg
      · exact ih.2 j h1 (by omega)
    · rw [if_neg hg]
      simp only [Bool.not_eq_true] at hg
      exact ⟨Or.inr hg, fun j h1 h2 => by omega⟩

theorem runText_self (all : List (Char × Char)) (i : Nat) : runText T all i i = [] := by
  unfold runText
  rw [List.drop_eq_nil_of_le (by rw [List.length_take]; omega)]
  rfl

theorem runText_succ {all : List (Char × Char)} {a i : Nat} {c : Char × Char}
    (hc : all[i]? = some c) (ha : a ≤ i) :
    runText T all a (i + 1) =
      runText T all a i ++ (if queryGapOnly T c = true then [c.2] else []) := by
  have hi : i < all.length := (List.getElem?_eq_some_iff.1 hc).1
  unfold runText
  rw [List.take_succ, hc, Option.toList_some,
    List.drop_append_of_le_length (by rw [List.length_take]; omega), List.filter_append,
    List.map_append]
  congr 1
  by_cases hq : queryGapOnly T c = true
  · simp [List.filter_cons, hq]
  · simp [List.filter_cons, hq]

theorem lowerRel_getD {orig buf : List Char} (hrel : LowerRel orig buf) {j : Nat} {d : Char}
    (hj : orig[j]? = some d) :
    buf.getD j ' ' = d ∨ buf.getD j ' ' = d.toLower := by
  have hlt : j < orig.length := (List.getElem?_eq_some_iff.1 hj).1
  have hlt2 : j < buf.length := hrel.1 ▸ hlt
  have hb : buf[j]? = some buf[j] := List.getElem?_eq_getElem hlt2
  obtain ⟨d', hd', hc⟩ := hrel.2 j _ hb
  rw [hj] at hd'
  cases hd'
  simp only [List.getD_eq_getElem?_getD, hb, Option.getD_some]
  exact hc

theorem openRun_step_other {all : List (Char × Char)} {i : Nat} {c : Char × Char}
    {text : List Char} (hc : all[i]? = some c) (hal : isAligned T c = false)
    (hq : queryGapOnly T c = false) (h : OpenRun T all i text) :
    OpenRun T all (i + 1) text := by
  obtain ⟨g, a, d, h1, h2, h3, h4, h5, h6, h7⟩ := h
  refine ⟨g, a, d, h1, by omega, h3, h4, h5, fun j cj hj1 hj2 hcj => ?_, ?_⟩
  · by_cases hji : j = i
    · subst hji
      rw [hc] at hcj
      cases hcj
      exact hal
    · exact h6 j cj hj1 (by omega) hcj
  · rw [h7, runText_succ hc (by omega), hq]
    simp

theorem openRun_step_run {all : List (Char × Char)} {i : Nat} {c : Char × Char}
    {text : List Char} (hc : all[i]? = some c) (hal : isAligned T c = false)
    (hq : queryGapOnly T c = true) (h : OpenRun T all i text) :
    OpenRun T all (i + 1) (text ++ [c.2]) := by
  obtain ⟨g, a, d, h1, h2, h3, h4, h5, h6, h7⟩ := h
  refine ⟨g, a, d, h1, by omega, h3, h4, h5, fun j cj hj1 hj2 hcj => ?_, ?_⟩
  · by_cases hji : j = i
    · subst hji
      rw [hc] at hcj
      cases hcj
      exact hal
    · exact h6 j cj hj1 (by omega) hcj
  · rw [h7, runText_succ hc (by omega), hq]
    simp

theorem updateColumn_insTextInv {all : List (Char × Char)} {old : List insertion} {i : Nat}
    {c : Char × Char} {st st' : UpdState} (hc : all[i]? = some c)
    (hI : InsTextInv T all old i st) (h : updateColumn T K i c.1 c.2 st = .ok st') :
    InsTextInv T all old (i + 1) st' := by
  obtain ⟨hrel, ⟨new, hnew, hrec⟩, hopen⟩ := hI
  obtain ⟨f1, f2, f3, f4, f5⟩ := updateColumn_insertions h
  have hci : (all.map Prod.snd)[i]? = some c.2 := by
    rw [List.getElem?_map, hc]
    rfl
  have hrel1 : LowerRel (all.map Prod.snd) st'.self.m_seq := by
    rcases updateColumn_seq h with e | ⟨g, e⟩ | e
    · rw [e]; exact hrel
    · rw [e]; exact lowerRel_set_lower g hrel
    · rw [e]
      refine lowerRel_set i _ hrel fun d hd' => ?_
      rw [hci] at hd'
      cases hd'
      exact Or.inr rfl
  refine ⟨hrel1, ?_, ?_⟩
  · -- the recorded insertions
    by_cases hs : is_gap T c.2 = true
    · exact ⟨new, (f1 hs).2.2.1.trans hnew, hrec⟩
    · simp only [Bool.not_eq_true] at hs
      by_cases hq : is_gap T c.1 = true
      · by_cases hf : st.qgapf = true
        · exact ⟨new, (f2 hq hs hf).2.2.1.trans hnew, hrec⟩
        · simp only [Bool.not_eq_true] at hf
          exact ⟨new, (f3 hq hs hf).2.2.2.1.trans hnew, hrec⟩
      · simp only [Bool.not_eq_true] at hq
        by_cases hf : st.qgapf = true
        · obtain ⟨-, ⟨ins, e1, e2⟩, -⟩ := f4 hq hs hf
          refine ⟨new ++ [ins], by rw [e1, hnew, List.append_assoc], fun x hx => ?_⟩
          rcases List.mem_append.1 hx with hx | hx
          · exact hrec x hx
          · rw [List.mem_singleton] at hx
            subst hx
            obtain ⟨g, a, d, h1, h2, h3, h4, h5, h6, h7⟩ := hopen hf
            exact ⟨g, a, i, d, c, h1, h2, h3, h4, h5, hc, by simp [isAligned, hq, hs], h6,
              by rw [e2, h7]⟩
        · simp only [Bool.not_eq_true] at hf
          exact ⟨new, (f5 hq hs hf).2.1.trans hnew, hrec⟩
  · -- the open insertion
    intro hf1
    by_cases hs : is_gap T c.2 = true
    · obtain ⟨e1, e2, -, -⟩ := f1 hs
      rw [e2]
      exact openRun_step_other hc (by simp [isAligned, hs]) (by simp [queryGapOnly, hs])
        (hopen (e1 ▸ hf1))
    · simp only [Bool.not_eq_true] at hs
      by_cases hq : is_gap T c.1 = true
      · by_cases hf : st.qgapf = true
        · obtain ⟨-, e2, -, -⟩ := f2 hq hs hf
          rw [e2]
          exact openRun_step_run hc (by simp [isAligned, hq]) (by simp [queryGapOnly, hq, hs])
            (hopen hf)
        · simp only [Bool.not_eq_true] at hf
          obtain ⟨hi0, -, e2, -, -⟩ := f3 hq hs hf
          have hle := findPrev_le (T := T) st.self.m_seq (i - 1)
          have hilt : i < all.length := (List.getElem?_eq_some_iff.1 hc).1
          have hglt : findPrev T st.self.m_seq (i - 1) < (all.map Prod.snd).length := by
            rw [List.length_map]; omega
          obtain ⟨d, hd⟩ : ∃ d, (all.map Prod.snd)[findPrev T st.self.m_seq (i - 1)]? = some d :=
            ⟨_, List.getElem?_eq_getElem hglt⟩
          have hfl : (st.self.m_seq.getD (findPrev T st.self.m_seq (i - 1)) ' ').toLower =
              d.toLower := by
            rcases lowerRel_getD hrel hd with e | e
            · rw [e]
            · rw [e, toLower_idem]
          obtain ⟨s1, s2⟩ := findPrev_spec (T := T) st.self.m_seq (i - 1)
          refine ⟨findPrev T st.self.m_seq (i - 1), i, d, by omega, by omega, hd, ?_,
            ⟨c, hc, by simp [queryGapOnly, hq, hs]⟩, fun j cj hj1 hj2 hcj => ?_, ?_⟩
          · intro hlow
            have hgap : ∀ (j : Nat) (x : Char), (all.map Prod.snd)[j]? = some x →
                is_gap T (st.self.m_seq.getD j ' ') = is_gap T x := by
              intro j x hx
              rcases lowerRel_getD hrel hx with e | e
              · rw [e]
              · rw [e, hlow]
            refine ⟨?_, fun j cj hj1 hj2 hcj => ?_⟩
            · rcases s1 with s1 | s1
              · exact Or.inl s1
              · exact Or.inr (by rw [← hgap _ _ hd]; exact s1)
            · have hx : (all.map Prod.snd)[j]? = some cj.2 := by
                rw [List.getElem?_map, hcj]
                rfl
              rw [← hgap j _ hx]
              exact s2 j hj1 (by omega)
          · have hji : j = i := by omega
            subst hji
            rw [hc] at hcj
            cases hcj
            simp [isAligned, hq]
          · rw [e2, hfl, runText_succ hc (Nat.le_refl _), runText_self]
            simp [queryGapOnly, hq, hs]
      · simp only [Bool.not_eq_true] at hq
        by_cases hf : st.qgapf = true
        · rw [(f4 hq hs hf).1] at hf1
          exact absurd hf1 (by decide)
        · simp only [Bool.not_eq_true] at hf
          rw [(f5 hq hs hf).1] at hf1
          exact absurd hf1 (by decide)

theorem updateCols_insTextInv (all : List (Char × Char)) (old : List insertion) :
    ∀ (cols : List (Char × Char)) (i : Nat) (st st' : UpdState), all.drop i = cols →
      InsTextInv T all old i st → updateCols T K cols i st = .ok st' →
      InsTextInv T all old all.length st' := by
  intro cols
  induction cols with
  | nil =>
    intro i st st' hd hI h
    simp only [updateCols, Except.ok.injEq] at h
    subst h
    have hle : all.length ≤ i := List.drop_eq_nil_iff.1 hd
    obtain ⟨h1, h2, h3⟩ := hI
    refine ⟨h1, h2, fun hf => ?_⟩
    obtain ⟨g1, a1, d1, k1, k2, k3, k4, ⟨ca, hca, hq⟩, k6, k7⟩ := h3 hf
    have ha : a1 < all.length := (List.getElem?_eq_some_iff.1 hca).1
    refine ⟨g1, a1, d1, k1, ha, k3, k4, ⟨ca, hca, hq⟩,
      fun j c hj1 hj2 hc => k6 j c hj1 (by omega) hc, ?_⟩
    rw [k7]
    unfold runText
    rw [List.take_of_length_le hle, List.take_of_length_le (Nat.le_refl _)]
  | cons c cs ih =>
    intro i st st' hd hI h
    simp only [updateCols] at h
    cases hr : updateColumn T K i c.1 c.2 st with
    | error e => simp [hr] at h
    | ok st1 =>
      simp only [hr] at h
      have hi : all[i]? = some c := by
        have := congrArg (fun l => l[0]?) hd
        simpa [List.getElem?_drop] using this
      have hd1 : all.drop (i + 1) = cs := by
        have := congrArg List.tail hd
        simpa [List.tail_drop] using this
      exact ih (i + 1) st1 st' hd1 (updateColumn_insTextInv hi hI hr) h

theorem runText_length (all : List (Char × Char)) (a b : Nat) :
    (runText T all a b).length = (((all.take b).drop a).filter (queryGapOnly T)).length := by
  unfold runText
  rw [List.length_map]

theorem runText_length_le (all : List (Char × Char)) (a b : Nat) :
    (runText T all a b).length ≤ all.length := by
  rw [runText_length]
  refine (List.length_filter_le _ _).trans ?_
  rw [List.length_drop, List.length_take]
  omega

theorem runText_pos {all : List (Char × Char)} {a b : Nat} {ca : Char × Char}
    (hab : a < b) (hca : all[a]? = some ca) (hq : queryGapOnly T ca = true) :
    1 ≤ (runText T all a b).length := by
  rw [runText_length]
  have h0 : ((all.take b).drop a)[0]? = some ca := by
    rw [List.getElem?_drop, Nat.add_zero, List.getElem?_take_of_lt hab, hca]
  cases hl : (all.take b).drop a with
  | nil => rw [hl] at h0; simp at h0
  | cons x xs =>
    rw [hl] at h0
    simp only [List.getElem?_cons_zero, Option.some.injEq] at h0
    subst h0
    simp [List.filter_cons, hq]

theorem insTextInv_init (r q : seq_impl) (hl : r.m_seq.length = q.m_seq.length) :
    InsTextInv T (q.m_seq.zip r.m_seq) r.m_insertions 0 (updateInit r) := by
  refine ⟨?_, ⟨[], by simp [updateInit], by simp⟩, fun hf => absurd hf (by simp [updateInit])⟩
  rw [List.map_snd_zip _ _ (Nat.le_of_eq hl)]
  exact lowerRel_refl _

/-! ### A column gapped in both rows -/

theorem insertAt_length {α : Type} (p : Nat) (x : α) (l : List α) :
    (insertAt p x l).length = l.length + 1 := by
  unfold insertAt
  rw [List.length_append, List.length_cons, List.length_take, List.length_drop]
  omega

theorem insertAt_getElem?_shift {α : Type} {p : Nat} (x : α) {l : List α} (hp : p ≤ l.length)
    (j : Nat) : (insertAt p x l)[shiftIdx p j]? = l[j]? := by
  unfold insertAt shiftIdx
  have ht : (l.take p).length = p := by rw [List.length_take]; omega
  by_cases hj : j < p
  · rw [if_pos hj, List.getElem?_append_left (by omega), List.getElem?_take_of_lt hj]
  · rw [if_neg hj, List.getElem?_append_right (by omega), ht]
    have : j + 1 - p = (j - p) + 1 := by omega
    rw [this, List.getElem?_cons_succ, List.getElem?_drop]
    congr 1
    omega

theorem insertAt_getElem?_self {α : Type} {p : Nat} (x : α) {l : List α} (hp : p ≤ l.length) :
    (insertAt p x l)[p]? = some x := by
  unfold insertAt
  have ht : (l.take p).length = p := by rw [List.length_take]; omega
  rw [List.getElem?_append_right (by omega), ht, Nat.sub_self, List.getElem?_cons_zero]

theorem insertAt_set {α : Type} {p : Nat} (x : α) {l : List α} (hp : p ≤ l.length)
    (g : Nat) (c : α) :
    (insertAt p x l).set (shiftIdx p g) c = insertAt p x (l.set g c) := by
  unfold insertAt shiftIdx
  have ht : (l.take p).length = p := by rw [List.length_take]; omega
  by_cases hg : g < p
  · rw [if_pos hg, List.set_append_left _ _ (by omega), List.set_take, List.drop_set_of_lt _ _ hg]
  · rw [if_neg hg, List.set_append_right _ _ (by omega), ht, List.set_take,
      List.set_eq_of_length_le (l := l.take p) (by omega), List.drop_set, if_neg hg]
    have : g + 1 - p = (g - p) + 1 := by omega
    rw [this, List.set_cons_succ]

theorem insertAt_zip {α β : Type} (p : Nat) (x : α) (y : β) (l1 : List α) (l2 : List β)
    (hlen : l1.length = l2.length) :
    (insertAt p x l1).zip (insertAt p y l2) = insertAt p (x, y) (l1.zip l2) := by
  unfold insertAt
  rw [List.zip_append (by rw [List.length_take, List.length_take, hlen]), List.zip_cons_cons,
    List.zip_eq_zipWith, List.zip_eq_zipWith, List.zip_eq_zipWith, List.take_zipWith,
    List.drop_zipWith]

theorem insertAt_getD_shift {p : Nat} (x : Char) {l : List Char} (hp : p ≤ l.length)
    (j : Nat) : (insertAt p x l).getD (shiftIdx p j) ' ' = l.getD j ' ' := by
  rw [List.getD_eq_getElem?_getD, List.getD_eq_getElem?_getD, insertAt_getElem?_shift x hp]

theorem shiftIdx_of_lt {p j : Nat} (h : j < p) : shiftIdx p j = j := by
  unfold shiftIdx
  rw [if_pos h]

theorem shiftIdx_of_le {p j : Nat} (h : p ≤ j) : shiftIdx p j = j + 1 := by
  unfold shiftIdx
  rw [if_neg (by omega)]

theorem findPrev_insertAt_below {p : Nat} (gc : Char) {buf : List Char} (hp : p ≤ buf.length) :
    ∀ m, m < p → findPrev T (insertAt p gc buf) m = findPrev T buf m := by
  intro m
  induction m with
  | zero => intro _; rfl
  | succ m ih =>
    intro hm
    have := insertAt_getD_shift gc hp (m + 1)
    rw [shiftIdx_of_lt hm] at this
    simp only [findPrev, this, ih (by omega)]

theorem findPrev_insertAt_above {p : Nat} {gc : Char} {buf : List Char} (hp : p ≤ buf.length)
    (hgc : is_gap T gc = true) (hside : 1 ≤ p ∨ is_gap T (buf.getD 0 ' ') = false) :
    ∀ m, p ≤ m + 1 →
      findPrev T (insertAt p gc buf) (m + 1) = shiftIdx p (findPrev T buf m) := by
  intro m
  induction m with
  | zero =>
    intro hm
    by_cases hp0 : p = 0
    · subst hp0
      have h0 : is_gap T (buf.getD 0 ' ') = false := by
        rcases hside with h | h
        · omega
        · exact h
      have := insertAt_getD_shift gc hp 0
      rw [shiftIdx_of_le (Nat.le_refl 0)] at this
      simp only [findPrev, this, h0, Bool.false_eq_true, ↓reduceIte]
      rfl
    · have hp1 : p = 1 := by omega
      subst hp1
      have : (insertAt 1 gc buf).getD 1 ' ' = gc := by
        rw [List.getD_eq_getElem?_getD, insertAt_getElem?_self gc hp]
        rfl
      simp only [findPrev, this, hgc, ↓reduceIte]
      rfl
  | succ m ih =>
    intro hm
    by_cases hpm : p = m + 2
    · have : (insertAt p gc buf).getD (m + 1 + 1) ' ' = gc := by
        rw [List.getD_eq_getElem?_getD, ← hpm, insertAt_getElem?_self gc hp]
        rfl
      have hle := findPrev_le (T := T) buf (m + 1)
      rw [findPrev, this, hgc, if_pos rfl, findPrev_insertAt_below gc hp (m + 1) (by omega),
        shiftIdx_of_lt (by omega)]
    · have hle : p ≤ m + 1 := by omega
      have := insertAt_getD_shift gc hp (m + 1)
      rw [shiftIdx_of_le hle] at this
      rw [findPrev, this]
      by_cases hg : is_gap T (buf.getD (m + 1) ' ') = true
      · rw [if_pos hg, ih hle]
        congr 1
        rw [findPrev, if_pos hg]
      · rw [if_neg hg]
        have : findPrev T buf (m + 1) = m + 1 := by rw [findPrev, if_neg hg]
        rw [this, shiftIdx_of_le hle]

/-- The backward search in a buffer with a gap character inserted at position
`p` stops at the position that corresponds to where it stops in the buffer
itself. -/
theorem findPrev_shift {p i : Nat} {gc : Char} {buf : List Char} (hp : p ≤ buf.length)
    (hgc : is_gap T gc = true) (hside : 1 ≤ p ∨ is_gap T (buf.getD 0 ' ') = false)
    (hi : i ≠ 0) :
    findPrev T (insertAt p gc buf) (shiftIdx p i - 1) = shiftIdx p (findPrev T buf (i - 1)) := by
  have hle := findPrev_le (T := T) buf (i - 1)
  by_cases h : i < p
  · rw [shiftIdx_of_lt h, findPrev_insertAt_below gc hp (i - 1) (by omega),
      shiftIdx_of_lt (by omega)]
  · rw [shiftIdx_of_le (by omega), Nat.add_sub_cancel]
    have := findPrev_insertAt_above hp hgc hside (i - 1) (by omega)
    rw [Nat.sub_add_cancel (by omega)] at this
    exact this

theorem shiftIdx_ne_zero {p i : Nat} (hi : i ≠ 0) : shiftIdx p i ≠ 0 := by
  unfold shiftIdx
  split <;> omega

theorem updateColumn_shift {p i : Nat} {gc qc sc : Char} {a b a1 : UpdState}
    (hp : p ≤ a.self.m_seq.length) (hgc : is_gap T gc = true)
    (hside : 1 ≤ p ∨ is_gap T (a.self.m_seq.getD 0 ' ') = false)
    (hR : ShiftRel p gc a b) (h : updateColumn T K i qc sc a = .ok a1) :
    ∃ b1, updateColumn T K (shiftIdx p i) qc sc b = .ok b1 ∧ ShiftRel p gc a1 b1 := by
  obtain ⟨h1, h2, h3, h4, h5, h6, h7, h8, h9, h10, h11, h12, h13, h14, h15, h16, h17⟩ := hR
  unfold updateColumn at h ⊢
  simp only [updateTail_eq] at h ⊢
  by_cases hb : (is_gap T qc && is_gap T sc) = true
  · simp only [hb, ↓reduceIte, Except.ok.injEq] at h ⊢
    subst h
    exact ⟨b, rfl, h1, h2, h3, h4, h5, h6, h7, h8, h9, h10, h11, h12, h13, h14, h15, h16, h17⟩
  · simp only [hb, Bool.false_eq_true, ↓reduceIte] at h ⊢
    by_cases hs : is_gap T sc = true
    · simp only [hs, ↓reduceIte, Except.ok.injEq] at h ⊢
      subst h
      refine ⟨_, rfl, ?_⟩
      simp only [ShiftRel, stepHitGap]
      simp_all
    · simp only [hs, Bool.false_eq_true, ↓reduceIte] at h ⊢
      by_cases hq : is_gap T qc = true
      · simp only [hq, ↓reduceIte] at h ⊢
        by_cases hf : a.qgapf = true
        · have hfb : b.qgapf = true := h4 ▸ hf
          simp only [hf, hfb, Bool.not_true, Bool.false_eq_true, ↓reduceIte,
            Except.ok.injEq] at h ⊢
          subst h
          refine ⟨_, rfl, ?_⟩
          simp only [ShiftRel, tailState, stepQueryGap]
          simp_all
        · have hfb : ¬ b.qgapf = true := fun hc => hf (h4.trans hc)
          by_cases hi : i = 0
          · simp [hf, openInsertion, hi] at h
          · have hi' := shiftIdx_ne_zero (p := p) hi
            simp only [hf, hfb, openInsertion, hi, hi', Bool.not_eq_true, Bool.not_false,
              ↓reduceIte, Except.ok.injEq] at h ⊢
            subst h
            refine ⟨_, rfl, ?_⟩
            simp only [ShiftRel, tailState, stepQueryGap]
            rw [h17, findPrev_shift hp hgc hside hi, insertAt_getD_shift gc hp,
              insertAt_set gc hp]
            simp_all
      · simp only [hq, Bool.false_eq_true, ↓reduceIte] at h ⊢
        by_cases hf : a.qgapf = true
        · have hfb : b.qgapf = true := h4 ▸ hf
          simp only [hf, hfb, ↓reduceIte, Except.ok.injEq] at h ⊢
          subst h
          refine ⟨_, rfl, ?_⟩
          simp only [ShiftRel, tailState, stepAligned, closeInsertion]
          rw [h17, insertAt_set gc hp]
          by_cases h0 : a.self.m_ifir = 0
          · have h0b : b.self.m_ifir = 0 := h9 ▸ h0
            simp_all
          · have h0b : ¬ b.self.m_ifir = 0 := fun hc => h0 (h9.trans hc)
            simp_all
        · have hfb : ¬ b.qgapf = true := fun hc => hf (h4.trans hc)
          simp only [hf, hfb, Bool.false_eq_true, ↓reduceIte, Except.ok.injEq] at h ⊢
          subst h
          refine ⟨_, rfl, ?_⟩
          simp only [ShiftRel, tailState, stepAligned]
          by_cases h0 : a.self.m_ifir = 0
          · have h0b : b.self.m_ifir = 0 := h9 ▸ h0
            simp_all
          · have h0b : ¬ b.self.m_ifir = 0 := fun hc => h0 (h9.trans hc)
            simp_all

theorem getD_zero_set (l : List Char) (g : Nat) (c : Char) :
    (l.set g c).getD 0 ' ' = if g = 0 ∧ 0 < l.length then c else l.getD 0 ' ' := by
  rw [List.getD_eq_getElem?_getD, List.getD_eq_getElem?_getD, List.getElem?_set]
  by_cases hg : g = 0
  · subst hg
    by_cases hl : 0 < l.length
    · simp [hl]
    · have : l = [] := List.eq_nil_of_length_eq_zero (by omega)
      subst this
      simp
  · simp [hg]

/-- When lower-casing a residue gives no gap character, the loop body leaves a
residue at position 0 of the buffer if there is one. -/
theorem updateColumn_headResidue {i : Nat} {qc sc : Char} {a a1 : UpdState}
    (hlow : ∀ c, is_gap T c = false → is_gap T c.toLower = false)
    (h0 : is_gap T (a.self.m_seq.getD 0 ' ') = false)
    (h : updateColumn T K i qc sc a = .ok a1) :
    is_gap T (a1.self.m_seq.getD 0 ' ') = false := by
  obtain ⟨f1, f2, f3, f4, f5⟩ := updateColumn_insertions h
  by_cases hs : is_gap T sc = true
  · rw [(f1 hs).2.2.2]
    exact h0
  · simp only [Bool.not_eq_true] at hs
    by_cases hq : is_gap T qc = true
    · by_cases hf : a.qgapf = true
      · rw [(f2 hq hs hf).2.2.2]
        exact h0
      · simp only [Bool.not_eq_true] at hf
        rw [(f3 hq hs hf).2.2.2.2, getD_zero_set]
        split
        · rename_i hg
          rw [hg.1]
          exact hlow _ h0
        · exact h0
    · simp only [Bool.not_eq_true] at hq
      by_cases hf : a.qgapf = true
      · rw [(f4 hq hs hf).2.2, getD_zero_set]
        split
        · exact hlow _ hs
        · exact h0
      · simp only [Bool.not_eq_true] at hf
        rw [(f5 hq hs hf).2.2]
        exact h0

theorem updateCols_shift {p : Nat} {gc : Char} (hgc : is_gap T gc = true)
    (hl : 1 ≤ p ∨ ∀ c, is_gap T c = false → is_gap T c.toLower = false) :
    ∀ (cols : List (Char × Char)) (i k : Nat) (a b a' : UpdState),
      (∀ j, i ≤ j → j < i + cols.length → shiftIdx p j = j + k) →
      p ≤ a.self.m_seq.length →
      (1 ≤ p ∨ is_gap T (a.self.m_seq.getD 0 ' ') = false) →
      ShiftRel p gc a b → updateCols T K cols i a = .ok a' →
      ∃ b', updateCols T K cols (i + k) b = .ok b' ∧ ShiftRel p gc a' b' ∧
        a'.self.m_seq.length = a.self.m_seq.length ∧
        (1 ≤ p ∨ is_gap T (a'.self.m_seq.getD 0 ' ') = false) := by
  intro cols
  induction cols with
  | nil =>
    intro i k a b a' _ _ hside hR h
    simp only [updateCols, Except.ok.injEq] at h
    subst h
    exact ⟨b, rfl, hR, rfl, hside⟩
  | cons c cs ih =>
    intro i k a b a' hk hp hside hR h
    simp only [updateCols] at h
    cases hr : updateColumn T K i c.1 c.2 a with
    | error e => simp [hr] at h
    | ok a1 =>
      simp only [hr] at h
      obtain ⟨b1, hb1, hR1⟩ := updateColumn_shift hp hgc hside hR hr
      rw [hk i (Nat.le_refl _) (by rw [List.length_cons]; omega)] at hb1
      have hlen1 := (updateColumn_buffer hr).1
      have hside1 : 1 ≤ p ∨ is_gap T (a1.self.m_seq.getD 0 ' ') = false := by
        rcases hside with h1 | h1
        · exact Or.inl h1
        · rcases hl with h2 | h2
          · exact Or.inl h2
          · exact Or.inr (updateColumn_headResidue h2 h1 hr)
      obtain ⟨b', hb', hR', hlen', hside'⟩ := ih (i + 1) k a1 b1 a'
        (fun j hj1 hj2 => hk j (by omega) (by rw [List.length_cons]; omega))
        (by rw [hlen1]; exact hp) hside1 hR1 h
      refine ⟨b', ?_, hR', hlen'.trans hlen1, hside'⟩
      simp only [updateCols, hb1]
      rw [Nat.add_right_comm]
      exact hb'

end Lemmas

/-! ## The claims -/

/-- C1, as amended. For a record and a query row of equal buffer length whose
first column is not gapped in the query alone, `update` returns a record with
`m_begin ≤ m_end ≤ m_size` (the buffer length unchanged) and, when some column
is aligned, `m_ifir ≤ m_ilas`. -/
theorem update_range_bounds (tbl : Char → Int) (kD : Nat → Nat → Int) (r q : seq_impl)
    (hlen : r.m_size = q.m_size)
    (hstart : startsInInsertion tbl q.m_seq r.m_seq = false) :
    ∃ r1, r.update tbl kD q = .ok r1 ∧ r1.m_begin ≤ r1.m_end ∧ r1.m_end ≤ r1.m_size ∧
      r1.m_size = r.m_size ∧
      ((∃ c ∈ q.m_seq.zip r.m_seq, isAligned tbl c = true) → r1.m_ifir ≤ r1.m_ilas) := by
  have hl : r.m_seq.length = q.m_seq.length := hlen
  rw [update_eq_updateCols r q hlen]
  rcases updateCols_zero (T := tbl) (K := kD) (q.m_seq.zip r.m_seq) (updateInit r) rfl with
    ⟨st, hst, _⟩ | ⟨herr, hs⟩
  · refine ⟨updateFinish tbl st.self, by simp [hst], ?_⟩
    obtain ⟨⟨h1, h2, _, h4⟩, h5⟩ := updateCols_rangeInv _ _ _ _ (rangeInv_init r) hst
    have h6 := updateCols_length _ _ _ _ hst
    have hz : (q.m_seq.zip r.m_seq).length = r.m_seq.length := by
      simp [List.length_zip, hl]
    simp only [Nat.zero_add, hz] at h1
    have h7 : (updateInit r).self.m_seq = r.m_seq := rfl
    rw [h7] at h6
    unfold updateFinish seq_impl.m_size
    by_cases hb : st.self.m_begin = UINT32_MAX
    · simp only [hb, ↓reduceIte, Nat.le_refl, Nat.zero_le, true_and]
      refine ⟨h6, fun ha => ?_⟩
      exact (h4 (h5 (Or.inr ha))).1
    · simp only [hb, ↓reduceIte, trimBuffer_length]
      refine ⟨?_, ?_, h6, fun ha => ?_⟩
      · rcases h2 with h2 | h2
        · exact absurd h2 hb
        · exact Nat.le_of_lt h2
      · omega
      · exact (h4 (h5 (Or.inr ha))).1
  · rw [List.map_fst_zip _ _ (Nat.le_of_eq hl.symm), List.map_snd_zip _ _ (Nat.le_of_eq hl),
      hstart] at hs
    exact absurd hs (by decide)

theorem update_range_bounds_witness :
    ∃ r1, (rowOf "--ACXDE-F--").update kResidueIX_model zeroScores (rowOf "A-AC-DEGFAA") = .ok r1 ∧
      r1.m_begin ≤ r1.m_end ∧ r1.m_end ≤ r1.m_size ∧ r1.m_ifir ≤ r1.m_ilas := by
  obtain ⟨r1, h, hb, he, _, hi⟩ := update_range_bounds kResidueIX_model zeroScores
    (rowOf "--ACXDE-F--") (rowOf "A-AC-DEGFAA") (by decide) (by decide)
  exact ⟨r1, h, hb, he, hi ⟨('A', 'A'), by decide, by decide⟩⟩

/-- C1, as stated, fails. Query `-A` and hit `XA` have equal length, and their
first column is gapped in the query alone: the backward search of `update` for
the hit character before the insertion starts at position -1, before the
buffer, and the call has no record as its defined result. -/
theorem update_range_bounds_before_buffer :
    (rowOf "XA").m_size = (rowOf "-A").m_size ∧
      startsInInsertion kResidueIX_model (rowOf "-A").m_seq (rowOf "XA").m_seq = true ∧
      (rowOf "XA").update kResidueIX_model zeroScores (rowOf "-A") = .error .outOfBounds ∧
      (-1 : Int) ∈ updateAccesses kResidueIX_model zeroScores (rowOf "XA") (rowOf "-A") := by
  refine ⟨by decide, by decide, rfl, by decide⟩

/-- C3. A hit row with a character outside the alphabet (`'?'`, table entry
`-1`) does not make `update` raise: the letter check compares a `uint8` with
`-1`, so the call returns a record.  The same holds for an invalid character of
the query in a column where the hit is gapped, which the check never sees. -/
theorem update_invalid_letter_returns :
    kResidueIX_model '?' = -1 ∧
      (∃ r1, (rowOf "A?").update kResidueIX_model zeroScores (rowOf "AC") = .ok r1 ∧
        r1.m_end = 2 ∧ r1.m_seq = ['A', '?']) ∧
      (∃ r1, (rowOf "A-").update kResidueIX_model zeroScores (rowOf "A?") = .ok r1) := by
  refine ⟨by decide, ⟨_, rfl, by decide, by decide⟩, ⟨_, rfl⟩⟩

/-- C8. Appending one character and then 2048 characters to a new row leaves a
capacity of 2048 for 2049 characters: the reallocation takes
`max (2 * capacity) |seq|` and leaves out the characters already stored. -/
theorem append_capacity_below_size :
    (((seq_impl.new "").append ['A']).append (List.replicate 2048 'A')).m_space = 2048 ∧
      (((seq_impl.new "").append ['A']).append (List.replicate 2048 'A')).m_size = 2049 := by
  have h1 : ((seq_impl.new "").append ['A']).m_size = 1 := rfl
  have h2 : ((seq_impl.new "").append ['A']).m_space = 1024 := rfl
  rw [append_size, append_space, h1, h2, List.length_replicate]
  decide

/-- C10. With query `AC-DE` and hit `ACXDE` all four aligned columns hold the
same character in both rows, and `update` leaves an identity count of 3: the
`D` behind the insertion is lower-cased before it is compared. -/
theorem update_identity_after_insertion :
    identicalColumns kResidueIX_model "AC-DE".toList "ACXDE".toList = 4 ∧
      ∃ r1, (rowOf "ACXDE").update kResidueIX_model zeroScores (rowOf "AC-DE") = .ok r1 ∧
        r1.m_identical = 3 := by
  refine ⟨by decide, _, rfl, by decide⟩

/-- C6. Truncation keeps the first `min inMaxHits n` hits, in order, when
`inMaxHits > 0`, and all hits when `inMaxHits = 0`; the numbering loop then
gives the `k`-th kept hit (from 1) the rank number `k` and changes nothing else.
Of five hits with `inMaxHits = 2` the first two are kept and numbered 1 and 2. -/
theorem truncate_then_number (inMaxHits : Nat) (hits : List Hit) :
    (0 < inMaxHits → truncateHits inMaxHits hits = hits.take (min inMaxHits hits.length)) ∧
      (inMaxHits = 0 → truncateHits inMaxHits hits = hits) ∧
      (numberHits 1 (truncateHits inMaxHits hits)).length = (truncateHits inMaxHits hits).length ∧
      (∀ k : Nat, (numberHits 1 (truncateHits inMaxHits hits))[k]? =
        (truncateHits inMaxHits hits)[k]?.map fun h => { h with m_nr := k + 1 }) ∧
      ∀ h1 h2 h3 h4 h5 : Hit,
        numberHits 1 (truncateHits 2 [h1, h2, h3, h4, h5]) =
          [{ h1 with m_nr := 1 }, { h2 with m_nr := 2 }] := by
  refine ⟨fun hpos => ?_, fun h0 => ?_, numberHits_length _ _, fun k => ?_, fun h1 h2 h3 h4 h5 => ?_⟩
  · unfold truncateHits
    split
    · rename_i h
      rw [Nat.min_eq_left (Nat.le_of_lt h.2)]
    · rename_i h
      have hle : hits.length ≤ inMaxHits := by
        by_contra hc
        exact h ⟨hpos, by omega⟩
      rw [Nat.min_eq_right hle, List.take_length]
  · simp [truncateHits, h0]
  · rw [numberHits_getElem?, Nat.add_comm]
  · simp [truncateHits, numberHits]

/-- C7. `CreateHSSP` raises "No hits found or remaining" exactly when the hit
list is empty after truncation; truncation never empties a list that has a hit,
so this is exactly when no row after the query row resolves; and when the error
is raised the output stream is as it was. -/
theorem CreateHSSP_noHits (resolve : String → Bool) (ide : seq_impl → ℚ)
    (render : List Hit → List String) (msa : List seq_impl) (inMaxHits : Nat)
    (outHSSP : List String) :
    ((CreateHSSP resolve ide render msa inMaxHits outHSSP).1 = .error .noHits ↔
        truncateHits inMaxHits (sortHits (ChainToHits resolve ide msa 'A' 0 [])) = []) ∧
      (truncateHits inMaxHits (sortHits (ChainToHits resolve ide msa 'A' 0 [])) = [] ↔
        ∀ s ∈ msa.tail, resolve s.m_id2 = false) ∧
      ((CreateHSSP resolve ide render msa inMaxHits outHSSP).1 = .error .noHits →
        (CreateHSSP resolve ide render msa inMaxHits outHSSP).2 = outHSSP) ∧
      ((CreateHSSP resolve ide render msa inMaxHits outHSSP).1 ≠ .error .noHits →
        (CreateHSSP resolve ide render msa inMaxHits outHSSP) =
          (.ok (), outHSSP ++ render (numberHits 1
            (truncateHits inMaxHits (sortHits (ChainToHits resolve ide msa 'A' 0 [])))))) := by
  have hC : ∀ l : List Hit, l.isEmpty = true ↔ l = [] := fun l => List.isEmpty_iff
  refine ⟨?_, ?_, ?_, ?_⟩
  · unfold CreateHSSP
    simp only
    split
    · rename_i h
      simp [(hC _).1 h]
    · rename_i h
      have hne : ¬ truncateHits inMaxHits (sortHits (ChainToHits resolve ide msa 'A' 0 [])) = [] :=
        fun hn => h ((hC _).2 hn)
      simp [hne]
  · rw [truncateHits_eq_nil, sortHits_eq_nil]
    cases msa with
    | nil => simp [ChainToHits]
    | cons q rows => simp [ChainToHits, List.filter_eq_nil_iff]
  · unfold CreateHSSP
    simp only
    split
    · intro _; rfl
    · intro h; simp at h
  · unfold CreateHSSP
    simp only
    split
    · intro h; simp at h
    · intro _; rfl

/-- C9, as amended. For two records with the same buffer, whatever their derived
fields hold at entry, `update` against the same query row ends alike and leaves
the same `m_ifir`, identity and similarity counts, gap counts, `m_begin`,
`m_end` and buffer.  If the two records are the same row and at entry also agree
on the fields that `update` does not reset (`m_ilas`, `m_jfir`, `m_jlas`,
`m_length`, the insertion list), the whole result is the same. -/
theorem update_entry_independence (tbl : Char → Int) (kD : Nat → Nat → Int)
    (r1 r2 q : seq_impl) (hbuf : r1.m_seq = r2.m_seq) :
    SameScanResult (r1.update tbl kD q) (r2.update tbl kD q) ∧
      (r1.m_id2 = r2.m_id2 → r1.m_space = r2.m_space → r1.m_ilas = r2.m_ilas →
        r1.m_jfir = r2.m_jfir → r1.m_jlas = r2.m_jlas → r1.m_length = r2.m_length →
        r1.m_insertions = r2.m_insertions → r1.update tbl kD q = r2.update tbl kD q) := by
  constructor
  · have h0 : CoreEq (updateInit r1) (updateInit r2) := by
      simp [CoreEq, updateInit, hbuf]
    have h := updateLoop_coreEq (T := tbl) (K := kD) q.m_seq 0 _ _ h0
    unfold seq_impl.update
    cases ha : updateLoop tbl kD q.m_seq 0 (updateInit r1) with
    | error e1 =>
      cases hb : updateLoop tbl kD q.m_seq 0 (updateInit r2) with
      | error e2 => simpa [ha, hb, CoreEqResult, SameScanResult] using h
      | ok b1 => simp [ha, hb, CoreEqResult] at h
    | ok a1 =>
      cases hb : updateLoop tbl kD q.m_seq 0 (updateInit r2) with
      | error e2 => simp [ha, hb, CoreEqResult] at h
      | ok b1 =>
        simp only [ha, hb, CoreEqResult] at h
        obtain ⟨-, -, -, -, -, -, -, -, h9, h10, h11, h12, h13, h14, h15, h16⟩ := h
        simp only [SameScanResult, SameScan, updateFinish, h12, h13, h16]
        split <;> simp_all
  · intro h1 h2 h3 h4 h5 h6 h7
    have h0 : updateInit r1 = setScore r1.m_score (updateInit r2) := by
      simp [updateInit, setScore, hbuf, h1, h2, h3, h4, h5, h6, h7]
    simp only [seq_impl.update, h0, updateLoop_setScore]
    cases updateLoop tbl kD q.m_seq 0 (updateInit r2) with
    | error e => rfl
    | ok st => simp only [Except.map, updateFinish_setScore]

theorem update_entry_independence_witness :
    SameScanResult
      (({ rowOf "ACXDE" with m_jfir := 7, m_ifir := 4, m_gaps := 2, m_end := 3 }).update
        kResidueIX_model zeroScores (rowOf "AC-DE"))
      ((rowOf "ACXDE").update kResidueIX_model zeroScores (rowOf "AC-DE")) :=
  (update_entry_independence kResidueIX_model zeroScores
    { rowOf "ACXDE" with m_jfir := 7, m_ifir := 4, m_gaps := 2, m_end := 3 } (rowOf "ACXDE")
    (rowOf "AC-DE") rfl).1

/-- C9, as stated, fails. A record built with `m_length = 5` keeps that value
through `update` when the rows have a single aligned column, where a fresh record
keeps 0; and a record entering with `m_jfir = 7`, `m_jlas = 9` and one stored
insertion leaves with both values, the old insertion, and the new insertion
numbered from 7, where a fresh record leaves with the new insertion alone. -/
theorem update_entry_dependence :
    (∃ a b,
      ({ rowOf "A" with m_length := 5 }).update kResidueIX_model zeroScores (rowOf "A") = .ok a ∧
      (rowOf "A").update kResidueIX_model zeroScores (rowOf "A") = .ok b ∧
      a.m_length = 5 ∧ b.m_length = 0) ∧
    (∃ a b,
      ({ rowOf "ACXDE" with
          m_jfir := 7, m_jlas := 9
          m_insertions := [{ m_ipos := 1, m_jpos := 1, m_seq := ['x', 'y', 'z'] }] }).update
        kResidueIX_model zeroScores (rowOf "AC-DE") = .ok a ∧
      (rowOf "ACXDE").update kResidueIX_model zeroScores (rowOf "AC-DE") = .ok b ∧
      a.m_insertions = [{ m_ipos := 1, m_jpos := 1, m_seq := ['x', 'y', 'z'] },
                        { m_ipos := 3, m_jpos := 9, m_seq := ['c', 'X', 'd'] }] ∧
      b.m_insertions = [{ m_ipos := 3, m_jpos := 3, m_seq := ['c', 'X', 'd'] }] ∧
      a.m_jlas = 9 ∧ b.m_jlas = 0) := by
  refine ⟨⟨_, _, rfl, rfl, by decide, by decide⟩, ⟨_, _, rfl, rfl, by decide, by decide, by decide, by decide⟩⟩

/-- C4. The query row is `qp ++ qa :: (qg ++ qb :: qo)` with `qg` its only run
of gap characters (`k = |qg| ≥ 1` columns) between the residues `qa` and `qb`;
the hit row `sp ++ a :: (sm ++ b :: so)` has no gap character and the same
lengths, and enters `update` without insertions (as a freshly built row does);
lower-casing `a` or `b` gives no gap symbol.  Then `update` returns a record with
exactly one insertion, whose text is `a`, the `k` inserted characters and `b`,
the two flanks in lower case, so that the reported length, text length minus 2,
is `k`; in the buffer `a` and `b` are lower-cased and nothing else changes. -/
theorem update_single_insertion (tbl : Char → Int) (kD : Nat → Nat → Int) (r q : seq_impl)
    (qp qg qo sp sm so : List Char) (qa qb a b : Char)
    (hq : q.m_seq = qp ++ qa :: (qg ++ qb :: qo))
    (hr : r.m_seq = sp ++ a :: (sm ++ b :: so))
    (hins : r.m_insertions = [])
    (hp : sp.length = qp.length) (hg : sm.length = qg.length) (ho : so.length = qo.length)
    (hk : qg ≠ [])
    (hqg : ∀ c ∈ qg, is_gap tbl c = true)
    (hqr : ∀ c ∈ qp ++ qa :: qb :: qo, is_gap tbl c = false)
    (hsr : ∀ c ∈ r.m_seq, is_gap tbl c = false)
    (hlow : is_gap tbl a.toLower = false ∧ is_gap tbl b.toLower = false) :
    ∃ r1 ins, r.update tbl kD q = .ok r1 ∧ r1.m_insertions = [ins] ∧
      ins.m_seq = a.toLower :: (sm ++ [b.toLower]) ∧ ins.m_seq.length - 2 = qg.length ∧
      r1.m_seq = sp ++ a.toLower :: (sm ++ b.toLower :: so) := by
  -- the rows have the same length, and their columns split into four runs
  have hlen : r.m_size = q.m_size := by
    simp only [seq_impl.m_size, hq, hr, List.length_append, List.length_cons, hp, hg, ho]
  obtain ⟨g0, gs, rfl⟩ := List.exists_cons_of_ne_nil hk
  obtain ⟨m0, ms, rfl⟩ : ∃ m0 ms, sm = m0 :: ms := by
    cases sm with
    | nil => simp at hg
    | cons m0 ms => exact ⟨m0, ms, rfl⟩
  have hgs : ms.length = gs.length := by simpa using hg
  have hcols : q.m_seq.zip r.m_seq =
      (qp.zip sp ++ [(qa, a)]) ++ ((g0, m0) :: (gs.zip ms ++ ((qb, b) :: qo.zip so))) := by
    rw [hq, hr, List.zip_append hp.symm, List.zip_cons_cons,
      List.zip_append (by simp [hgs]), List.zip_cons_cons]
    simp
  have hsr1 : ∀ c ∈ sp ++ a :: (m0 :: ms ++ b :: so), is_gap tbl c = false := hr ▸ hsr
  -- run 1: the aligned columns up to `a`
  have hA : ∀ c ∈ qp.zip sp ++ [(qa, a)], is_gap tbl c.1 = false ∧ is_gap tbl c.2 = false := by
    intro c hc
    rcases List.mem_append.1 hc with hc | hc
    · have h1 := (List.of_mem_zip hc).1
      have h2 := (List.of_mem_zip hc).2
      exact ⟨hqr _ (by simp [h1]), hsr1 _ (by simp [h2])⟩
    · simp only [List.mem_singleton] at hc
      subst hc
      exact ⟨hqr _ (by simp), hsr1 _ (by simp)⟩
  obtain ⟨st1, h1, hf1, hb1, hi1⟩ :=
    updateCols_aligned (T := tbl) (K := kD) _ 0 (updateInit r) hA rfl
  have hlenA : (qp.zip sp ++ [(qa, a)]).length = sp.length + 1 := by
    simp [List.length_zip, hp]
  -- run 2: the insertion opens behind `a`
  have hbuf1 : st1.self.m_seq[sp.length]? = some a := by
    rw [hb1]
    show r.m_seq[sp.length]? = some a
    rw [hr]
    exact getElem?_at_length _ _ _
  obtain ⟨st2, h2, hf2, hb2, hi2, ht2⟩ :=
    @updateColumn_open tbl kD sp.length g0 m0 a st1 (hqg _ (by simp)) (hsr1 _ (by simp)) hf1
      hbuf1 (hsr1 _ (by simp))
  -- run 3: the other columns of the insertion
  have hG : ∀ c ∈ gs.zip ms, is_gap tbl c.1 = true ∧ is_gap tbl c.2 = false := by
    intro c hc
    have h1 := (List.of_mem_zip hc).1
    have h2 := (List.of_mem_zip hc).2
    exact ⟨hqg _ (by simp [h1]), hsr1 _ (by simp [h2])⟩
  obtain ⟨st3, h3, hf3, hb3, hi3, ht3⟩ :=
    updateCols_extend (T := tbl) (K := kD) _ (sp.length + 1 + 1) st2 hG hf2
  -- run 4: the aligned column `b` closes it
  obtain ⟨st4, ins, h4, hf4, hb4, hi4, ht4⟩ :=
    @updateColumn_close tbl kD (sp.length + 1 + 1 + (gs.zip ms).length) qb b st3
      (hqr _ (by simp)) (hsr1 _ (by simp)) hf3
  -- run 5: the aligned columns behind it
  have hD : ∀ c ∈ qo.zip so, is_gap tbl c.1 = false ∧ is_gap tbl c.2 = false := by
    intro c hc
    have h1 := (List.of_mem_zip hc).1
    have h2 := (List.of_mem_zip hc).2
    exact ⟨hqr _ (by simp [h1]), hsr1 _ (by simp [h2])⟩
  obtain ⟨st5, h5, hf5, hb5, hi5⟩ :=
    updateCols_aligned (T := tbl) (K := kD) _
      (sp.length + 1 + 1 + (gs.zip ms).length + 1) st4 hD hf4
  -- the whole scan
  have hall : updateCols tbl kD (q.m_seq.zip r.m_seq) 0 (updateInit r) = .ok st5 := by
    rw [hcols, updateCols_append, h1]
    simp only [Nat.zero_add, hlenA, updateCols, h2]
    rw [updateCols_append, h3]
    simp only [updateCols, h4, h5]
  -- the buffer and the insertion list at the end of the scan
  have hbuf5 : st5.self.m_seq = sp ++ a.toLower :: (m0 :: ms ++ b.toLower :: so) := by
    rw [hb5, hb4, hb3, hb2, hb1]
    show (r.m_seq.set sp.length a.toLower).set _ b.toLower = _
    rw [hr, set_at_length]
    have e1 : sp.length + 1 + 1 + (gs.zip ms).length
        = (sp ++ a.toLower :: (m0 :: ms)).length := by
      simp [List.length_zip, hgs]
      omega
    have e2 : sp ++ a.toLower :: (m0 :: ms ++ b :: so)
        = (sp ++ a.toLower :: (m0 :: ms)) ++ b :: so := by simp
    rw [e1, e2, set_at_length]
    simp
  have hins5 : st5.self.m_insertions = [ins] := by
    rw [hi5, hi4, hi3, hi2, hi1]
    show r.m_insertions ++ [ins] = [ins]
    rw [hins]
    rfl
  have htext : ins.m_seq = a.toLower :: (m0 :: ms ++ [b.toLower]) := by
    rw [ht4, ht3, ht2, List.map_snd_zip _ _ (Nat.le_of_eq hgs)]
    simp
  -- the active range is the whole buffer, so the final pass changes nothing
  have hne : q.m_seq.zip r.m_seq ≠ [] := by rw [hcols]; simp
  have hfull : ∀ c ∈ q.m_seq.zip r.m_seq, is_gap tbl c.2 = false :=
    fun c hc => hsr _ (List.of_mem_zip hc).2
  obtain ⟨hbeg, hend⟩ := updateCols_hitFull (T := tbl) (K := kD) _ 0 _ _ hfull hne
    (Or.inl ⟨rfl, rfl⟩) hall
  have hzl : (q.m_seq.zip r.m_seq).length = st5.self.m_seq.length := by
    rw [updateCols_length _ _ _ _ hall, List.length_zip]
    show min q.m_seq.length r.m_seq.length = r.m_seq.length
    have : r.m_seq.length = q.m_seq.length := hlen
    omega
  have hnog : ∀ c ∈ st5.self.m_seq, is_gap tbl c = false := by
    rw [hbuf5]
    intro c hc
    simp only [List.mem_append, List.mem_cons] at hc
    have hmem : ∀ x, (x ∈ sp ∨ x = a ∨ (x = m0 ∨ x ∈ ms) ∨ x = b ∨ x ∈ so) →
        is_gap tbl x = false := fun x hx =>
      hsr1 x (by simp only [List.mem_append, List.mem_cons]; exact hx)
    rcases hc with hc | hc | hc | hc | hc
    · exact hmem c (Or.inl hc)
    · rw [hc]; exact hlow.1
    · exact hmem c (Or.inr (Or.inr (Or.inl hc)))
    · rw [hc]; exact hlow.2
    · exact hmem c (Or.inr (Or.inr (Or.inr (Or.inr hc))))
  refine ⟨updateFinish tbl st5.self, ins, ?_, ?_, htext, ?_, ?_⟩
  · rw [update_eq_updateCols r q hlen, hall]
  · simp only [updateFinish]
    split <;> exact hins5
  · rw [htext]
    simp [hgs]
  · have hM : (0 : Nat) ≠ UINT32_MAX := by decide
    simp only [updateFinish, hbeg, hM, ↓reduceIte, hend]
    rw [trimBuffer_id 0 _ _ 0 hnog (Nat.le_refl 0) (by omega)]
    exact hbuf5

theorem update_single_insertion_witness :
    ∃ r1 ins, (rowOf "ACXDE").update kResidueIX_model zeroScores (rowOf "AC-DE") = .ok r1 ∧
      r1.m_insertions = [ins] ∧ ins.m_seq = ['c', 'X', 'd'] ∧ ins.m_seq.length - 2 = 1 ∧
      r1.m_seq = ['A', 'c', 'X', 'd', 'E'] :=
  update_single_insertion kResidueIX_model zeroScores (rowOf "ACXDE") (rowOf "AC-DE")
    ['A'] ['-'] ['E'] ['A'] ['X'] ['E'] 'C' 'D' 'C' 'D' rfl rfl rfl rfl rfl rfl
    (by decide) (by decide) (by decide) (by decide) (by decide)

/-- C2, as amended. For rows of equal length (below `2^32`) in which no column
is gapped in the query alone, so that no insertion is recorded and no character
is lower-cased, and with the blank and `'.'` among the gap symbols, `update`
returns a record on which a second `update` against the same query row returns
that same record. -/
theorem update_twice_without_insertion (tbl : Char → Int) (kD : Nat → Nat → Int)
    (r q : seq_impl) (hlen : r.m_size = q.m_size) (hsize : r.m_size ≤ UINT32_MAX)
    (hblank : is_gap tbl ' ' = true) (hdot : is_gap tbl '.' = true)
    (hni : ∀ c ∈ q.m_seq.zip r.m_seq, is_gap tbl c.1 = true → is_gap tbl c.2 = true) :
    ∃ r1, r.update tbl kD q = .ok r1 ∧ r1.update tbl kD q = .ok r1 := by
  have hl : r.m_seq.length = q.m_seq.length := hlen
  have hsz : r.m_seq.length ≤ UINT32_MAX := hsize
  have hsnd : (q.m_seq.zip r.m_seq).map Prod.snd = r.m_seq :=
    List.map_snd_zip _ _ (Nat.le_of_eq hl)
  have hcl : (q.m_seq.zip r.m_seq).length = r.m_seq.length := by
    simp [List.length_zip, hl]
  -- the first scan
  obtain ⟨st1, -, -, h1, -, -, hb1, hi1, -, -⟩ :=
    updateCols_override (T := tbl) (K := kD) (0, 0) [] (q.m_seq.zip r.m_seq) 0 (updateInit r)
      0 0 hni rfl
  have hbuf1 : st1.self.m_seq = r.m_seq := hb1
  have hins1 : st1.self.m_insertions = r.m_insertions := hi1
  obtain ⟨f1, f2, f3, f4⟩ := updateCols_frame _ _ _ _ h1
  have hO : OutsideGap tbl r.m_seq st1 := by
    have h := updateCols_outside (T := tbl) (K := kD) (q.m_seq.zip r.m_seq) [] (updateInit r)
      st1 (by simp only [List.length_nil, Nat.zero_add, hcl]; exact hsz) (rangeInv_init r)
      (by intro j c hj; simp at hj) h1
    simpa [hsnd] using h
  refine ⟨updateFinish tbl st1.self, by rw [update_eq_updateCols r q hlen, h1], ?_⟩
  -- the record it leaves
  have hseq1 : (updateFinish tbl st1.self).m_seq =
      if st1.self.m_begin = UINT32_MAX then r.m_seq
      else trimBuffer tbl st1.self.m_begin st1.self.m_end 0 r.m_seq := by
    unfold updateFinish
    split <;> simp [hbuf1]
  have hlen1 : (updateFinish tbl st1.self).m_size = q.m_size := by
    unfold seq_impl.m_size
    rw [hseq1]
    split
    · exact hl
    · rw [trimBuffer_length]; exact hl
  have hequiv : List.Forall₂ (gapEquiv tbl) (updateFinish tbl st1.self).m_seq r.m_seq := by
    rw [hseq1]
    split
    · exact gapEquiv_refl_list _
    · rename_i hM
      refine trimBuffer_gapEquiv _ _ hblank hdot _ 0 fun j c hj ho => hO j c hj (Or.inr ?_)
      simpa using ho
  -- the second scan runs over equivalent columns, from a state that differs from the
  -- first start only in `m_ilas`, `m_length`, `m_score` and the buffer
  rw [update_eq_updateCols _ q hlen1, updateCols_gap_congr _ _ _ _ (zip_gapEquiv _ _ _ hequiv)]
  have hinit : updateInit (updateFinish tbl st1.self) =
      override st1.self.m_ilas st1.self.m_length (updateFinish tbl st1.self).m_score
        (updateFinish tbl st1.self).m_seq (updateInit r) := by
    have g1 : (updateFinish tbl st1.self).m_jfir = r.m_jfir := by
      unfold updateFinish; split <;> exact f1
    have g2 : (updateFinish tbl st1.self).m_jlas = r.m_jlas := by
      unfold updateFinish; split <;> exact f2
    have g3 : (updateFinish tbl st1.self).m_id2 = r.m_id2 := by
      unfold updateFinish; split <;> exact f3
    have g4 : (updateFinish tbl st1.self).m_space = r.m_space := by
      unfold updateFinish; split <;> exact f4
    have g5 : (updateFinish tbl st1.self).m_ilas = st1.self.m_ilas := by
      unfold updateFinish; split <;> rfl
    have g6 : (updateFinish tbl st1.self).m_length = st1.self.m_length := by
      unfold updateFinish; split <;> rfl
    have g7 : (updateFinish tbl st1.self).m_insertions = r.m_insertions := by
      unfold updateFinish; split <;> exact hins1
    simp only [updateInit, override, g1, g2, g3, g4, g5, g6, g7]
  rw [hinit]
  obtain ⟨st2, x, y, h2, h2o, -, -, -, hx, hy⟩ :=
    updateCols_override (T := tbl) (K := kD) (updateFinish tbl st1.self).m_score
      (updateFinish tbl st1.self).m_seq (q.m_seq.zip r.m_seq) 0 (updateInit r)
      st1.self.m_ilas st1.self.m_length hni rfl
  have hst : st2 = st1 := by
    rw [h1] at h2
    exact (Except.ok.inj h2).symm
  subst hst
  have hx1 : x = st2.self.m_ilas := by
    rcases hx with h | ⟨h, -⟩ <;> exact h
  have hy1 : y = st2.self.m_length := by
    rcases hy with h | ⟨h, -⟩ <;> exact h
  rw [h2o, hx1, hy1]
  -- the statements after the loop give the same record again
  simp only [Except.ok.injEq]
  by_cases hM : st2.self.m_begin = UINT32_MAX
  · simp [updateFinish, override, hM]
  · simp [updateFinish, override, hM, trimBuffer_idem _ _ hdot]

theorem update_twice_without_insertion_witness :
    ∃ r1, (rowOf "-AC-E~").update kResidueIX_model zeroScores (rowOf "QAC.DE") = .ok r1 ∧
      r1.update kResidueIX_model zeroScores (rowOf "QAC.DE") = .ok r1 ∧
      r1.m_seq = [' ', 'A', 'C', '.', 'E', ' '] := by
  obtain ⟨r1, h1, h2⟩ := update_twice_without_insertion kResidueIX_model zeroScores
    (rowOf "-AC-E~") (rowOf "QAC.DE") (by decide) (by decide) (by decide) (by decide)
    (by decide)
  refine ⟨r1, h1, h2, ?_⟩
  have h3 : (rowOf "-AC-E~").update kResidueIX_model zeroScores (rowOf "QAC.DE") = .ok _ := rfl
  rw [h3] at h1
  rw [← Except.ok.inj h1]
  decide

/-- C2, as stated, fails. With query `AC-DE` and a fresh hit `ACXDE` the first
`update` leaves identity count 3, one insertion and the buffer `AcXdE`; the
second, run on that record, compares the lower-cased `c` with `C`, leaves
identity count 2, and records the insertion a second time. -/
theorem update_twice_differs :
    (rowOf "ACXDE").update kResidueIX_model zeroScores (rowOf "AC-DE") = .ok
        { rowOf "ACXDE" with
          m_ifir := 1, m_ilas := 4, m_length := 5, m_identical := 3, m_similar := 5
          m_score := (3, 5), m_begin := 0, m_end := 5, m_gaps := 1, m_gapn := 1
          m_insertions := [{ m_ipos := 3, m_jpos := 3, m_seq := ['c', 'X', 'd'] }]
          m_seq := ['A', 'c', 'X', 'd', 'E'] } ∧
      seq_impl.update kResidueIX_model zeroScores
        { rowOf "ACXDE" with
          m_ifir := 1, m_ilas := 4, m_length := 5, m_identical := 3, m_similar := 5
          m_score := (3, 5), m_begin := 0, m_end := 5, m_gaps := 1, m_gapn := 1
          m_insertions := [{ m_ipos := 3, m_jpos := 3, m_seq := ['c', 'X', 'd'] }]
          m_seq := ['A', 'c', 'X', 'd', 'E'] }
        (rowOf "AC-DE") = .ok
        { rowOf "ACXDE" with
          m_ifir := 1, m_ilas := 4, m_length := 5, m_identical := 2, m_similar := 5
          m_score := (2, 5), m_begin := 0, m_end := 5, m_gaps := 1, m_gapn := 1
          m_insertions := [{ m_ipos := 3, m_jpos := 3, m_seq := ['c', 'X', 'd'] },
                           { m_ipos := 3, m_jpos := 3, m_seq := ['c', 'X', 'd'] }]
          m_seq := ['A', 'c', 'X', 'd', 'E'] } :=
  ⟨rfl, rfl⟩

/-- C14, as amended. For rows of equal length with an aligned column, whose first
column is not gapped in the query alone, `update` returns a record with `m_ifir`
one plus the number of non-gap query characters in the columns before the first
aligned column, and `m_ilas` one plus their number before the last aligned
column. -/
theorem update_query_positions (tbl : Char → Int) (kD : Nat → Nat → Int) (r q : seq_impl)
    (hlen : r.m_size = q.m_size)
    (hstart : startsInInsertion tbl q.m_seq r.m_seq = false) :
    ∃ r1, r.update tbl kD q = .ok r1 ∧
      ((∃ c ∈ q.m_seq.zip r.m_seq, isAligned tbl c = true) →
        ∃ i0 i1, firstAligned tbl (q.m_seq.zip r.m_seq) = some i0 ∧
          lastAligned tbl (q.m_seq.zip r.m_seq) = some i1 ∧
          r1.m_ifir = 1 + nonGapBefore tbl q.m_seq i0 ∧
          r1.m_ilas = 1 + nonGapBefore tbl q.m_seq i1) := by
  refine update_returns_of r q hlen hstart _ fun st hst hal => ?_
  have hl : r.m_seq.length = q.m_seq.length := hlen
  obtain ⟨i0, h0⟩ := firstAligned_isSome _ hal
  obtain ⟨i1, h1⟩ := lastAligned_isSome _ hal
  obtain ⟨-, e2, e3⟩ := updateCols_positions (T := tbl) (K := kD) _ 0 _ _
    (Nat.le_refl 1) hst
  obtain ⟨f1, f2, -⟩ := updateFinish_fields (T := tbl) st.self
  have hi : (updateInit r).self.m_ifir = 0 := rfl
  have hp : (updateInit r).ipos = 1 := rfl
  rw [List.map_fst_zip _ _ (Nat.le_of_eq hl.symm)] at e2 e3
  refine ⟨i0, i1, h0, h1, ?_, ?_⟩
  · rw [f1, e2, h0, hi, hp]
    simp
  · rw [f2, e3, h1, hp]

theorem update_query_positions_witness :
    ∃ r1, (rowOf "--ACXDE-F--").update kResidueIX_model zeroScores (rowOf "A-AC-DEGFAA")
        = .ok r1 ∧ r1.m_ifir = 2 ∧ r1.m_ilas = 7 := by
  obtain ⟨r1, h, hp⟩ := update_query_positions kResidueIX_model zeroScores (rowOf "--ACXDE-F--")
      (rowOf "A-AC-DEGFAA") (by decide) (by decide)
  obtain ⟨i0, i1, h0, h1, e0, e1⟩ := hp ⟨('A', 'A'), by decide, by decide⟩
  have g0 : firstAligned kResidueIX_model
      ((rowOf "A-AC-DEGFAA").m_seq.zip (rowOf "--ACXDE-F--").m_seq) = some 2 := by decide
  have g1 : lastAligned kResidueIX_model
      ((rowOf "A-AC-DEGFAA").m_seq.zip (rowOf "--ACXDE-F--").m_seq) = some 8 := by decide
  rw [g0] at h0
  rw [g1] at h1
  cases h0
  cases h1
  exact ⟨r1, h, e0.trans (by decide), e1.trans (by decide)⟩

/-- C14, as stated, fails. Query `-AC` and hit `XAC` have equal length and two
aligned columns, and their first column is gapped in the query alone: the
backward search of `update` starts at position -1, before the buffer, and the
call has no record as its defined result. -/
theorem update_query_positions_before_buffer :
    (rowOf "XAC").m_size = (rowOf "-AC").m_size ∧
      firstAligned kResidueIX_model ((rowOf "-AC").m_seq.zip (rowOf "XAC").m_seq) = some 1 ∧
      startsInInsertion kResidueIX_model (rowOf "-AC").m_seq (rowOf "XAC").m_seq = true ∧
      (rowOf "XAC").update kResidueIX_model zeroScores (rowOf "-AC") = .error .outOfBounds ∧
      (-1 : Int) ∈ updateAccesses kResidueIX_model zeroScores (rowOf "XAC") (rowOf "-AC") := by
  refine ⟨by decide, by decide, by decide, rfl, by decide⟩

/-- C11. With query `AC-DE`, hit `ACADE` and a table that scores every pair 0,
four columns are aligned and similar, and `update` leaves a similarity count of
5: the column gapped in the query falls through to the similarity test, whose
guard `rq >= 0 and rs >= 0` on the `uint8` values holds for the gap entry too. -/
theorem update_similarity_counts_insertion :
    similarColumns kResidueIX_model zeroScores "AC-DE".toList "ACADE".toList = 4 ∧
      ∃ r1, (rowOf "ACADE").update kResidueIX_model zeroScores (rowOf "AC-DE") = .ok r1 ∧
        r1.m_similar = 5 := by
  refine ⟨by decide, _, rfl, by decide⟩

/-- C12. With query `AC-DE` and a fresh hit `ACXDE` four columns are aligned and
`update` leaves the alignment length 5, the insertion column included; with
query `A` and hit `A` one column is aligned and the alignment length stays 0. -/
theorem update_length_counts_gaps :
    (alignedColumns kResidueIX_model "AC-DE".toList "ACXDE".toList = 4 ∧
      ∃ r1, (rowOf "ACXDE").update kResidueIX_model zeroScores (rowOf "AC-DE") = .ok r1 ∧
        r1.m_length = 5) ∧
    (alignedColumns kResidueIX_model "A".toList "A".toList = 1 ∧
      ∃ r1, (rowOf "A").update kResidueIX_model zeroScores (rowOf "A") = .ok r1 ∧
        r1.m_length = 0) := by
  refine ⟨⟨by decide, _, rfl, by decide⟩, ⟨by decide, _, rfl, by decide⟩⟩

/-- C13, as amended. For rows of equal length whose first column is not gapped in
the query alone `update` returns a record with `m_jfir` and `m_jlas` as they
were at entry; on a freshly built record both are 0 after `update`, so that
`m_jfir ≤ m_jlas`. -/
theorem update_keeps_hit_positions (tbl : Char → Int) (kD : Nat → Nat → Int) (r q : seq_impl)
    (hlen : r.m_size = q.m_size)
    (hstart : startsInInsertion tbl q.m_seq r.m_seq = false) :
    ∃ r1, r.update tbl kD q = .ok r1 ∧
      (r1.m_jfir = r.m_jfir ∧ r1.m_jlas = r.m_jlas ∧
        ∀ acc text, r = (seq_impl.new acc).append text →
          r1.m_jfir = 0 ∧ r1.m_jlas = 0 ∧ r1.m_jfir ≤ r1.m_jlas) := by
  refine update_returns_of r q hlen hstart _ fun st hst => ?_
  obtain ⟨f1, f2, -, -⟩ := updateCols_frame _ _ _ _ hst
  obtain ⟨-, -, g1, g2, -⟩ := updateFinish_fields (T := tbl) st.self
  have e1 : (updateFinish tbl st.self).m_jfir = r.m_jfir := g1.trans f1
  have e2 : (updateFinish tbl st.self).m_jlas = r.m_jlas := g2.trans f2
  refine ⟨e1, e2, fun acc text hr => ?_⟩
  rw [e1, e2, hr]
  exact ⟨rfl, rfl, Nat.le_refl _⟩

theorem update_keeps_hit_positions_witness :
    ∃ r1, (rowOf "-AD").update kResidueIX_model zeroScores (rowOf "CAD") = .ok r1 ∧
      r1.m_jfir = 0 ∧ r1.m_jlas = 0 := by
  obtain ⟨r1, h, -, -, hp⟩ := update_keeps_hit_positions kResidueIX_model zeroScores (rowOf "-AD") (rowOf "CAD")
      (by decide) (by decide)
  exact ⟨r1, h, (hp "" "-AD".toList rfl).1, (hp "" "-AD".toList rfl).2.1⟩

/-- C13, as stated, fails. With query `CAD` and a fresh hit `-AD` the columns 1
and 2 are aligned and hold the first and the second residue of the hit, and
`update` leaves `m_jfir = m_jlas = 0`. -/
theorem update_hit_positions_unset :
    firstAligned kResidueIX_model ("CAD".toList.zip "-AD".toList) = some 1 ∧
      lastAligned kResidueIX_model ("CAD".toList.zip "-AD".toList) = some 2 ∧
      1 + nonGapBefore kResidueIX_model "-AD".toList 1 = 1 ∧
      1 + nonGapBefore kResidueIX_model "-AD".toList 2 = 2 ∧
      ∃ r1, (rowOf "-AD").update kResidueIX_model zeroScores (rowOf "CAD") = .ok r1 ∧
        r1.m_jfir = 0 ∧ r1.m_jlas = 0 := by
  refine ⟨by decide, by decide, by decide, by decide, _, rfl, by decide, by decide⟩

/-- C17, as amended. For rows of equal length in which the hit holds a gap
character in every column, `update` returns a record with
`m_begin = m_end = 0`. -/
theorem update_empty_range (tbl : Char → Int) (kD : Nat → Nat → Int) (r q : seq_impl)
    (hlen : r.m_size = q.m_size) (hgap : ∀ c ∈ r.m_seq, is_gap tbl c = true) :
    ∃ r1, r.update tbl kD q = .ok r1 ∧ r1.m_begin = 0 ∧ r1.m_end = 0 := by
  obtain ⟨st, hst, hb, -⟩ := updateCols_hitGapped (T := tbl) (K := kD) (q.m_seq.zip r.m_seq) 0
    (updateInit r) fun c hc => hgap _ (List.of_mem_zip hc).2
  refine ⟨updateFinish tbl st.self, by rw [update_eq_updateCols r q hlen, hst], ?_⟩
  have hM : st.self.m_begin = UINT32_MAX := hb
  simp [updateFinish, hM]

theorem update_empty_range_witness :
    ∃ r1, (rowOf "-~.").update kResidueIX_model zeroScores (rowOf "A-C") = .ok r1 ∧
      r1.m_begin = 0 ∧ r1.m_end = 0 :=
  update_empty_range kResidueIX_model zeroScores (rowOf "-~.") (rowOf "A-C") (by decide)
    (by decide)

/-- C17, as stated, fails. Query `A-` and hit `-X` have no aligned column, and
`update` leaves `m_begin = 1`, `m_end = 2`: the column gapped in the query alone
sets the range. -/
theorem update_range_without_aligned_column :
    alignedColumns kResidueIX_model "A-".toList "-X".toList = 0 ∧
      ∃ r1, (rowOf "-X").update kResidueIX_model zeroScores (rowOf "A-") = .ok r1 ∧
        r1.m_begin = 1 ∧ r1.m_end = 2 := by
  refine ⟨by decide, _, rfl, by decide, by decide⟩

/-- C19, as amended. For rows of equal length whose first column is not gapped in
the query alone `update` raises no error, whatever the aligned length: it
returns a record whose `m_score` is the quotient of `m_identical` by `m_length`.
With fewer than two aligned columns `m_length` is left as it was at entry, so 0
on a record that entered with 0; and when `m_length` is 0 the quotient is a
division by zero, NaN when `m_identical` is 0 too and an infinity otherwise. -/
theorem update_score_unguarded (tbl : Char → Int) (kD : Nat → Nat → Int) (r q : seq_impl)
    (hlen : r.m_size = q.m_size)
    (hstart : startsInInsertion tbl q.m_seq r.m_seq = false) :
    ∃ r1, r.update tbl kD q = .ok r1 ∧
      r1.m_score = (r1.m_identical, r1.m_length) ∧
      (alignedColumns tbl q.m_seq r.m_seq < 2 → r1.m_length = r.m_length) ∧
      (r1.m_length = 0 →
        scoreKind r1.m_score = if r1.m_identical = 0 then .nan else .infinite) := by
  refine update_returns_of r q hlen hstart _ fun st hst => ?_
  obtain ⟨-, -, -, -, g5, g6, -, -, -, -, g11⟩ := updateFinish_fields (T := tbl) st.self
  have hsc : (updateFinish tbl st.self).m_score =
      ((updateFinish tbl st.self).m_identical, (updateFinish tbl st.self).m_length) := by
    rw [g11, g5, g6]
  refine ⟨hsc, fun hlt => ?_, fun h0 => ?_⟩
  · have h1 := updateCols_length_fresh (T := tbl) (K := kD) _ 0 _ _ rfl (Nat.le_refl 1) hst
    have hc : ((q.m_seq.zip r.m_seq).filter (isAligned tbl)).length < 2 := hlt
    rw [if_neg (by omega)] at h1
    exact g5.trans h1
  · rw [hsc]
    simp only [scoreKind, h0, ↓reduceIte]

theorem update_score_unguarded_witness :
    ∃ r1, (rowOf "-X").update kResidueIX_model zeroScores (rowOf "A-") = .ok r1 ∧
      r1.m_score = (r1.m_identical, r1.m_length) ∧ r1.m_length = 0 ∧
      scoreKind r1.m_score = .nan := by
  obtain ⟨r1, h, hp, hl, hk⟩ := update_score_unguarded kResidueIX_model zeroScores
    (rowOf "-X") (rowOf "A-") (by decide) (by decide)
  have h0 : r1.m_length = 0 := hl (by decide)
  refine ⟨r1, h, hp, h0, ?_⟩
  have h3 : (rowOf "-X").update kResidueIX_model zeroScores (rowOf "A-") = .ok _ := rfl
  rw [h3] at h
  have hi : r1.m_identical = 0 := by
    rw [← Except.ok.inj h]
    decide
  rw [hk h0, if_pos hi]

/-- C19, as stated, fails. With query `A` and a fresh hit `A` the aligned length
is 0 when the scan ends, and `update` returns a record: `m_score` is the
quotient of 1 by 0, an infinity. -/
theorem update_zero_length_returns :
    ∃ r1, (rowOf "A").update kResidueIX_model zeroScores (rowOf "A") = .ok r1 ∧
      r1.m_length = 0 ∧ r1.m_score = (1, 0) ∧ scoreKind r1.m_score = .infinite := by
  refine ⟨_, rfl, by decide, by decide, by decide⟩

/-- C16, as amended. For rows of equal length whose first column is not gapped in
the query alone, and a record that enters with an empty insertion list, `update`
returns a record whose insertions are in ascending order of `m_ipos`: each one's
`m_ipos` is strictly smaller than that of every insertion recorded after it. -/
theorem update_insertions_ascending (tbl : Char → Int) (kD : Nat → Nat → Int)
    (r q : seq_impl) (hlen : r.m_size = q.m_size)
    (hstart : startsInInsertion tbl q.m_seq r.m_seq = false) (hins : r.m_insertions = []) :
    ∃ r1, r.update tbl kD q = .ok r1 ∧
      (r1.m_insertions.Pairwise fun a b => a.m_ipos < b.m_ipos) := by
  refine update_returns_of r q hlen hstart _ fun st hst => ?_
  have h0 : InsInv (updateInit r) := by
    refine ⟨?_, ?_, fun hc => absurd hc (by simp [updateInit])⟩
    · show r.m_insertions.Pairwise _
      rw [hins]
      exact List.Pairwise.nil
    · intro x hx
      have hx1 : x ∈ r.m_insertions := hx
      rw [hins] at hx1
      simp at hx1
  obtain ⟨-, -, -, -, -, -, -, -, -, g10, -⟩ := updateFinish_fields (T := tbl) st.self
  rw [g10]
  exact (updateCols_insInv _ _ _ _ h0 hst).1

theorem update_insertions_ascending_witness :
    ∃ r1, (rowOf "ACXDEYYFG").update kResidueIX_model zeroScores (rowOf "AC-DE--FG") = .ok r1 ∧
      r1.m_insertions.map (fun x => x.m_ipos) = [3, 5] ∧
      r1.m_insertions.Pairwise fun a b => a.m_ipos < b.m_ipos := by
  obtain ⟨r1, h, hp⟩ := update_insertions_ascending kResidueIX_model zeroScores (rowOf "ACXDEYYFG")
      (rowOf "AC-DE--FG") (by decide) (by decide) rfl
  refine ⟨r1, h, ?_, hp⟩
  have h3 : (rowOf "ACXDEYYFG").update kResidueIX_model zeroScores (rowOf "AC-DE--FG")
      = .ok _ := rfl
  rw [h3] at h
  rw [← Except.ok.inj h]
  decide

/-- C16, as stated, fails. Query `-AD-E` and the fresh hit `XADYE`, with an empty
insertion list, have equal length, and their first column is gapped in the query
alone: the backward search of `update` starts at position -1, before the buffer,
and the call has no record as its defined result. -/
theorem update_insertions_before_buffer :
    (rowOf "XADYE").m_size = (rowOf "-AD-E").m_size ∧ (rowOf "XADYE").m_insertions = [] ∧
      startsInInsertion kResidueIX_model (rowOf "-AD-E").m_seq (rowOf "XADYE").m_seq = true ∧
      (rowOf "XADYE").update kResidueIX_model zeroScores (rowOf "-AD-E")
        = .error .outOfBounds ∧
      (-1 : Int) ∈ updateAccesses kResidueIX_model zeroScores (rowOf "XADYE")
        (rowOf "-AD-E") := by
  refine ⟨by decide, by decide, by decide, rfl, by decide⟩

/-- C15, as amended. For rows of equal length whose first column is not gapped in
the query alone `update` returns a record with `m_gapn` the number of columns
gapped in exactly one row between the first and the last aligned column, and
`m_gaps` the number of maximal runs of such columns there, a column gapped in
both rows neither counting nor ending a run; gapped columns before the first or
behind the last aligned column count in neither. -/
theorem update_gap_counts (tbl : Char → Int) (kD : Nat → Nat → Int) (r q : seq_impl)
    (hlen : r.m_size = q.m_size)
    (hstart : startsInInsertion tbl q.m_seq r.m_seq = false) :
    ∃ r1, r.update tbl kD q = .ok r1 ∧
      (r1.m_gapn = gapResidues tbl (q.m_seq.zip r.m_seq) ∧
        r1.m_gaps = gapEvents tbl (q.m_seq.zip r.m_seq)) := by
  refine update_returns_of r q hlen hstart _ fun st hst => ?_
  obtain ⟨e1, e2⟩ := updateCols_gaps (T := tbl) (K := kD) _ 0 _ _ rfl (Nat.le_refl 1) hst
  obtain ⟨-, -, -, -, -, -, -, g8, g9, -⟩ := updateFinish_fields (T := tbl) st.self
  have z1 : (updateInit r).self.m_gapn = 0 := rfl
  have z2 : (updateInit r).self.m_gaps = 0 := rfl
  rw [g8, g9, e1, e2, z1, z2, Nat.zero_add, Nat.zero_add]
  exact ⟨rfl, rfl⟩

theorem update_gap_counts_witness :
    ∃ r1, (rowOf "-ACXD--YF-A-").update kResidueIX_model zeroScores (rowOf "KAC-DE--FGAA")
        = .ok r1 ∧ r1.m_gapn = 4 ∧ r1.m_gaps = 3 := by
  obtain ⟨r1, h, h1, h2⟩ := update_gap_counts kResidueIX_model zeroScores (rowOf "-ACXD--YF-A-")
      (rowOf "KAC-DE--FGAA") (by decide) (by decide)
  exact ⟨r1, h, h1.trans (by decide), h2.trans (by decide)⟩

/-- C15, as stated, fails. Query `-A-C` and hit `XAYC` have equal length, and
their first column is gapped in the query alone: the backward search of `update`
starts at position -1, before the buffer, and the call has no record as its
defined result. -/
theorem update_gap_counts_before_buffer :
    (rowOf "XAYC").m_size = (rowOf "-A-C").m_size ∧
      gapResidues kResidueIX_model ((rowOf "-A-C").m_seq.zip (rowOf "XAYC").m_seq) = 1 ∧
      startsInInsertion kResidueIX_model (rowOf "-A-C").m_seq (rowOf "XAYC").m_seq = true ∧
      (rowOf "XAYC").update kResidueIX_model zeroScores (rowOf "-A-C") = .error .outOfBounds ∧
      (-1 : Int) ∈ updateAccesses kResidueIX_model zeroScores (rowOf "XAYC") (rowOf "-A-C") := by
  refine ⟨by decide, by decide, by decide, rfl, by decide⟩

/-- C18, as amended. For rows of equal length with an aligned column, whose first
column is not gapped in the query alone, and a table in which lower-casing does
not change whether a character is a gap character, `update` returns a record
whose buffer has the length it had before; a position outside
`[m_begin, m_end)` holds the blank, a position inside that held a gap character
holds `'.'`, and every other position inside holds its character or that
character in lower case. -/
theorem update_buffer_after (tbl : Char → Int) (kD : Nat → Nat → Int) (r q : seq_impl)
    (hlen : r.m_size = q.m_size)
    (hstart : startsInInsertion tbl q.m_seq r.m_seq = false) (hsize : r.m_size ≤ UINT32_MAX)
    (hal : ∃ c ∈ q.m_seq.zip r.m_seq, isAligned tbl c = true)
    (hlow : ∀ c, is_gap tbl c.toLower = is_gap tbl c) :
    ∃ r1, r.update tbl kD q = .ok r1 ∧
      (r1.m_seq.length = r.m_seq.length ∧
        ∀ (j : Nat) (c : Char), r.m_seq[j]? = some c →
          ∃ c1, r1.m_seq[j]? = some c1 ∧
            ((j < r1.m_begin ∨ r1.m_end ≤ j) → c1 = ' ') ∧
            (r1.m_begin ≤ j → j < r1.m_end → is_gap tbl c = true → c1 = '.') ∧
            (r1.m_begin ≤ j → j < r1.m_end → is_gap tbl c = false →
              c1 = c ∨ c1 = c.toLower)) := by
  refine update_returns_of r q hlen hstart _ fun st hst => ?_
  beta_reduce
  have hl : r.m_seq.length = q.m_seq.length := hlen
  have hsz : r.m_seq.length ≤ UINT32_MAX := hsize
  have hsnd : (q.m_seq.zip r.m_seq).map Prod.snd = r.m_seq :=
    List.map_snd_zip _ _ (Nat.le_of_eq hl)
  have hrel : LowerRel r.m_seq st.self.m_seq :=
    updateCols_lowerRel (T := tbl) (K := kD) r.m_seq _ 0 _ _ (lowerRel_refl _)
      (by rw [List.drop_zero, hsnd]) hst
  have hout := updateCols_outside (T := tbl) (K := kD) (q.m_seq.zip r.m_seq) [] _ _
    (by simp only [List.length_nil, List.length_zip, Nat.zero_add]; omega) (rangeInv_init r)
    (fun j c hj => by simp at hj) hst
  rw [List.nil_append, hsnd] at hout
  have hM : st.self.m_begin ≠ UINT32_MAX := by
    intro hM
    obtain ⟨c, hc, ha⟩ := hal
    obtain ⟨j, hj⟩ := List.getElem?_of_mem (List.of_mem_zip hc).2
    have hg := hout j c.2 hj (Or.inl hM)
    simp [isAligned, hg] at ha
  have hf : (updateFinish tbl st.self).m_seq =
        trimBuffer tbl st.self.m_begin st.self.m_end 0 st.self.m_seq ∧
      (updateFinish tbl st.self).m_begin = st.self.m_begin ∧
      (updateFinish tbl st.self).m_end = st.self.m_end := by
    simp [updateFinish, hM]
  obtain ⟨f1, f2, f3⟩ := hf
  rw [f1, f2, f3]
  refine ⟨by rw [trimBuffer_length]; exact hrel.1, fun j c hj => ?_⟩
  have hlt : j < r.m_seq.length := (List.getElem?_eq_some_iff.1 hj).1
  have hlt2 : j < st.self.m_seq.length := hrel.1 ▸ hlt
  have hb : st.self.m_seq[j]? = some st.self.m_seq[j] := List.getElem?_eq_getElem hlt2
  obtain ⟨d, hd, hc⟩ := hrel.2 j _ hb
  rw [hj] at hd
  cases hd
  have hg : is_gap tbl st.self.m_seq[j] = is_gap tbl c := by
    rcases hc with hc | hc
    · rw [hc]
    · rw [hc, hlow]
  refine ⟨_, by rw [trimBuffer_getElem?, hb]; rfl, ?_, ?_, ?_⟩
  · intro ho
    beta_reduce
    rw [Nat.zero_add, if_pos ho]
  · intro h1 h2 hgc
    beta_reduce
    rw [Nat.zero_add, if_neg (by omega), hg, if_pos hgc]
  · intro h1 h2 hgc
    beta_reduce
    rw [Nat.zero_add, if_neg (by omega), hg, hgc]
    exact hc

theorem update_buffer_after_witness :
    ∃ r1, (rowOf "-ACXD--YF-A-").update kResidueIX_model zeroScores (rowOf "KAC-DE--FGAA")
        = .ok r1 ∧ r1.m_seq.length = 12 ∧
      ∀ (j : Nat) (c : Char), (rowOf "-ACXD--YF-A-").m_seq[j]? = some c →
        ∃ c1, r1.m_seq[j]? = some c1 ∧
          ((j < r1.m_begin ∨ r1.m_end ≤ j) → c1 = ' ') ∧
          (r1.m_begin ≤ j → j < r1.m_end → is_gap kResidueIX_model c = true → c1 = '.') ∧
          (r1.m_begin ≤ j → j < r1.m_end → is_gap kResidueIX_model c = false →
            c1 = c ∨ c1 = c.toLower) := by
  obtain ⟨r1, h, hp1, hp2⟩ := update_buffer_after kResidueIX_model zeroScores (rowOf "-ACXD--YF-A-")
      (rowOf "KAC-DE--FGAA") (by decide) (by decide) (by decide) ⟨('A', 'A'), by decide, by decide⟩
      is_gap_model_toLower
  exact ⟨r1, h, hp1, hp2⟩

/-- C18, as stated, fails. Query `-CD` and hit `XCD` have equal length and an
aligned column, and their first column is gapped in the query alone: the
backward search of `update` reads and writes at position -1, before the buffer,
and the call has no record as its defined result. -/
theorem update_buffer_before_buffer :
    (rowOf "XCD").m_size = (rowOf "-CD").m_size ∧
      isAligned kResidueIX_model ('C', 'C') = true ∧
      ('C', 'C') ∈ (rowOf "-CD").m_seq.zip (rowOf "XCD").m_seq ∧
      startsInInsertion kResidueIX_model (rowOf "-CD").m_seq (rowOf "XCD").m_seq = true ∧
      (rowOf "XCD").update kResidueIX_model zeroScores (rowOf "-CD") = .error .outOfBounds ∧
      (-1 : Int) ∈ updateAccesses kResidueIX_model zeroScores (rowOf "XCD") (rowOf "-CD") := by
  refine ⟨by decide, by decide, by decide, by decide, rfl, by decide⟩

/-- C20. For a list of `N` hits with `N + 70 ≤ 2^32` and residue records whose
reads lie inside the rows, the ALIGNMENTS loop of `CreateHSSPOutput` ends, for
every number of rounds above the number of blocks, with the same list of
`(N + 69) / 70` blocks.  Block `k` (from 0) is headed `70k + 1` and
`min (70k + 70) N`; it holds between 1 and 70 hits, the next block starts one
after its last hit and the last block ends at `N`; it has one line for each
residue record, and each residue line carries one alignment character for each
hit of the block, the character of that hit at the column of the residue or a
blank. -/
theorem alignments_blocks (hits : List Hit) (res : List ResidueHInfo)
    (hN : hits.length + 70 ≤ 2 ^ 32) (hpos : ReadsInside hits res) :
    ∃ blocks,
      (∀ fuel, (hits.length + 69) / 70 < fuel →
        alignmentBlocks hits res fuel 0 = some blocks) ∧
      blocks.length = (hits.length + 69) / 70 ∧
      ∀ k b, blocks[k]? = some b →
        b.first = 70 * k + 1 ∧ b.last = min (70 * k + 70) hits.length ∧
        b.first ≤ b.last ∧ b.last + 1 - b.first ≤ 70 ∧
        (∀ b1, blocks[k + 1]? = some b1 → b1.first = b.last + 1) ∧
        (k + 1 = blocks.length → b.last = hits.length) ∧
        b.lines.length = res.length ∧
        (∀ l ∈ b.lines, ∀ s aln, l = .residue s aln → aln.length = b.last + 1 - b.first) ∧
        List.Forall₂ (LineOf ((hits.drop (b.first - 1)).take (b.last + 1 - b.first))) res
          b.lines := by
  obtain ⟨blocks, hf, hlen, hspec⟩ :=
    alignmentBlocks_spec hits res hN hpos ((hits.length + 69) / 70) 0 rfl
  refine ⟨blocks, fun fuel h => ?_, hlen, fun k b hb => ?_⟩
  · have := hf fuel h
    rwa [Nat.mul_zero] at this
  · obtain ⟨e1, e2, hfl⟩ := hspec k b hb
    rw [Nat.zero_add] at e1 e2 hfl
    have hk : k < blocks.length := (List.getElem?_eq_some_iff.1 hb).1
    rw [hlen] at hk
    have hm : min (70 * k + 70) hits.length =
        if 70 * k + 70 ≤ hits.length then 70 * k + 70 else hits.length := Nat.min_def
    have hcnt : b.last + 1 - b.first = min (70 * k + 70) hits.length - 70 * k := by
      rw [e1, e2]
      omega
    have hfst : b.first - 1 = 70 * k := by rw [e1]; rfl
    have hhs : ((hits.drop (70 * k)).take (min (70 * k + 70) hits.length - 70 * k)).length =
        min (70 * k + 70) hits.length - 70 * k := by
      rw [List.length_take, List.length_drop, hm]
      split <;> omega
    refine ⟨e1, e2, ?_, ?_, fun b1 hb1 => ?_, fun hk1 => ?_, hfl.length_eq.symm,
      fun l hl s aln hs => ?_, ?_⟩
    · rw [e1, e2, hm]
      split <;> omega
    · rw [hcnt, hm]
      split <;> omega
    · have hk1 : k + 1 < blocks.length := (List.getElem?_eq_some_iff.1 hb1).1
      rw [hlen] at hk1
      obtain ⟨f1, -, -⟩ := hspec (k + 1) b1 hb1
      rw [f1, e2, hm, Nat.zero_add]
      split <;> omega
    · rw [hlen] at hk1
      rw [e2, hm]
      split <;> omega
    · obtain ⟨ri, -, hri⟩ := forall₂_mem_right hfl l hl
      unfold LineOf at hri
      split at hri
      · rw [hs] at hri
        cases hri
      · obtain ⟨aln1, ha1, hf1⟩ := hri
        rw [hs] at ha1
        cases ha1
        rw [← hf1.length_eq, hhs, hcnt]
    · rw [hcnt, hfst]
      exact hfl

theorem alignments_blocks_witness :
    ∃ blocks,
      alignmentBlocks (List.replicate 71 (hitRow "ACD" 1 3))
          [⟨65, 1, 0⟩, ⟨0, 2, 0⟩, ⟨68, 3, 2⟩, ⟨69, 4, 2⟩] 3 0 = some blocks ∧
        blocks.length = 2 ∧
        ∀ k b, blocks[k]? = some b →
          b.first = 70 * k + 1 ∧ b.last = min (70 * k + 70) 71 ∧ b.lines.length = 4 := by
  obtain ⟨blocks, hf, hl, hb⟩ := alignments_blocks (List.replicate 71 (hitRow "ACD" 1 3))
    [⟨65, 1, 0⟩, ⟨0, 2, 0⟩, ⟨68, 3, 2⟩, ⟨69, 4, 2⟩] (by decide)
    (by
      intro ri hri _ hit hh _ _
      rw [List.eq_of_mem_replicate hh]
      simp only [List.mem_cons, List.mem_singleton, List.not_mem_nil, or_false] at hri
      rcases hri with rfl | rfl | rfl | rfl <;> decide)
  exact ⟨blocks, hf 3 (by decide), hl, fun k b h =>
    ⟨(hb k b h).1, (hb k b h).2.1, (hb k b h).2.2.2.2.2.2.1⟩⟩

/-- C30. When `append(s)` copies within the capacity it leaves, the first
`m_size` characters of the buffer are as before, the next `|s|` characters are
`s`, `m_size` has grown by `|s|`, `m_end` is the new `m_size` and `m_begin` is
unchanged; and after a series of such calls on a new record the buffer holds the
concatenation of the strings. -/
theorem append_extends (self : seq_impl) (s : List Char)
    (_hfit : (self.append s).m_size ≤ (self.append s).m_space) :
    ((self.append s).m_seq.take self.m_size = self.m_seq ∧
      (self.append s).m_seq.drop self.m_size = s ∧
      (self.append s).m_size = self.m_size + s.length ∧
      (self.append s).m_end = (self.append s).m_size ∧
      (self.append s).m_begin = self.m_begin) ∧
    ∀ acc ss, AppendsFit (seq_impl.new acc) ss →
      (appendAll (seq_impl.new acc) ss).m_seq = ss.flatten := by
  refine ⟨⟨?_, ?_, append_size self s, ?_, rfl⟩, fun acc ss _ => ?_⟩
  · simp [seq_impl.append, seq_impl.m_size]
  · simp [seq_impl.append, seq_impl.m_size]
  · rw [append_size]
    rfl
  · rw [appendAll_seq]
    rfl

theorem append_extends_witness :
    ((rowOf "AC").append "DE".toList).m_seq = "ACDE".toList ∧
      ((rowOf "AC").append "DE".toList).m_size = 4 ∧
      ((rowOf "AC").append "DE".toList).m_end = 4 ∧
      ((rowOf "AC").append "DE".toList).m_begin = 0 ∧
      (appendAll (seq_impl.new "") ["AC".toList, "DE".toList, "F".toList]).m_seq =
        "ACDEF".toList := by
  obtain ⟨⟨h1, h2, h3, h4, h5⟩, h6⟩ := append_extends (rowOf "AC") "DE".toList (by decide)
  refine ⟨?_, h3, h4.trans h3, h5, ?_⟩
  · rw [← List.take_append_drop (rowOf "AC").m_size ((rowOf "AC").append "DE".toList).m_seq,
      h1, h2]
    rfl
  · exact h6 "" ["AC".toList, "DE".toList, "F".toList]
      ⟨by decide, by decide, by decide, trivial⟩

/-- C22, as amended. For an entropy `e ≥ 0` held in a binary floating-point type
with 24 to 53 bits of significand (`float`, `double`), and an exact quotient
`x = 100 * e / log(20.0)` of at most `2^31`, the RELENT value is the quotient as
the code computes it, in floating point, with its fraction discarded.  The
computed quotient is within `relentMargin`, `(x + 1) / 2^(prec - 1)`, of `x`; so
the value is `k` whenever `x` lies between `k` and `k + 1` and at least that far
from both.  It is 0 for `e = 0`, and 99 or 100 for `e = log(20.0)`. -/
theorem relent_floor_of_quotient (fmt : FloatFormat) (log20 e : ℚ)
    (hp : 24 ≤ fmt.prec) (hp2 : fmt.prec ≤ 53) (hmin : fmt.emin ≤ -126)
    (hmax : 127 ≤ fmt.emax) (hlog : 2 ≤ log20) (hlog2 : log20 ≤ 4) (he : 0 ≤ e)
    (hr : 100 * e / log20 ≤ 2 ^ 31) :
    ∃ y : ℚ, relentQuotient fmt log20 e = some y ∧ relent fmt log20 e = some ⌊y⌋.toNat ∧
      |y - 100 * e / log20| ≤ relentMargin fmt (100 * e / log20) ∧
      (e = 0 → relent fmt log20 e = some 0) ∧
      (e = log20 → relent fmt log20 e = some 99 ∨ relent fmt log20 e = some 100) ∧
      ∀ k : Nat, (k : ℚ) + relentMargin fmt (100 * e / log20) ≤ 100 * e / log20 →
        100 * e / log20 + relentMargin fmt (100 * e / log20) < k + 1 →
        relent fmt log20 e = some k := by
  obtain ⟨y, hq, hy, hy0, herr, hz⟩ :=
    relent_quotient fmt log20 e hp hp2 hmin hmax hlog hlog2 he hr
  refine ⟨y, hq, hy, herr, fun h0 => ?_, fun hl => ?_,
    relent_eq_of_between fmt log20 e hp hp2 hmin hmax hlog hlog2 he hr⟩
  · rw [hy, hz h0]
    simp
  · have hx : 100 * e / log20 = 100 := by
      rw [hl, mul_div_assoc, div_self (by linarith), mul_one]
    rw [hx] at herr
    have hm : relentMargin fmt 100 ≤ 1 / 2 := by
      unfold relentMargin
      have h1 : (2 : ℚ) ^ 23 ≤ 2 ^ (fmt.prec - 1) := pow_le_pow_right₀ (by norm_num) (by omega)
      rw [div_le_iff₀ (by positivity)]
      have h2 : (100 : ℚ) + 1 ≤ 1 / 2 * 2 ^ 23 := by norm_num
      linarith
    have h3 := abs_le.1 herr
    rw [hy]
    rcases lt_or_le y 100 with h | h
    · left
      have h4 : ⌊y⌋ = 99 := by
        rw [Int.floor_eq_iff]
        push_cast
        constructor <;> linarith
      rw [h4]
      rfl
    · right
      have h4 : ⌊y⌋ = 100 := by
        rw [Int.floor_eq_iff]
        push_cast
        constructor <;> linarith
      rw [h4]
      rfl

theorem relent_floor_of_quotient_witness :
    relent binary64 log20_model (3 / 4) = some 25 := by
  obtain ⟨-, -, -, -, -, -, h⟩ := relent_floor_of_quotient binary64 log20_model (3 / 4)
    (by decide) (by decide) (by decide) (by decide) (by norm_num [log20_model])
    (by norm_num [log20_model]) (by norm_num) (by norm_num [log20_model])
  exact h 25 (by norm_num [log20_model, relentMargin, binary64])
    (by norm_num [log20_model, relentMargin, binary64])

/-- C22, as stated, fails. For the entropy 1.515625, which `float` and `double`
hold exactly, the quotient `100 * e / log(20.0)` is 50.59...: the nearest integer
is 51, and the RELENT value is 50 for either type of the entropy. -/
theorem relent_not_nearest :
    nearestInteger (100 * (97 / 64) / log20_model) = 51 ∧
      relent binary32 log20_model (97 / 64) = some 50 ∧
      relent binary64 log20_model (97 / 64) = some 50 := by
  refine ⟨?_, ?_, ?_⟩
  · unfold nearestInteger
    rw [Int.floor_eq_iff]
    norm_num [log20_model]
  · exact relent_eq_of_between binary32 log20_model (97 / 64)
      (by decide) (by decide) (by decide) (by decide) (by norm_num [log20_model])
      (by norm_num [log20_model]) (by norm_num) (by norm_num [log20_model]) 50
      (by norm_num [log20_model, relentMargin, binary32])
      (by norm_num [log20_model, relentMargin, binary32])
  · exact relent_eq_of_between binary64 log20_model (97 / 64)
      (by decide) (by decide) (by decide) (by decide) (by norm_num [log20_model])
      (by norm_num [log20_model]) (by norm_num) (by norm_num [log20_model]) 50
      (by norm_num [log20_model, relentMargin, binary64])
      (by norm_num [log20_model, relentMargin, binary64])

/-- C28. For rows of equal length whose first column is not gapped in the query
alone, `update` returns, and every buffer position it reads or writes, the
positions of the backward search for the hit character before an insertion run
included, lies in `[0, m_size)`. -/
theorem update_accesses_inside (tbl : Char → Int) (kD : Nat → Nat → Int) (r q : seq_impl)
    (hlen : r.m_size = q.m_size)
    (hstart : startsInInsertion tbl q.m_seq r.m_seq = false) :
    (∃ r1, r.update tbl kD q = .ok r1) ∧
      ∀ p ∈ updateAccesses tbl kD r q, 0 ≤ p ∧ p < (r.m_size : Int) := by
  have hl : r.m_seq.length = q.m_seq.length := hlen
  constructor
  · rcases update_cases (T := tbl) (K := kD) r q hlen with ⟨st, _, hu⟩ | ⟨_, hs⟩
    · exact ⟨_, hu⟩
    · rw [hstart] at hs
      exact absurd hs (by decide)
  · intro p hp
    unfold updateAccesses at hp
    rcases List.mem_append.1 hp with hp | hp
    · exact loopAccesses_inside (T := tbl) (K := kD) q.m_seq 0 (updateInit r)
        (by show r.m_seq.length = 0 + q.m_seq.length; omega) (fun _ => hstart) p hp
    · split at hp
      · simp at hp
      · rename_i st hst
        split at hp
        · simp at hp
        · obtain ⟨n, hn, rfl⟩ := List.mem_map.1 hp
          rw [List.mem_range] at hn
          have h1 := updateLoop_eq_updateCols (T := tbl) (K := kD) (q.m_seq.zip r.m_seq) 0
            (updateInit r) (by simp [updateInit, List.map_snd_zip _ _ (Nat.le_of_eq hl)])
          rw [List.map_fst_zip _ _ (Nat.le_of_eq hl.symm), hst] at h1
          have h2 : st.self.m_seq.length = r.m_seq.length :=
            updateCols_length _ _ _ _ h1.symm
          have hn1 : n < r.m_seq.length := by rw [← h2]; exact hn
          exact ⟨Int.ofNat_nonneg _, by
            show ((n : Nat) : Int) < _
            exact_mod_cast hn1⟩

theorem update_accesses_inside_witness :
    (∃ r1, (rowOf "-ACXD--YF-A-").update kResidueIX_model zeroScores (rowOf "KAC-DE--FGAA")
        = .ok r1) ∧
      ∀ p ∈ updateAccesses kResidueIX_model zeroScores (rowOf "-ACXD--YF-A-")
          (rowOf "KAC-DE--FGAA"), 0 ≤ p ∧ p < 12 :=
  update_accesses_inside kResidueIX_model zeroScores (rowOf "-ACXD--YF-A-")
    (rowOf "KAC-DE--FGAA") (by decide) (by decide)

/-- C23. For rows of equal length with exactly one aligned column `update`
leaves `m_length` as it was at entry, so 0 and not 1 on a freshly built record,
and the divisor of `m_score` is that value: the one aligned column sets the
local counter `length` to 1, and `m_length` is assigned from the second aligned
column on only.  (The other outcome of `UpdateGives` is the access before the
buffer when column 0 is gapped in the query alone.) -/
theorem update_one_aligned_column (tbl : Char → Int) (kD : Nat → Nat → Int) (r q : seq_impl)
    (hlen : r.m_size = q.m_size) (hone : alignedColumns tbl q.m_seq r.m_seq = 1) :
    UpdateGives tbl kD r q fun r1 =>
      r1.m_length = r.m_length ∧ r1.m_score = (r1.m_identical, r.m_length) ∧
        ∀ acc text, r = (seq_impl.new acc).append text →
          r1.m_length = 0 ∧ r1.m_score.2 = 0 := by
  refine updateGives_of r q hlen _ fun st hst => ?_
  have h1 := updateCols_length_fresh (T := tbl) (K := kD) _ 0 _ _ rfl (Nat.le_refl 1) hst
  have hc : ((q.m_seq.zip r.m_seq).filter (isAligned tbl)).length = 1 := hone
  rw [hc, if_neg (by omega)] at h1
  have h2 : st.self.m_length = r.m_length := h1
  obtain ⟨-, -, -, -, g5, g6, -, -, -, -, g11⟩ := updateFinish_fields (T := tbl) st.self
  have e1 : (updateFinish tbl st.self).m_length = r.m_length := g5.trans h2
  refine ⟨e1, by rw [g11, g6, h2], fun acc text hr => ⟨?_, ?_⟩⟩
  · rw [e1, hr]
    rfl
  · rw [g11]
    show st.self.m_length = 0
    rw [h2, hr]
    rfl

theorem update_one_aligned_column_witness :
    alignedColumns kResidueIX_model "CA-".toList "-AD".toList = 1 ∧
      ∃ r1, (rowOf "-AD").update kResidueIX_model zeroScores (rowOf "CA-") = .ok r1 ∧
        r1.m_length = 0 ∧ r1.m_score.2 = 0 := by
  rcases update_one_aligned_column kResidueIX_model zeroScores (rowOf "-AD") (rowOf "CA-")
      (by decide) (by decide) with ⟨r1, h, -, -, hp⟩ | ⟨_, hs⟩
  · exact ⟨by decide, r1, h, hp "" "-AD".toList rfl⟩
  · exact absurd hs (by decide)

/-- C27, as amended. For rows of equal length with at least two aligned columns,
whose first column is not gapped in the query alone, `update` returns a record
with `m_length` the number of columns from the first to the last aligned column
that are not gapped in both rows, which is the number of aligned columns plus
`m_gapn`. -/
theorem update_length_span (tbl : Char → Int) (kD : Nat → Nat → Int) (r q : seq_impl)
    (hlen : r.m_size = q.m_size)
    (hstart : startsInInsertion tbl q.m_seq r.m_seq = false) (htwo : 2 ≤ alignedColumns tbl q.m_seq r.m_seq) :
    ∃ r1, r.update tbl kD q = .ok r1 ∧
      (r1.m_length =
          ((alignedSpan tbl (q.m_seq.zip r.m_seq)).filter fun c => !bothGapped tbl c).length ∧
        r1.m_length = alignedColumns tbl q.m_seq r.m_seq + r1.m_gapn) := by
  refine update_returns_of r q hlen hstart _ fun st hst => ?_
  have h1 := updateCols_length_fresh (T := tbl) (K := kD) _ 0 _ _ rfl (Nat.le_refl 1) hst
  have hc : 2 ≤ ((q.m_seq.zip r.m_seq).filter (isAligned tbl)).length := htwo
  rw [if_pos hc] at h1
  obtain ⟨e1, -⟩ := updateCols_gaps (T := tbl) (K := kD) _ 0 _ _ rfl (Nat.le_refl 1) hst
  have z1 : (updateInit r).self.m_gapn = 0 := rfl
  rw [z1, Nat.zero_add] at e1
  obtain ⟨-, -, -, -, g5, -, -, -, g9, -⟩ := updateFinish_fields (T := tbl) st.self
  refine ⟨g5.trans h1, ?_⟩
  rw [g5, g9, h1, e1, filter_kinds_length, filter_aligned_span]
  rfl

theorem update_length_span_witness :
    ∃ r1, (rowOf "-ACXD--YF-A-").update kResidueIX_model zeroScores (rowOf "KAC-DE--FGAA")
        = .ok r1 ∧ r1.m_length = 9 ∧ r1.m_length = 5 + r1.m_gapn := by
  obtain ⟨r1, h, h1, h2⟩ := update_length_span kResidueIX_model zeroScores (rowOf "-ACXD--YF-A-")
      (rowOf "KAC-DE--FGAA") (by decide) (by decide) (by decide)
  exact ⟨r1, h, h1.trans (by decide), h2⟩

/-- C27, as stated, fails. Query `-DE` and hit `XDE` have equal length and two
aligned columns, and their first column is gapped in the query alone: the
backward search of `update` starts at position -1, before the buffer, and the
call has no record as its defined result. -/
theorem update_length_span_before_buffer :
    (rowOf "XDE").m_size = (rowOf "-DE").m_size ∧
      alignedColumns kResidueIX_model (rowOf "-DE").m_seq (rowOf "XDE").m_seq = 2 ∧
      startsInInsertion kResidueIX_model (rowOf "-DE").m_seq (rowOf "XDE").m_seq = true ∧
      (rowOf "XDE").update kResidueIX_model zeroScores (rowOf "-DE") = .error .outOfBounds ∧
      (-1 : Int) ∈ updateAccesses kResidueIX_model zeroScores (rowOf "XDE") (rowOf "-DE") := by
  refine ⟨by decide, by decide, by decide, rfl, by decide⟩

/-- C25, as amended. For rows of equal length whose first column is not gapped in
the query alone, and a table in which lower-casing does not change whether a
character is a gap character, `update` returns, and every insertion that it
records has this text: the lower-cased hit character of the nearest position
before the run that holds a residue (of position 0 when there is none), then the
hit characters of the columns of the run that are gapped in the query alone, as
they stand and not lower-cased, then the lower-cased hit character of the
aligned column that closes the run. -/
theorem update_insertion_texts (tbl : Char → Int) (kD : Nat → Nat → Int) (r q : seq_impl)
    (hlen : r.m_size = q.m_size)
    (hstart : startsInInsertion tbl q.m_seq r.m_seq = false) (hlow : ∀ c, is_gap tbl c.toLower = is_gap tbl c) :
    ∃ r1, r.update tbl kD q = .ok r1 ∧
      (∃ new, r1.m_insertions = r.m_insertions ++ new ∧
        ∀ x ∈ new, ∃ (g a b : Nat) (d : Char) (cb : Char × Char), g < a ∧ a < b ∧
          r.m_seq[g]? = some d ∧ (g = 0 ∨ is_gap tbl d = false) ∧
          (∀ (j : Nat) (c : Char), g < j → j < a → r.m_seq[j]? = some c →
            is_gap tbl c = true) ∧
          (∃ ca, (q.m_seq.zip r.m_seq)[a]? = some ca ∧ queryGapOnly tbl ca = true) ∧
          (q.m_seq.zip r.m_seq)[b]? = some cb ∧ isAligned tbl cb = true ∧
          (∀ (j : Nat) (c : Char × Char), a ≤ j → j < b →
            (q.m_seq.zip r.m_seq)[j]? = some c → isAligned tbl c = false) ∧
          x.m_seq = d.toLower :: runText tbl (q.m_seq.zip r.m_seq) a b ++ [cb.2.toLower]) := by
  refine update_returns_of r q hlen hstart _ fun st hst => ?_
  have hl : r.m_seq.length = q.m_seq.length := hlen
  have hsnd : (q.m_seq.zip r.m_seq).map Prod.snd = r.m_seq :=
    List.map_snd_zip _ _ (Nat.le_of_eq hl)
  obtain ⟨-, ⟨new, hnew, hrec⟩, -⟩ := updateCols_insTextInv (T := tbl) (K := kD)
    (q.m_seq.zip r.m_seq) r.m_insertions _ 0 _ _ rfl (insTextInv_init r q hl) hst
  obtain ⟨-, -, -, -, -, -, -, -, -, g10, -⟩ := updateFinish_fields (T := tbl) st.self
  refine ⟨new, g10.trans hnew, fun x hx => ?_⟩
  obtain ⟨g, a, b, d, cb, h1, h2, h3, h4, h5, h6, h7, h8, h9⟩ := hrec x hx
  rw [hsnd] at h3
  obtain ⟨k1, k2⟩ := h4 hlow
  refine ⟨g, a, b, d, cb, h1, h2, h3, k1, fun j c hj1 hj2 hc => ?_, h5, h6, h7, h8, h9⟩
  rw [← hsnd, List.getElem?_map] at hc
  cases hcj : (q.m_seq.zip r.m_seq)[j]? with
  | none => rw [hcj] at hc; simp at hc
  | some cj =>
    rw [hcj] at hc
    simp only [Option.map_some', Option.some.injEq] at hc
    rw [← hc]
    exact k2 j cj hj1 hj2 hcj

theorem update_insertion_texts_witness :
    ∃ r1, (rowOf "ACXDEYYFG").update kResidueIX_model zeroScores (rowOf "AC-DE--FG") = .ok r1 ∧
      ∀ x ∈ r1.m_insertions, ∃ (a b : Nat) (d : Char) (cb : Char × Char),
        x.m_seq = d.toLower ::
          runText kResidueIX_model ("AC-DE--FG".toList.zip "ACXDEYYFG".toList) a b ++
            [cb.2.toLower] := by
  obtain ⟨r1, h, new, hn, hp⟩ := update_insertion_texts kResidueIX_model zeroScores (rowOf "ACXDEYYFG")
      (rowOf "AC-DE--FG") (by decide) (by decide) is_gap_model_toLower
  refine ⟨r1, h, fun x hx => ?_⟩
  have hx1 : x ∈ new := by
    rw [hn] at hx
    exact hx
  obtain ⟨g, a, b, d, cb, -, -, -, -, -, -, -, -, -, h9⟩ := hp x hx1
  exact ⟨a, b, d, cb, h9⟩

/-- C25, as stated, fails. With query `AC-DE` and hit `ACXDE` the one insertion
that `update` records has the text `cXd`: the character `X` of the column gapped
in the query is not lower-cased. -/
theorem update_insertion_text_upper :
    ∃ r1, (rowOf "ACXDE").update kResidueIX_model zeroScores (rowOf "AC-DE") = .ok r1 ∧
      r1.m_insertions.map (fun x => x.m_seq) = [['c', 'X', 'd']] ∧
      ('X').toLower ≠ 'X' := by
  refine ⟨_, rfl, by decide, by decide⟩

/-- C29, as amended. For rows of equal length (at most `UINT32_MAX`) whose first
column is not gapped in the query alone `update` returns, and every insertion
that it records has a text of at least 3 characters; the length of the text less
2 is the number of columns gapped in the query alone from the column that opens
the run to the aligned column that closes it, and the Len column, computed as
`length() - 2` in unsigned arithmetic, is that number. -/
theorem update_insertion_lengths (tbl : Char → Int) (kD : Nat → Nat → Int) (r q : seq_impl)
    (hlen : r.m_size = q.m_size)
    (hstart : startsInInsertion tbl q.m_seq r.m_seq = false) (hsize : r.m_size ≤ UINT32_MAX) :
    ∃ r1, r.update tbl kD q = .ok r1 ∧
      (∃ new, r1.m_insertions = r.m_insertions ++ new ∧
        ∀ x ∈ new, 3 ≤ x.m_seq.length ∧
          ∃ (a b : Nat) (cb : Char × Char), a < b ∧
            (∃ ca, (q.m_seq.zip r.m_seq)[a]? = some ca ∧ queryGapOnly tbl ca = true) ∧
            (q.m_seq.zip r.m_seq)[b]? = some cb ∧ isAligned tbl cb = true ∧
            (∀ (j : Nat) (c : Char × Char), a ≤ j → j < b →
              (q.m_seq.zip r.m_seq)[j]? = some c → isAligned tbl c = false) ∧
            x.m_seq.length - 2 =
              ((((q.m_seq.zip r.m_seq).take b).drop a).filter (queryGapOnly tbl)).length ∧
            (x.m_seq.length + 2 ^ 64 - 2) % 2 ^ 64 = x.m_seq.length - 2) := by
  refine update_returns_of r q hlen hstart _ fun st hst => ?_
  have hl : r.m_seq.length = q.m_seq.length := hlen
  have hsz : r.m_seq.length ≤ UINT32_MAX := hsize
  obtain ⟨-, ⟨new, hnew, hrec⟩, -⟩ := updateCols_insTextInv (T := tbl) (K := kD)
    (q.m_seq.zip r.m_seq) r.m_insertions _ 0 _ _ rfl (insTextInv_init r q hl) hst
  obtain ⟨-, -, -, -, -, -, -, -, -, g10, -⟩ := updateFinish_fields (T := tbl) st.self
  refine ⟨new, g10.trans hnew, fun x hx => ?_⟩
  obtain ⟨g, a, b, d, cb, h1, h2, h3, h4, ⟨ca, hca, hq⟩, h6, h7, h8, h9⟩ := hrec x hx
  have hpos := runText_pos (T := tbl) h2 hca hq
  have hle := runText_length_le (T := tbl) (q.m_seq.zip r.m_seq) a b
  have hzl : (q.m_seq.zip r.m_seq).length ≤ UINT32_MAX := by
    rw [List.length_zip]
    omega
  have hM : UINT32_MAX = 4294967295 := rfl
  have hxl : x.m_seq.length = (runText tbl (q.m_seq.zip r.m_seq) a b).length + 2 := by
    rw [h9]
    simp
  refine ⟨by omega, a, b, cb, h2, ⟨ca, hca, hq⟩, h6, h7, h8, ?_, ?_⟩
  · rw [hxl, runText_length]
    rfl
  · omega

theorem update_insertion_lengths_witness :
    ∃ r1, (rowOf "ACXDEYYFG").update kResidueIX_model zeroScores (rowOf "AC-DE--FG") = .ok r1 ∧
      r1.m_insertions.map (fun x => x.m_seq.length) = [3, 4] ∧
      ∀ x ∈ r1.m_insertions,
        3 ≤ x.m_seq.length ∧ (x.m_seq.length + 2 ^ 64 - 2) % 2 ^ 64 = x.m_seq.length - 2 := by
  obtain ⟨r1, h, new, hn, hp⟩ := update_insertion_lengths kResidueIX_model zeroScores (rowOf "ACXDEYYFG")
      (rowOf "AC-DE--FG") (by decide) (by decide) (by decide)
  refine ⟨r1, h, ?_, fun x hx => ?_⟩
  · have h3 : (rowOf "ACXDEYYFG").update kResidueIX_model zeroScores (rowOf "AC-DE--FG")
        = .ok _ := rfl
    rw [h3] at h
    rw [← Except.ok.inj h]
    decide
  · have hx1 : x ∈ new := by
      rw [hn] at hx
      exact hx
    obtain ⟨k1, a, b, cb, -, -, -, -, -, -, k2⟩ := hp x hx1
    exact ⟨k1, k2⟩

/-- C29, as stated, fails. Query `-E` and hit `XE` have equal length, and their
first column, gapped in the query alone, opens an insertion run: the backward
search of `update` for the character before the run starts at position -1,
before the buffer, and the call has no record, and no insertion text, as its
defined result. -/
theorem update_insertion_lengths_before_buffer :
    (rowOf "XE").m_size = (rowOf "-E").m_size ∧
      queryGapOnly kResidueIX_model ('-', 'X') = true ∧
      startsInInsertion kResidueIX_model (rowOf "-E").m_seq (rowOf "XE").m_seq = true ∧
      (rowOf "XE").update kResidueIX_model zeroScores (rowOf "-E") = .error .outOfBounds ∧
      (-1 : Int) ∈ updateAccesses kResidueIX_model zeroScores (rowOf "XE") (rowOf "-E") := by
  refine ⟨by decide, by decide, by decide, rfl, by decide⟩

/-- C24, as amended. Take rows of equal length on which `update` returns, and
insert at an index `p ≥ 1` a column that holds a gap character in both rows (or
at index 0, when the hit row begins with a residue and lower-casing a residue
gives no gap character); the record with the longer row enters with the same
`m_jfir`, `m_ilas`, `m_length` and insertion list, as two freshly built records
do.  Then `update` returns on the longer rows too, with the same identity and
similarity counts, `m_ifir`, `m_ilas`, gap counts, alignment length and
insertion list.  (The other outcome of `UpdateGives` is the access before the
buffer when column 0 of the rows is gapped in the query alone.) -/
theorem update_both_gapped_column (tbl : Char → Int) (kD : Nat → Nat → Int)
    (r q r2 q2 : seq_impl) (p : Nat) (gq gs : Char)
    (hlen : r.m_size = q.m_size) (hp : p ≤ r.m_size)
    (hgq : is_gap tbl gq = true) (hgs : is_gap tbl gs = true)
    (hq2 : q2.m_seq = insertAt p gq q.m_seq) (hr2 : r2.m_seq = insertAt p gs r.m_seq)
    (hentry : r2.m_jfir = r.m_jfir ∧ r2.m_ilas = r.m_ilas ∧ r2.m_length = r.m_length ∧
      r2.m_insertions = r.m_insertions)
    (hside : 1 ≤ p ∨ (is_gap tbl (r.m_seq.getD 0 ' ') = false ∧
      ∀ c, is_gap tbl c = false → is_gap tbl c.toLower = false)) :
    UpdateGives tbl kD r q fun r1 =>
      ∃ r3, r2.update tbl kD q2 = .ok r3 ∧
        r3.m_identical = r1.m_identical ∧ r3.m_similar = r1.m_similar ∧
        r3.m_ifir = r1.m_ifir ∧ r3.m_ilas = r1.m_ilas ∧ r3.m_gaps = r1.m_gaps ∧
        r3.m_gapn = r1.m_gapn ∧ r3.m_length = r1.m_length ∧
        r3.m_insertions = r1.m_insertions := by
  refine updateGives_of r q hlen _ fun st hst => ?_
  have hl : r.m_seq.length = q.m_seq.length := hlen
  have hpl : p ≤ r.m_seq.length := hp
  obtain ⟨e1, e2, e3, e4⟩ := hentry
  have hlen2 : r2.m_size = q2.m_size := by
    show r2.m_seq.length = q2.m_seq.length
    rw [hr2, hq2, insertAt_length, insertAt_length, hl]
  have hzip : q2.m_seq.zip r2.m_seq = insertAt p (gq, gs) (q.m_seq.zip r.m_seq) := by
    rw [hr2, hq2, insertAt_zip p gq gs _ _ hl.symm]
  have hzl : (q.m_seq.zip r.m_seq).length = r.m_seq.length := by
    rw [List.length_zip]
    omega
  have htl : ((q.m_seq.zip r.m_seq).take p).length = p := by
    rw [List.length_take]
    omega
  -- the scan of the rows, cut at column `p`
  rw [← List.take_append_drop p (q.m_seq.zip r.m_seq), updateCols_append] at hst
  cases hm : updateCols tbl kD ((q.m_seq.zip r.m_seq).take p) 0 (updateInit r) with
  | error e => simp [hm] at hst
  | ok stm =>
    simp only [hm, htl, Nat.zero_add] at hst
    have hR0 : ShiftRel p gs (updateInit r) (updateInit r2) := by
      simp only [ShiftRel, updateInit, e1, e2, e3, e4, hr2]
      simp
    have hl0 : 1 ≤ p ∨ ∀ c, is_gap tbl c = false → is_gap tbl c.toLower = false := by
      rcases hside with h | h
      · exact Or.inl h
      · exact Or.inr h.2
    have hs0 : 1 ≤ p ∨ is_gap tbl ((updateInit r).self.m_seq.getD 0 ' ') = false := by
      rcases hside with h | h
      · exact Or.inl h
      · exact Or.inr h.1
    obtain ⟨bm, hbm, hRm, hlm, hsm⟩ := updateCols_shift (T := tbl) (K := kD) hgs hl0
      ((q.m_seq.zip r.m_seq).take p) 0 0 (updateInit r) (updateInit r2) stm
      (fun j _ hj => by rw [shiftIdx_of_lt (by omega)]; rfl) hpl hs0 hR0 hm
    obtain ⟨b3, hb3, hR3, -, -⟩ := updateCols_shift (T := tbl) (K := kD) hgs hl0
      ((q.m_seq.zip r.m_seq).drop p) p 1 stm bm st
      (fun j hj _ => shiftIdx_of_le hj) (by rw [hlm]; exact hpl) hsm hRm hst
    have hup : r2.update tbl kD q2 = .ok (updateFinish tbl b3.self) := by
      rw [update_eq_updateCols r2 q2 hlen2, hzip]
      unfold insertAt
      rw [updateCols_append, hbm]
      simp only [htl, Nat.zero_add, updateCols, updateColumn_bothGap bm hgq hgs, hb3]
    obtain ⟨h1, h2, h3, h4, h5, h6, h7, h8, h9, h10, h11, h12, h13, h14, h15, h16, h17⟩ := hR3
    obtain ⟨a1, a2, -, -, a5, a6, a7, a8, a9, a10, -⟩ := updateFinish_fields (T := tbl) st.self
    obtain ⟨c1, c2, -, -, c5, c6, c7, c8, c9, c10, -⟩ := updateFinish_fields (T := tbl) b3.self
    refine ⟨_, hup, ?_, ?_, ?_, ?_, ?_, ?_, ?_, ?_⟩
    · rw [c6, a6, h12]
    · rw [c7, a7, h13]
    · rw [c1, a1, h9]
    · rw [c2, a2, h10]
    · rw [c8, a8, h14]
    · rw [c9, a9, h15]
    · rw [c5, a5, h11]
    · rw [c10, a10, h16]

theorem update_both_gapped_column_witness :
    ∃ r1 r3, (rowOf "ACXD-E").update kResidueIX_model zeroScores (rowOf "AC-DKE") = .ok r1 ∧
      (rowOf "AC.XD-E").update kResidueIX_model zeroScores (rowOf "AC--DKE") = .ok r3 ∧
      r3.m_identical = r1.m_identical ∧ r3.m_length = r1.m_length ∧
      r3.m_insertions = r1.m_insertions := by
  rcases update_both_gapped_column kResidueIX_model zeroScores (rowOf "ACXD-E")
      (rowOf "AC-DKE") (rowOf "AC.XD-E") (rowOf "AC--DKE") 2 '-' '.' (by decide) (by decide)
      (by decide) (by decide) (by decide) (by decide) ⟨rfl, rfl, rfl, rfl⟩
      (Or.inl (by decide)) with ⟨r1, h, r3, h3, k1, -, -, -, -, -, k7, k8⟩ | ⟨_, hs⟩
  · exact ⟨r1, r3, h, h3, k1, k7, k8⟩
  · exact absurd hs (by decide)

/-- C24, as stated, fails. The hit `-XD` against the query `A-D` records an
insertion with the text `-Xd`: no residue of the hit stands before the run, and
the search stops at position 0.  With the column `('-', '.')`, gapped in both
rows, inserted at index 0 the hit is `.-XD`, the query `-A-D`, and the text is
`.Xd`. -/
theorem update_both_gapped_column_changes_text :
    "-A-D".toList = insertAt 0 '-' "A-D".toList ∧
      ".-XD".toList = insertAt 0 '.' "-XD".toList ∧
      is_gap kResidueIX_model '-' = true ∧ is_gap kResidueIX_model '.' = true ∧
      ∃ r1 r3, (rowOf "-XD").update kResidueIX_model zeroScores (rowOf "A-D") = .ok r1 ∧
        (rowOf ".-XD").update kResidueIX_model zeroScores (rowOf "-A-D") = .ok r3 ∧
        r1.m_insertions.map (fun x => x.m_seq) = [['-', 'X', 'd']] ∧
        r3.m_insertions.map (fun x => x.m_seq) = [['.', 'X', 'd']] := by
  refine ⟨by decide, by decide, by decide, by decide, _, _, rfl, rfl, by decide, by decide⟩

end Hssp
